import Mathlib

/-!
# Verification of the DAG workflow execution engine

A shallow embedding of the workflow core (graph validator, cycle detector,
topological planner, input resolver, run orchestrator) together with proofs
of its specification claims.

Conventions of the embedding:
* JavaScript `Map`s are association lists `List (String × β)` with
  `mapGet`/`mapSet` mirroring `Map.get`/`Map.set` (`mapSet` overwrites in
  place, preserving insertion order, exactly like `Map.set`).
* Plain JavaScript record objects (node outputs, resolved inputs) are
  association lists `RecordV` with unique keys maintained by `recSet`.
* The recursive depth-first searches and the Kahn loop are written with an
  explicit fuel argument so that they are structurally recursive and fully
  evaluable; every exported entry point supplies a fuel that is proved (for
  the DFS / Kahn loops) or argued (for `findCycle`, whose output only feeds
  an error message) to be large enough that exhaustion is unreachable.
* Real time is abstracted: `Date.now()` / `new Date().toISOString()` are
  modelled by a deterministic counter (`clock`) threaded through the runner
  state, and the executor timeout race is abstracted into the executor's
  settled outcome.
-/

/-- The values stored in node outputs / resolved inputs (JS `unknown`
restricted to the shapes the engine actually moves around). `null` is the
JS `null` produced by the `?? null` fallback of the input resolver. -/
inductive Value where
  | null : Value
  | bool (b : Bool) : Value
  | str (s : String) : Value
  | num (n : Int) : Value
deriving DecidableEq, Repr

/-- A JavaScript record object (`Record<string, unknown>`). -/
abbrev RecordV := List (String × Value)

/-- `Map.get` — first binding wins (keys are unique in maps built by `mapSet`). -/
def mapGet {β : Type} : List (String × β) → String → Option β
  | [], _ => none
  | (k, v) :: rest, key => if k = key then some v else mapGet rest key

/-- `Map.get(k) ?? d` / `Map.get(k) || d` for the uses where the stored value
is never falsy in the JS sense. -/
def mapGetD {β : Type} (m : List (String × β)) (key : String) (d : β) : β :=
  (mapGet m key).getD d

/-- `Map.set` — replaces the first binding of the key in place (JS `Map.set`
keeps the original insertion position), else appends. -/
def mapSet {β : Type} : List (String × β) → String → β → List (String × β)
  | [], key, v => [(key, v)]
  | (k, w) :: rest, key, v =>
    if k = key then (key, v) :: rest else (k, w) :: mapSet rest key v

/-- Field read on a JS record object. -/
def recGet (r : RecordV) (key : String) : Option Value := mapGet r key

/-- `r[key] ?? null`. -/
def recGetD (r : RecordV) (key : String) : Value := (recGet r key).getD Value.null

/-- Field assignment `r[key] = v` on a JS record object. -/
def recSet (r : RecordV) (key : String) (v : Value) : RecordV := mapSet r key v

/-- `Object.assign(dst, src)`: copy every field of `src` into `dst` in order,
overwriting existing keys. -/
def recAssign (dst src : RecordV) : RecordV :=
  src.foldl (fun acc kv => recSet acc kv.1 kv.2) dst

-- ============================================================================
-- Data model (types/workflow.ts)
-- ============================================================================

/-- The `data` record of a node: a `label` (always present, typed `string`)
plus the remaining type-specific fields. -/
structure NodeData where
  label : String
  fields : RecordV := []
deriving DecidableEq, Repr

/-- A workflow node. `position` is UI metadata never consumed by the core and
is omitted from the embedding. -/
structure WorkflowNode where
  id : String
  type : String
  data : NodeData
deriving DecidableEq, Repr

/-- A workflow edge: `target` depends on `source`. -/
structure WorkflowEdge where
  id : String
  source : String
  target : String
  sourcePort : Option String := none
  targetPort : Option String := none
  label : Option String := none
deriving DecidableEq, Repr

/-- Port direction. -/
inductive PortType where
  | input : PortType
  | output : PortType
deriving DecidableEq, Repr

/-- A port definition. -/
structure PortDefinition where
  id : String
  nodeId : String
  type : PortType
  label : String
  dataType : String
  required : Bool := false
deriving DecidableEq, Repr

/-- Workflow metadata. -/
structure WorkflowMetadata where
  id : String
  name : String
  version : String
  createdAt : String
  updatedAt : String
deriving DecidableEq, Repr

/-- A complete workflow definition. -/
structure Workflow where
  metadata : WorkflowMetadata
  nodes : List WorkflowNode
  edges : List WorkflowEdge
  ports : List PortDefinition
deriving DecidableEq, Repr

-- ============================================================================
-- Graph helpers (schema.ts)
-- ============================================================================

/-- `buildAdjacencyList`: every node id gets an (initially empty) neighbor
list, then every edge appends its target to its source's list (creating the
entry when the source is not a node id, as `adjacency.get(...) || []` does). -/
def buildAdjacencyList (nodes : List WorkflowNode) (edges : List WorkflowEdge) :
    List (String × List String) :=
  let adjacency := nodes.foldl (fun m node => mapSet m node.id []) []
  edges.foldl
    (fun m edge => mapSet m edge.source (mapGetD m edge.source [] ++ [edge.target]))
    adjacency

/-- The depth-first search of `detectCycle` (`hasCycleUtil`).  `visited` and
`recursionStack` are the two JS sets; the recursion stack is passed down (a
frame's additions are discarded on return, matching the add/delete pair in the
source).  The `fuel` argument bounds the recursion depth; each recursive visit
adds a fresh id to `visited`, so a fuel exceeding the number of distinct ids
can never run out (proved below). -/
def hasCycleUtil (adjacency : List (String × List String)) :
    Nat → List String → List String → String → Bool × List String
  | 0, visited, _, _ => (false, visited)
  | fuel + 1, visited, recursionStack, nodeId =>
    if nodeId ∈ recursionStack then (true, visited)
    else if nodeId ∈ visited then (false, visited)
    else
      (mapGetD adjacency nodeId []).foldl
        (fun acc neighbor =>
          if acc.1 then acc
          else hasCycleUtil adjacency fuel acc.2 (nodeId :: recursionStack) neighbor)
        (false, nodeId :: visited)

/-- All ids that a traversal of the graph can ever touch: node ids plus both
endpoints of every edge.  Used only to size the DFS fuel. -/
def allGraphIds (nodes : List WorkflowNode) (edges : List WorkflowEdge) : List String :=
  nodes.map (fun n => n.id) ++ edges.map (fun e => e.source) ++ edges.map (fun e => e.target)

/-- `detectCycle`: depth-first search from every node with a shared `visited`
set; returns `true` as soon as a node is re-encountered while on the recursion
stack. -/
def detectCycle (nodes : List WorkflowNode) (edges : List WorkflowEdge) : Bool :=
  let adjacency := buildAdjacencyList nodes edges
  let fuel := (allGraphIds nodes edges).length + 1
  (nodes.foldl
    (fun acc node =>
      if acc.1 then acc
      else hasCycleUtil adjacency fuel acc.2 [] node.id)
    (false, [])).1

/-- `validateWorkflowDAG` result. -/
structure ValidationResult where
  valid : Bool
  errors : List String
  warnings : List String
deriving DecidableEq, Repr

/-- `validateWorkflowDAG`: cycle check, dangling-endpoint hard errors,
isolated-node and duplicate-edge warnings. -/
def validateWorkflowDAG (nodes : List WorkflowNode) (edges : List WorkflowEdge) :
    ValidationResult :=
  let errors : List String :=
    if detectCycle nodes edges then
      ["Workflow contains a cycle - workflows must be acyclic (DAG)"]
    else []
  let nodeIds := nodes.map (fun n => n.id)
  let errors := edges.foldl
    (fun errs edge =>
      let errs :=
        if edge.source ∈ nodeIds then errs
        else errs ++ ["Edge " ++ edge.id ++ " references non-existent source node: " ++ edge.source]
      if edge.target ∈ nodeIds then errs
      else errs ++ ["Edge " ++ edge.id ++ " references non-existent target node: " ++ edge.target])
    errors
  let connectedNodes := edges.foldl (fun s edge => s ++ [edge.source, edge.target]) []
  let warnings := nodes.foldl
    (fun ws node =>
      if node.id ∉ connectedNodes ∧ nodes.length > 1 then
        ws ++ ["Node " ++ node.id ++ " (" ++ node.data.label ++ ") is not connected to any other nodes"]
      else ws)
    []
  let edgeMap := edges.foldl
    (fun (m : List (String × Nat)) edge =>
      let key := edge.source ++ "->" ++ edge.target
      mapSet m key (mapGetD m key 0 + 1))
    []
  let warnings := edgeMap.foldl
    (fun ws kv =>
      if kv.2 > 1 then ws ++ ["Multiple edges exist between the same nodes: " ++ kv.1]
      else ws)
    warnings
  { valid := errors.length = 0, errors := errors, warnings := warnings }

-- ============================================================================
-- Topological sort (schema.ts)
-- ============================================================================

/-- The in-degree map of `topologicalSort`: every node id starts at `0`, then
every edge increments its target (also creating entries for targets that are
not node ids, as `inDegree.get(...) || 0` does). -/
def buildInDegree (nodes : List WorkflowNode) (edges : List WorkflowEdge) :
    List (String × Int) :=
  let inDegree := nodes.foldl (fun m node => mapSet m node.id (0 : Int)) []
  edges.foldl (fun m edge => mapSet m edge.target (mapGetD m edge.target 0 + 1)) inDegree

/-- One `while` iteration body's neighbor loop of `topologicalSort`: decrement
each neighbor's in-degree and enqueue those that reach zero. -/
def kahnStep (acc : List (String × Int) × List String) (neighbor : String) :
    List (String × Int) × List String :=
  let degree := mapGetD acc.1 neighbor 0 - 1
  let m := mapSet acc.1 neighbor degree
  if degree = 0 then (m, acc.2 ++ [neighbor]) else (m, acc.2)

/-- The `while (queue.length > 0)` loop of `topologicalSort`.  Each iteration
pops the queue head, appends the corresponding node (when the id is a real
node) to the result, and runs the neighbor loop.  `fuel` bounds the number of
iterations; it is proved below that a fuel of at least
`Φ(inDegree) + queue.length` (a strictly decreasing measure) never runs out. -/
def kahnRun (adjacency : List (String × List String))
    (nodeMap : List (String × WorkflowNode)) :
    Nat → List String → List (String × Int) → List WorkflowNode → List WorkflowNode
  | 0, _, _, result => result
  | fuel + 1, queue, inDegree, result =>
    match queue with
    | [] => result
    | nodeId :: rest =>
      let result' :=
        match mapGet nodeMap nodeId with
        | some node => result ++ [node]
        | none => result
      let step := (mapGetD adjacency nodeId []).foldl kahnStep (inDegree, rest)
      kahnRun adjacency nodeMap fuel step.2 step.1 result'

/-- `new Map(nodes.map(n => [n.id, n]))` — later nodes overwrite earlier ones
with the same id, exactly like the `Map` constructor. -/
def buildNodeMap (nodes : List WorkflowNode) : List (String × WorkflowNode) :=
  nodes.foldl (fun m n => mapSet m n.id n) []

/-- `topologicalSort`: Kahn's algorithm with a FIFO queue seeded by the nodes
of in-degree zero in original array order; returns `none` when not every node
was output (a cycle or an unresolvable in-degree). -/
def topologicalSort (nodes : List WorkflowNode) (edges : List WorkflowEdge) :
    Option (List WorkflowNode) :=
  let adjacency := buildAdjacencyList nodes edges
  let inDegree := buildInDegree nodes edges
  let queue := (nodes.filter (fun node => mapGet inDegree node.id = some 0)).map
    (fun node => node.id)
  let nodeMap := buildNodeMap nodes
  let fuel := 2 * (nodes.length + edges.length) + 1
  let result := kahnRun adjacency nodeMap fuel queue inDegree []
  if result.length = nodes.length then some result else none

-- ============================================================================
-- Execution planning (executor.ts)
-- ============================================================================

/-- Per-node execution context. -/
structure ExecutionContext where
  nodeId : String
  node : WorkflowNode
  inputs : RecordV
  dependencies : List String
deriving DecidableEq, Repr

/-- The plan handed to the orchestrator. -/
structure ExecutionPlan where
  nodes : List ExecutionContext
  valid : Bool
  errors : List String
deriving DecidableEq, Repr

/-- The depth-first search of `findCycle`: same traversal as `hasCycleUtil`
but also carrying the DFS `path`, from which the detected cycle is sliced.
The `recursionStack` set of the source always holds exactly the elements of
`path`, so the embedding keeps the single `path` list.  Its output only feeds
the cycle error message, so the fuel bound carries no proof obligations. -/
def findCycleDfs (adjacency : List (String × List String)) :
    Nat → List String → List String → String → Option (List String) × List String
  | 0, visited, _, _ => (none, visited)
  | fuel + 1, visited, path, nodeId =>
    if nodeId ∈ path then
      (some (path.drop (path.indexOf nodeId) ++ [nodeId]), visited)
    else if nodeId ∈ visited then (none, visited)
    else
      (mapGetD adjacency nodeId []).foldl
        (fun acc neighbor =>
          match acc.1 with
          | some _ => acc
          | none => findCycleDfs adjacency fuel acc.2 (path ++ [nodeId]) neighbor)
        ((none : Option (List String)), nodeId :: visited)

/-- `findCycle`: report the node sequence of the first cycle found. -/
def findCycle (nodes : List WorkflowNode) (edges : List WorkflowEdge) : List String :=
  let adjacency := buildAdjacencyList nodes edges
  let fuel := (allGraphIds nodes edges).length + 1
  match (nodes.foldl
    (fun acc node =>
      match acc.1 with
      | some _ => acc
      | none => findCycleDfs adjacency fuel acc.2 [] node.id)
    ((none : Option (List String)), [])).1 with
  | some cycle => cycle
  | none => []

/-- `checkForCycles`: pair of `hasCycle` flag and the found cycle. -/
def checkForCycles (nodes : List WorkflowNode) (edges : List WorkflowEdge) :
    Bool × Option (List String) :=
  if detectCycle nodes edges then (true, some (findCycle nodes edges))
  else (false, none)

/-- `cycle?.join(' -> ') || 'unknown'`. -/
def cycleText (cycle : Option (List String)) : String :=
  match cycle with
  | none => "unknown"
  | some c =>
    let joined := String.intercalate " -> " c
    if joined = "" then "unknown" else joined

/-- `buildDependencyMap`: map each edge target to its de-duplicated list of
sources, in edge-array discovery order. -/
def buildDependencyMap (edges : List WorkflowEdge) : List (String × List String) :=
  edges.foldl
    (fun m edge =>
      let deps := mapGetD m edge.target []
      let deps := if edge.source ∈ deps then deps else deps ++ [edge.source]
      mapSet m edge.target deps)
    []

/-- `buildExecutionPlan`: cycle check, topological sort, then one
`ExecutionContext` per sorted node. -/
def buildExecutionPlan (w : Workflow) : ExecutionPlan :=
  match checkForCycles w.nodes w.edges with
  | (true, cycle) =>
    { nodes := [], valid := false,
      errors := ["Workflow contains a cycle: " ++ cycleText cycle] }
  | (false, _) =>
    match topologicalSort w.nodes w.edges with
    | none =>
      { nodes := [], valid := false,
        errors := ["Failed to topologically sort nodes (possible cycle)"] }
    | some sortedNodes =>
      let dependencyMap := buildDependencyMap w.edges
      { nodes := sortedNodes.map (fun node =>
          { nodeId := node.id, node := node, inputs := [],
            dependencies := mapGetD dependencyMap node.id [] }),
        valid := true, errors := [] }

-- ============================================================================
-- Input resolution (executor.ts)
-- ============================================================================

/-- The recorded output of a completed node. -/
structure NodeOutput where
  nodeId : String
  output : RecordV
deriving DecidableEq, Repr

/-- The body of `resolveNodeInputs`'s edge loop, processing one incoming
edge. -/
def resolveEdgeStep (completedNodes : List NodeOutput) (ports : List PortDefinition)
    (inputs : RecordV) (edge : WorkflowEdge) : RecordV :=
  match completedNodes.find? (fun n => n.nodeId = edge.source) with
  | none => inputs
  | some sourceNode =>
    -- `if (targetPortId)`: an absent and an empty-string `targetPort` are
    -- both falsy in JS and select the whole-output merge branch.
    match edge.targetPort with
    | some targetPortId =>
      if targetPortId ≠ "" then
        match ports.find? (fun p => p.id = targetPortId) with
        | some port =>
          -- `if (port && port.label)`: the empty string is falsy in JS.
          if port.label ≠ "" then
            recSet inputs port.label (recGetD sourceNode.output port.label)
          else inputs
        | none => inputs
      else recAssign inputs sourceNode.output
    | none => recAssign inputs sourceNode.output

/-- `resolveNodeInputs`: fold the incoming edges (edge-array order) of the
node over `resolveEdgeStep`, starting from an empty mapping. -/
def resolveNodeInputs (context : ExecutionContext) (completedNodes : List NodeOutput)
    (edges : List WorkflowEdge) (ports : List PortDefinition) : RecordV :=
  let incomingEdges := edges.filter (fun edge => edge.target = context.nodeId)
  incomingEdges.foldl (resolveEdgeStep completedNodes ports) []

-- ============================================================================
-- Run results and events (types/workflow.ts, runner.ts)
-- ============================================================================

/-- `RunStatus`. -/
inductive RunStatus where
  | pending : RunStatus
  | running : RunStatus
  | success : RunStatus
  | error : RunStatus
  | cancelled : RunStatus
deriving DecidableEq, Repr

/-- The `error` payload of an error `RunResult`. -/
structure RunErrorInfo where
  message : String
  code : Option String := none
  details : Option String := none
deriving DecidableEq, Repr

/-- A per-node run result.  The discriminated TS union is flattened into one
structure with optional payloads; absent JS fields are `none`. -/
structure RunResult where
  nodeId : String
  status : RunStatus
  startedAt : Option String := none
  completedAt : Option String := none
  duration : Option Nat := none
  output : Option RecordV := none
  error : Option RunErrorInfo := none
deriving DecidableEq, Repr

/-- The aggregate run report. -/
structure WorkflowExecution where
  workflowId : String
  executionId : String
  status : RunStatus
  results : List RunResult
  startedAt : String
  completedAt : Option String := none
deriving DecidableEq, Repr

/-- `ExecutionEventType`. -/
inductive ExecutionEventType where
  | queued : ExecutionEventType
  | running : ExecutionEventType
  | succeeded : ExecutionEventType
  | failed : ExecutionEventType
  | cancelled : ExecutionEventType
deriving DecidableEq, Repr

/-- The `error` payload of a `failed` event. -/
structure EventErrorInfo where
  message : String
  code : Option String := none
deriving DecidableEq, Repr

/-- An `ExecutionEvent` delivered to the listener. -/
structure ExecutionEvent where
  nodeId : String
  status : ExecutionEventType
  timestamp : String
  output : Option RecordV := none
  error : Option EventErrorInfo := none
  duration : Option Nat := none
  logs : Option (List String) := none
deriving DecidableEq, Repr

/-- A thrown JS `Error`: message, an optional string `code` field (a
non-string or absent `code` is `none`, which the orchestrator maps to
`EXECUTION_ERROR`), and the `stack` recorded as error details. -/
structure ThrownError where
  message : String
  code : Option String := none
  stack : Option String := none
deriving DecidableEq, Repr

/-- The event listener.  Invoking it returns `none` when the callback
returns normally and `some err` when the callback throws — the only way an
exception can enter the orchestration loop from outside. -/
def ExecutionEventListener := ExecutionEvent → Option ThrownError

-- ============================================================================
-- Node registry (the Node Registry module of lib/workflows/storage.ts,
-- imported by the runner as @/lib/nodes/registry)
-- ============================================================================

/-- `NodeExecutionConfig`: the per-node configuration passed to a handler. -/
structure NodeExecutionConfig where
  nodeId : String
  nodeType : String
  nodeData : NodeData
deriving DecidableEq, Repr

/-- `NodeExecutor`: an asynchronous handler
`(config, inputs) => Promise<NodeExecutionOutput>`.  Its settled outcome is
either an output record or a thrown error (an executor that times out
settles as a thrown timeout error, see `executeWithTimeout`). -/
def NodeExecutor := NodeExecutionConfig → RecordV → Except ThrownError RecordV

/-- A `RegisteredNode` entry of the registry map. -/
structure RegisteredNode where
  type : String
  executor : NodeExecutor
  description : Option String := none

/-- The module-level `nodeRegistry : Map<string, RegisteredNode>`.  The
source keeps it in mutable module state that `registerNode` updates (the
module registers built-in `text`/`image`/`video` executors at load, and
callers may register more); the embedding threads the map's current contents
as an explicit value, and the claims quantify over it. -/
abbrev Registry := List (String × RegisteredNode)

/-- `registerNode`: store an entry for the type tag
(`nodeRegistry.set(nodeType, { type: nodeType, executor, description })`). -/
def registerNode (registry : Registry) (nodeType : String) (executor : NodeExecutor)
    (description : Option String) : Registry :=
  mapSet registry nodeType
    { type := nodeType, executor := executor, description := description }

/-- `getNodeExecutor`: `nodeRegistry.get(nodeType)?.executor ?? null` — the
registered entry's executor, or an absence signal when the type tag has no
entry (an entry's `executor` is a function, never itself null). -/
def getNodeExecutor (registry : Registry) (nodeType : String) : Option NodeExecutor :=
  (mapGet registry nodeType).map (fun r => r.executor)

/-- `isNodeTypeRegistered`: `nodeRegistry.has(nodeType)`. -/
def isNodeTypeRegistered (registry : Registry) (nodeType : String) : Bool :=
  (mapGet registry nodeType).isSome

-- ============================================================================
-- Workflow runner (runner.ts)
-- ============================================================================

/-- `RunnerConfig` as passed by the caller. -/
structure RunnerConfig where
  timeoutMs : Option Nat := none
  onEvent : Option ExecutionEventListener := none
  concurrency : Option Nat := none

/-- The runner configuration after the constructor merges the defaults
`{timeoutMs: 30000, concurrency: 1}` with the caller's overrides. -/
structure MergedRunnerConfig where
  timeoutMs : Nat
  onEvent : Option ExecutionEventListener
  concurrency : Nat

/-- The constructor's `{timeoutMs: 30000, concurrency: 1, ...config}`. -/
def mergeRunnerConfig (config : RunnerConfig) : MergedRunnerConfig :=
  { timeoutMs := config.timeoutMs.getD 30000,
    onEvent := config.onEvent,
    concurrency := config.concurrency.getD 1 }

/-- The runner's mutable state: completed outputs, the results map, the logs
map, the trace of events delivered to the listener, and the abstract clock
standing in for real time. -/
structure RunnerState where
  completedNodes : List NodeOutput
  results : List (String × RunResult)
  logs : List (String × List String)
  events : List ExecutionEvent
  clock : Nat

/-- `new Date().toISOString()` at abstract time `c`. -/
def nowIso (c : Nat) : String := toString c

/-- Advance the abstract clock (a `Date` reading happened). -/
def tick (st : RunnerState) : RunnerState := { st with clock := st.clock + 1 }

/-- `emitEvent`: deliver the event to the configured listener, recording the
delivery in the trace; the listener may throw. -/
def emitEvent (config : MergedRunnerConfig) (event : ExecutionEvent)
    (st : RunnerState) : RunnerState × Option ThrownError :=
  match config.onEvent with
  | none => (st, none)
  | some listener =>
    ({ st with events := st.events ++ [event] }, listener event)

/-- `addLog`. -/
def addLog (st : RunnerState) (nodeId : String) (message : String) : RunnerState :=
  { st with logs := mapSet st.logs nodeId (mapGetD st.logs nodeId [] ++ [message]) }

/-- `executeWithTimeout`: the race between the executor and the timeout
timer, abstracted into the executor's settled outcome (a timeout settles the
race as a thrown `Execution timeout after ...ms` error, which this model
folds into the executor function itself; the losing promise is discarded). -/
def executeWithTimeout (executor : NodeExecutor) (config : NodeExecutionConfig)
    (inputs : RecordV) : Except ThrownError RecordV :=
  executor config inputs

/-- The `catch` branch of `executeNode`: record the error result, emit the
`failed` event (whose listener may itself throw — the only exception that
can escape `executeNode`), and append the local log line. -/
def executeNodeCatch (config : MergedRunnerConfig) (nodeId : String)
    (startedAt : String) (startTime : Nat) (st : RunnerState)
    (err : ThrownError) : RunnerState × Option ThrownError :=
  let completedAt := nowIso st.clock
  let st := tick st
  let duration := st.clock - startTime
  let errorMessage := err.message
  let errorCode := match err.code with
    | some code => code
    | none => "EXECUTION_ERROR"
  let st := { st with results := (mapSet st.results nodeId
    { nodeId := nodeId, status := RunStatus.error,
      startedAt := some startedAt, completedAt := some completedAt,
      duration := some duration,
      error := some { message := errorMessage, code := some errorCode,
                      details := err.stack } }) }
  match emitEvent config
      { nodeId := nodeId, status := ExecutionEventType.failed,
        timestamp := completedAt,
        error := some { message := errorMessage, code := some errorCode },
        duration := some duration,
        logs := some (mapGetD st.logs nodeId []) } st with
  | (st, some escaped) => (st, some escaped)
  | (st, none) => (addLog st nodeId ("Error: " ++ errorMessage), none)

/-- `executeNode`: the per-node state machine — `queued` event, transition to
`running`, `running` event, input resolution, executor lookup, timed
dispatch, then the success path or the `catch` branch. -/
def executeNode (w : Workflow) (registry : Registry) (config : MergedRunnerConfig)
    (nodeId : String) (context : ExecutionContext) (st : RunnerState) :
    RunnerState × Option ThrownError :=
  match w.nodes.find? (fun n => n.id = nodeId) with
  | none => (st, none)
  | some node =>
    let startedAt := nowIso st.clock
    let startTime := st.clock
    let st := tick st
    match emitEvent config
        { nodeId := nodeId, status := ExecutionEventType.queued,
          timestamp := nowIso st.clock } (tick st) with
    | (st, some err) => executeNodeCatch config nodeId startedAt startTime st err
    | (st, none) =>
      let currentResult := (mapGet st.results nodeId).getD
        { nodeId := nodeId, status := RunStatus.pending }
      let st := { st with results := (mapSet st.results nodeId
        { currentResult with status := RunStatus.running, startedAt := some startedAt }) }
      match emitEvent config
          { nodeId := nodeId, status := ExecutionEventType.running,
            timestamp := nowIso st.clock } (tick st) with
      | (st, some err) => executeNodeCatch config nodeId startedAt startTime st err
      | (st, none) =>
        let inputs := resolveNodeInputs context st.completedNodes w.edges w.ports
        match getNodeExecutor registry node.type with
        | none =>
          executeNodeCatch config nodeId startedAt startTime st
            { message := "No executor registered for node type: " ++ node.type }
        | some executor =>
          let execConfig : NodeExecutionConfig :=
            { nodeId := nodeId, nodeType := node.type, nodeData := node.data }
          match executeWithTimeout executor execConfig inputs with
          | Except.error err =>
            executeNodeCatch config nodeId startedAt startTime st err
          | Except.ok output =>
            let completedAt := nowIso st.clock
            let st := tick st
            let duration := st.clock - startTime
            let st := { st with completedNodes := (st.completedNodes ++
              [({ nodeId := nodeId, output := output } : NodeOutput)]) }
            let st := { st with results := (mapSet st.results nodeId
              { nodeId := nodeId, status := RunStatus.success,
                startedAt := some startedAt, completedAt := some completedAt,
                duration := some duration, output := some output }) }
            match emitEvent config
                { nodeId := nodeId, status := ExecutionEventType.succeeded,
                  timestamp := completedAt, output := some output,
                  duration := some duration,
                  logs := some (mapGetD st.logs nodeId []) } st with
            | (st, some err) => executeNodeCatch config nodeId startedAt startTime st err
            | (st, none) => (st, none)

/-- The `for (const context of plan.nodes)` loop of `run()`: execute each
planned node in order; an exception escaping `executeNode` aborts the loop
(and is handled by `run`'s top-level `catch`). -/
def runNodesLoop (w : Workflow) (registry : Registry) (config : MergedRunnerConfig) :
    List ExecutionContext → RunnerState → RunnerState × Option ThrownError
  | [], st => (st, none)
  | context :: rest, st =>
    match executeNode w registry config context.nodeId context st with
    | (st, none) => runNodesLoop w registry config rest st
    | (st, some err) => (st, some err)

/-- A constructed `WorkflowRunner` instance: the workflow snapshot, the
merged configuration, and the execution id generated at construction. -/
structure WorkflowRunner where
  workflow : Workflow
  config : MergedRunnerConfig
  executionId : String

/-- `generateExecutionId`: `exec-${Date.now()}-${Math.random()...}`, with the
two nondeterministic readings (the decimal rendering of `Date.now()` and the
up-to-7-character base-36 fraction of `Math.random()`) passed in as the
observed strings. -/
def generateExecutionId (nowPart : String) (randomPart : String) : String :=
  "exec-" ++ nowPart ++ "-" ++ randomPart

/-- The `WorkflowRunner` constructor. -/
def WorkflowRunner.construct (workflow : Workflow) (config : RunnerConfig)
    (nowPart randomPart : String) : WorkflowRunner :=
  { workflow := workflow, config := mergeRunnerConfig config,
    executionId := generateExecutionId nowPart randomPart }

/-- The fresh state a run starts from. -/
def initialRunnerState : RunnerState :=
  { completedNodes := [], results := [], logs := [], events := [], clock := 0 }

/-- The `// Initialize results for all nodes` loop of `run()`: one `pending`
result per planned node. -/
def initPlanResults (plan : ExecutionPlan) (startedAt : String) (st : RunnerState) :
    RunnerState :=
  { st with results := (plan.nodes.foldl
      (fun m context => mapSet m context.nodeId
        { nodeId := context.nodeId, status := RunStatus.pending,
          startedAt := some startedAt })
      st.results) }

/-- A configured listener never throws (vacuously true when no listener is
configured) — the normal operating contract of the event interface. -/
def listenerNeverThrows (config : MergedRunnerConfig) : Prop :=
  ∀ listener, config.onEvent = some listener → ∀ event, listener event = none

/-- `run()`: build the plan; when invalid, return synthetic `PLAN_ERROR`
results immediately; otherwise initialise every planned result to `pending`,
drive the loop, and either aggregate the per-node outcomes or (when an
exception escaped the loop) produce the single synthetic `runner` result of
the top-level `catch`.  Besides the `WorkflowExecution` of the source, the
model also returns the final runner state, whose `events` field is the trace
delivered to the listener. -/
def WorkflowRunner.run (runner : WorkflowRunner) (registry : Registry) :
    WorkflowExecution × RunnerState :=
  let w := runner.workflow
  let config := runner.config
  let st := initialRunnerState
  let startedAt := nowIso st.clock
  let st := tick st
  let plan := buildExecutionPlan w
  if plan.valid = false then
    let completedAt := nowIso st.clock
    let st := tick st
    ({ workflowId := w.metadata.id, executionId := runner.executionId,
       status := RunStatus.error,
       results := plan.errors.enum.map (fun p =>
         { nodeId := "error-" ++ toString p.1, status := RunStatus.error,
           startedAt := some startedAt, completedAt := some completedAt,
           error := some { message := p.2, code := some "PLAN_ERROR" } }),
       startedAt := startedAt, completedAt := some completedAt }, st)
  else
    let st := initPlanResults plan startedAt st
    match runNodesLoop w registry config plan.nodes st with
    | (st, none) =>
      let hasErrors := st.results.any (fun p => p.2.status = RunStatus.error)
      let status := if hasErrors then RunStatus.error else RunStatus.success
      let completedAt := nowIso st.clock
      let st := tick st
      ({ workflowId := w.metadata.id, executionId := runner.executionId,
         status := status, results := st.results.map (fun p => p.2),
         startedAt := startedAt, completedAt := some completedAt }, st)
    | (st, some err) =>
      let completedAt := nowIso st.clock
      let st := tick st
      let runnerResult : RunResult :=
        { nodeId := "runner", status := RunStatus.error,
          startedAt := some startedAt, completedAt := some completedAt,
          error := some { message := err.message, code := some "RUNNER_ERROR" } }
      ({ workflowId := w.metadata.id, executionId := runner.executionId,
         status := RunStatus.error, results := [runnerResult],
         startedAt := startedAt, completedAt := some completedAt }, st)

-- ============================================================================
-- Derived graph notions used by the specification statements
-- ============================================================================

/-- The list of node ids, in array order. -/
def nodeIds (nodes : List WorkflowNode) : List String := nodes.map (fun n => n.id)

/-- The one-step dependency relation of an edge list: `edgeStep edges u v`
holds when some edge points from `u` to `v`. -/
def edgeStep (edges : List WorkflowEdge) (u v : String) : Prop :=
  ∃ e ∈ edges, e.source = u ∧ e.target = v

/-- A graph is acyclic when no id reaches itself through a nonempty edge
path. -/
def Acyclic (edges : List WorkflowEdge) : Prop :=
  ∀ s, ¬ Relation.TransGen (edgeStep edges) s s

/-- The in-degree of `v` as `topologicalSort` counts it. -/
def inDeg0 (edges : List WorkflowEdge) (v : String) : Int :=
  ((edges.filter (fun e => e.target = v)).length : Int)

/-- The number of in-edges of `v` whose source has already been output. -/
def cntFrom (edges : List WorkflowEdge) (done : List String) (v : String) : Int :=
  ((edges.filter (fun e => e.target = v ∧ e.source ∈ done)).length : Int)

/-- The termination potential of the Kahn loop state: the in-degree map
contributes `val + 1` per entry (clamped at zero), the queue its length; every
loop iteration strictly decreases `kahnPhi inDegree + queue.length`. -/
def kahnPhi (m : List (String × Int)) : Nat :=
  (m.map (fun p => (p.2 + 1).toNat)).sum

-- ============================================================================
-- Claim models for the input resolver (claim C4)
-- ============================================================================

/-- One edge of the claim's description of `resolveNodeInputs`, as the claim
states it: when the edge carries a target-port id that resolves to a port,
copy the single field named by the port's label (null when missing); with no
target-port id, merge the whole source output; edges whose source has no
recorded output contribute nothing. -/
def claimResolveStep (completedNodes : List NodeOutput) (ports : List PortDefinition)
    (inputs : RecordV) (edge : WorkflowEdge) : RecordV :=
  match completedNodes.find? (fun n => n.nodeId = edge.source) with
  | none => inputs
  | some sourceNode =>
    match edge.targetPort with
    | some targetPortId =>
      match ports.find? (fun p => p.id = targetPortId) with
      | some port => recSet inputs port.label (recGetD sourceNode.output port.label)
      | none => inputs
    | none => recAssign inputs sourceNode.output

/-- Process the incoming edges left to right, as claim C4 describes. -/
def claimResolveGo (completedNodes : List NodeOutput) (ports : List PortDefinition) :
    List WorkflowEdge → RecordV → RecordV
  | [], inputs => inputs
  | edge :: rest, inputs =>
    claimResolveGo completedNodes ports rest
      (claimResolveStep completedNodes ports inputs edge)

/-- The input mapping claim C4 predicts, processing the node's incoming edges
in array order. -/
def resolveNodeInputsClaim (context : ExecutionContext) (completedNodes : List NodeOutput)
    (edges : List WorkflowEdge) (ports : List PortDefinition) : RecordV :=
  claimResolveGo completedNodes ports
    (edges.filter (fun edge => edge.target = context.nodeId)) []

/-- `claimResolveStep` amended by the two falsiness provisos forced by the
code: an edge whose target-port id is the empty string (falsy in JS) merges
the whole source output exactly like an edge with no target-port id, and a
resolved port whose label is the empty string contributes nothing. -/
def claimResolveStepAmended (completedNodes : List NodeOutput) (ports : List PortDefinition)
    (inputs : RecordV) (edge : WorkflowEdge) : RecordV :=
  match completedNodes.find? (fun n => n.nodeId = edge.source) with
  | none => inputs
  | some sourceNode =>
    match edge.targetPort with
    | some targetPortId =>
      if targetPortId ≠ "" then
        match ports.find? (fun p => p.id = targetPortId) with
        | some port =>
          if port.label ≠ "" then
            recSet inputs port.label (recGetD sourceNode.output port.label)
          else inputs
        | none => inputs
      else recAssign inputs sourceNode.output
    | none => recAssign inputs sourceNode.output

/-- Process the incoming edges left to right, with the amended port-label
proviso. -/
def claimResolveAmendedGo (completedNodes : List NodeOutput) (ports : List PortDefinition) :
    List WorkflowEdge → RecordV → RecordV
  | [], inputs => inputs
  | edge :: rest, inputs =>
    claimResolveAmendedGo completedNodes ports rest
      (claimResolveStepAmended completedNodes ports inputs edge)

/-- The input mapping of the amended claim C4. -/
def resolveNodeInputsClaimAmended (context : ExecutionContext)
    (completedNodes : List NodeOutput) (edges : List WorkflowEdge)
    (ports : List PortDefinition) : RecordV :=
  claimResolveAmendedGo completedNodes ports
    (edges.filter (fun edge => edge.target = context.nodeId)) []

-- ============================================================================
-- Concrete fixtures used by counterexamples and witnesses
-- ============================================================================

/-- Fixture metadata. -/
def testMetadata : WorkflowMetadata :=
  { id := "test-workflow", name := "Test Workflow", version := "1.0.0",
    createdAt := "0", updatedAt := "0" }

/-- Fixture node `A`. -/
def testNodeA : WorkflowNode := { id := "A", type := "text", data := { label := "Node A" } }

/-- Fixture node `B`. -/
def testNodeB : WorkflowNode := { id := "B", type := "text", data := { label := "Node B" } }

/-- Fixture node `C`. -/
def testNodeC : WorkflowNode := { id := "C", type := "text", data := { label := "Node C" } }

/-- Fixture context for node `C`. -/
def testContextC : ExecutionContext :=
  { nodeId := "C", node := testNodeC, inputs := [], dependencies := [] }

/-- Fixture edge `A -> C`. -/
def testEdgeAC : WorkflowEdge := { id := "ac", source := "A", target := "C" }

/-- Fixture edge `B -> C`. -/
def testEdgeBC : WorkflowEdge := { id := "bc", source := "B", target := "C" }

/-- Fixture edge `A -> C` scoped to target port `p1`. -/
def testEdgePortAC : WorkflowEdge :=
  { id := "apc", source := "A", target := "C", targetPort := some "p1" }

/-- Fixture edge into `C` whose target-port id is the empty string. -/
def testEdgeEmptyPortAC : WorkflowEdge :=
  { id := "aec", source := "A", target := "C", targetPort := some "" }

/-- Fixture port `p1` on `C` whose label is the empty string. -/
def testPortEmptyLabel : PortDefinition :=
  { id := "p1", nodeId := "C", type := PortType.input, label := "", dataType := "string" }

/-- Fixture port `p1` on `C` labelled `f`. -/
def testPortF : PortDefinition :=
  { id := "p1", nodeId := "C", type := PortType.input, label := "f", dataType := "string" }

/-- Fixture completed outputs for the two-source merge example. -/
def testCompletedAB : List NodeOutput :=
  [⟨"A", [("value1", Value.str "first")]⟩, ⟨"B", [("value2", Value.str "second")]⟩]

/-- Fixture completed output where the port-labelled field is missing. -/
def testCompletedG : List NodeOutput := [⟨"A", [("g", Value.str "x")]⟩]

/-- Fixture completed output with an empty-string field name. -/
def testCompletedEmptyKey : List NodeOutput := [⟨"A", [("", Value.str "x")]⟩]

/-- Fixture workflow with the single node `A` and no edges. -/
def testWorkflowA : Workflow :=
  { metadata := testMetadata, nodes := [testNodeA], edges := [], ports := [] }

/-- Fixture edge `A -> B`. -/
def testEdgeAB : WorkflowEdge := { id := "ab", source := "A", target := "B" }

/-- Fixture edge from the non-node id `X` to `B`. -/
def testEdgeXB : WorkflowEdge := { id := "xb", source := "X", target := "B" }

/-- Fixture edge from `A` to the non-node id `X`. -/
def testEdgeAX : WorkflowEdge := { id := "ax", source := "A", target := "X" }

/-- Fixture workflow with nodes `[A, B]` and no edges. -/
def testWorkflowAB : Workflow :=
  { metadata := testMetadata, nodes := [testNodeA, testNodeB], edges := [], ports := [] }

/-- Fixture executor that always succeeds with the record `{ out: "ok" }`. -/
def testExecutorOk : NodeExecutor := fun _ _ => Except.ok [("out", Value.str "ok")]

/-- Fixture registry with an executor registered for `text` nodes only. -/
def testRegistry : Registry := registerNode [] "text" testExecutorOk none

/-- Fixture registry with no executors at all. -/
def emptyRegistry : Registry := []

/-- Fixture listener that never throws. -/
def testListener : ExecutionEventListener := fun _ => none

/-- Fixture listener that throws exactly on `failed` events. -/
def testThrowingListener : ExecutionEventListener :=
  fun e => if e.status = ExecutionEventType.failed then some { message := "listener boom" }
    else none

/-- Fixture self-loop edge on `A`. -/
def testEdgeAA : WorkflowEdge := { id := "aa", source := "A", target := "A" }

/-- Fixture workflow whose single node carries a self-loop. -/
def testWorkflowLoop : Workflow :=
  { metadata := testMetadata, nodes := [testNodeA], edges := [testEdgeAA], ports := [] }

/-- Fixture workflow with the single node `B` and the dangling-source edge
`X -> B` (`X` is no node and no edge target). -/
def testWorkflowXB : Workflow :=
  { metadata := testMetadata, nodes := [testNodeB], edges := [testEdgeXB], ports := [] }

/-- Fixture workflow with nodes `[A, B]` and the edge chain `A -> X -> B`
through the non-node id `X`. -/
def testWorkflowAXB : Workflow :=
  { metadata := testMetadata, nodes := [testNodeA, testNodeB],
    edges := [testEdgeAX, testEdgeXB], ports := [] }

/-- Fixture config with the throwing listener installed. -/
def testConfigThrow : RunnerConfig := { onEvent := some testThrowingListener }

/-- Fixture config with the benign listener installed. -/
def testConfigListen : RunnerConfig := { onEvent := some testListener }

-- ============================================================================
-- The Kahn loop invariant (used to settle the ordering claims)
-- ============================================================================

/-- The loop invariant of `kahnRun` relating the queue, the in-degree map and
the emitted result prefix.  `deg` holds, for every id, its original in-degree
minus the number of its in-edges whose source has already been emitted,
emitted plus queued ids are pairwise distinct, every queued id was a node id
or an edge target, every in-edge of a queued or emitted id has an already
emitted source (for emitted ids: one emitted strictly earlier), and every
node id whose tracked degree reached zero has been emitted or queued. -/
structure KahnInv (nodes : List WorkflowNode) (edges : List WorkflowEdge)
    (q : List String) (deg : List (String × Int)) (res : List WorkflowNode) : Prop where
  nodup : ((res.map (fun n => n.id)) ++ q).Nodup
  resmem : ∀ n ∈ res, n ∈ nodes
  qmem : ∀ v ∈ q, v ∈ nodeIds nodes ∨ v ∈ edges.map (fun e => e.target)
  ksq : ∀ e ∈ edges, e.target ∈ q → e.source ∈ res.map (fun n => n.id)
  ksres : ∀ e ∈ edges, ∀ (j : Nat) (hj : j < res.length),
    (res.get ⟨j, hj⟩).id = e.target → e.source ∈ (res.take j).map (fun n => n.id)
  degnonpos : ∀ v, v ∈ res.map (fun n => n.id) ∨ v ∈ q → mapGetD deg v 0 ≤ 0
  i2 : ∀ v, mapGetD deg v 0 = inDeg0 edges v - cntFrom edges (res.map (fun n => n.id)) v
  zeroin : ∀ v ∈ nodeIds nodes, mapGetD deg v 0 = 0 →
    v ∈ res.map (fun n => n.id) ∨ v ∈ q

-- ============================================================================
-- Theorems.  First, the basic lemmas about the JS map embedding.
-- ============================================================================

theorem mapGet_mapSet_self {β : Type} (m : List (String × β)) (k : String) (v : β) :
    mapGet (mapSet m k v) k = some v := by
  induction m with
  | nil => simp [mapSet, mapGet]
  | cons p rest ih =>
    by_cases h : p.1 = k
    · simp [mapSet, h, mapGet]
    · simpa [mapSet, h, mapGet] using ih

theorem mapGet_mapSet_ne {β : Type} (m : List (String × β)) {k k' : String} (v : β)
    (h : k' ≠ k) : mapGet (mapSet m k v) k' = mapGet m k' := by
  induction m with
  | nil => simp [mapSet, mapGet, Ne.symm h]
  | cons p rest ih =>
    by_cases hp : p.1 = k
    · simp [mapSet, hp, mapGet, Ne.symm h]
    · simp only [mapSet, hp, if_false, mapGet]
      by_cases hq : p.1 = k'
      · simp [hq]
      · simp [hq, ih]

theorem mapGetD_mapSet_self {β : Type} (m : List (String × β)) (k : String) (v d : β) :
    mapGetD (mapSet m k v) k d = v := by
  simp [mapGetD, mapGet_mapSet_self]

theorem mapGetD_mapSet_ne {β : Type} (m : List (String × β)) {k k' : String} (v d : β)
    (h : k' ≠ k) : mapGetD (mapSet m k v) k' d = mapGetD m k' d := by
  simp [mapGetD, mapGet_mapSet_ne m v h]

theorem mapGet_mem {β : Type} {m : List (String × β)} {k : String} {v : β}
    (h : mapGet m k = some v) : (k, v) ∈ m := by
  induction m with
  | nil => simp [mapGet] at h
  | cons p rest ih =>
    obtain ⟨a, b⟩ := p
    by_cases hp : a = k
    · simp only [mapGet, hp, if_true, Option.some.injEq] at h
      subst hp
      subst h
      exact List.mem_cons_self _ _
    · simp only [mapGet, hp, if_false] at h
      exact List.mem_cons_of_mem _ (ih h)

theorem mapGet_eq_none_iff {β : Type} (m : List (String × β)) (k : String) :
    mapGet m k = none ↔ k ∉ m.map Prod.fst := by
  induction m with
  | nil => simp [mapGet]
  | cons p rest ih =>
    by_cases hp : p.1 = k
    · simp [mapGet, hp]
    · simp only [mapGet, hp, if_false, List.map_cons, List.mem_cons]
      rw [ih]
      constructor
      · intro h1 h2
        rcases h2 with h2 | h2
        · exact hp h2.symm
        · exact h1 h2
      · intro h1 h2
        exact h1 (Or.inr h2)

theorem mapSet_keys_of_mem {β : Type} {m : List (String × β)} {k : String} (v : β)
    (h : k ∈ m.map Prod.fst) : (mapSet m k v).map Prod.fst = m.map Prod.fst := by
  induction m with
  | nil => simp at h
  | cons p rest ih =>
    by_cases hp : p.1 = k
    · simp [mapSet, hp]
    · simp only [List.map_cons, List.mem_cons] at h
      rcases h with h | h
      · exact absurd h.symm hp
      · simp [mapSet, hp, ih h]

theorem mapSet_keys_of_not_mem {β : Type} {m : List (String × β)} {k : String} (v : β)
    (h : k ∉ m.map Prod.fst) : (mapSet m k v).map Prod.fst = m.map Prod.fst ++ [k] := by
  induction m with
  | nil => simp [mapSet]
  | cons p rest ih =>
    simp only [List.map_cons, List.mem_cons] at h
    push_neg at h
    simp [mapSet, Ne.symm h.1, ih h.2]

-- ============================================================================
-- Claim C4 — the input resolver
-- ============================================================================

theorem claimResolveAmendedGo_eq_foldl (completedNodes : List NodeOutput)
    (ports : List PortDefinition) (es : List WorkflowEdge) (inputs : RecordV) :
    claimResolveAmendedGo completedNodes ports es inputs =
      es.foldl (resolveEdgeStep completedNodes ports) inputs := by
  induction es generalizing inputs with
  | nil => rfl
  | cons e rest ih =>
    show claimResolveAmendedGo completedNodes ports rest
        (claimResolveStepAmended completedNodes ports inputs e) = _
    rw [ih]
    rfl

/-- Claim C4 (amended by the code's two JS-falsiness provisos: an edge whose
target-port id is the empty string merges the whole source output exactly
like an edge with no target-port id, and a resolved port whose label is the
empty string contributes nothing): the resolver is the total function that
processes each incoming edge in array order — copying the single
port-labelled field (null when missing) for port-scoped edges, merging the
whole source output (later edges overwriting earlier keys) for unscoped
edges, and skipping edges whose source has no recorded output — illustrated
on the two-source merge and the null-fill examples. -/
theorem claim_C4 :
    (∀ (context : ExecutionContext) (completedNodes : List NodeOutput)
       (edges : List WorkflowEdge) (ports : List PortDefinition),
       resolveNodeInputs context completedNodes edges ports =
         resolveNodeInputsClaimAmended context completedNodes edges ports) ∧
    resolveNodeInputs testContextC testCompletedAB [testEdgeAC, testEdgeBC] [] =
      [("value1", Value.str "first"), ("value2", Value.str "second")] ∧
    resolveNodeInputs testContextC testCompletedG [testEdgePortAC] [testPortF] =
      [("f", Value.null)] := by
  refine ⟨fun context completedNodes edges ports => ?_, by decide, by decide⟩
  rw [resolveNodeInputs, resolveNodeInputsClaimAmended, claimResolveAmendedGo_eq_foldl]

/-- Claim C4 as stated is false on the code, at both JS-falsiness sites: for
an edge whose target-port id resolves to a port labelled by the empty
string, the claim predicts that the field named by the label is copied, but
the code (`if (port && port.label)`, `""` falsy) contributes nothing; and for
an edge whose target-port id is itself the empty string, the claim predicts
port-scoped treatment (here: no matching port, so no contribution), but the
code (`if (targetPortId)`, `""` falsy) merges the whole source output. -/
theorem claim_C4_counterexample :
    (resolveNodeInputsClaim testContextC testCompletedEmptyKey
      [testEdgePortAC] [testPortEmptyLabel] = [("", Value.str "x")] ∧
    resolveNodeInputs testContextC testCompletedEmptyKey
      [testEdgePortAC] [testPortEmptyLabel] = []) ∧
    (resolveNodeInputsClaim testContextC testCompletedG
      [testEdgeEmptyPortAC] [] = [] ∧
    resolveNodeInputs testContextC testCompletedG
      [testEdgeEmptyPortAC] [] = [("g", Value.str "x")]) := by
  exact ⟨⟨by decide, by decide⟩, ⟨by decide, by decide⟩⟩

-- ============================================================================
-- Claim C9 — execution id generation
-- ============================================================================

theorem append_dash_inj : ∀ (a c b d : List Char), '-' ∉ a → '-' ∉ c →
    a ++ '-' :: b = c ++ '-' :: d → a = c ∧ b = d := by
  intro a
  induction a with
  | nil =>
    intro c b d _ hc h
    cases c with
    | nil => simpa using h
    | cons x c' =>
      simp only [List.nil_append, List.cons_append, List.cons.injEq] at h
      exact absurd (h.1 ▸ List.mem_cons_self x c') hc
  | cons x a' ih =>
    intro c b d ha hc h
    cases c with
    | nil =>
      simp only [List.cons_append, List.nil_append, List.cons.injEq] at h
      exact absurd (h.1 ▸ List.mem_cons_self x a') ha
    | cons y c' =>
      simp only [List.cons_append, List.cons.injEq] at h
      have ha' : '-' ∉ a' := fun hm => ha (List.mem_cons_of_mem _ hm)
      have hc' : '-' ∉ c' := fun hm => hc (List.mem_cons_of_mem _ hm)
      obtain ⟨h1, h2⟩ := ih c' b d ha' hc' h.2
      exact ⟨by rw [h.1, h1], h2⟩

/-- Claim C9 (amended: distinctness holds whenever the two constructions
observe different `(Date.now, Math.random)` readings — the generator is
injective in the observed pair, the rendered timestamp being dash-free):
two runner instances whose construction-time readings differ in either
component receive different execution ids. -/
theorem claim_C9 (workflow₁ workflow₂ : Workflow) (config₁ config₂ : RunnerConfig)
    (now₁ random₁ now₂ random₂ : String)
    (hn₁ : '-' ∉ now₁.data) (hn₂ : '-' ∉ now₂.data)
    (h : now₁ ≠ now₂ ∨ random₁ ≠ random₂) :
    (WorkflowRunner.construct workflow₁ config₁ now₁ random₁).executionId ≠
      (WorkflowRunner.construct workflow₂ config₂ now₂ random₂).executionId := by
  show generateExecutionId now₁ random₁ ≠ generateExecutionId now₂ random₂
  intro heq
  unfold generateExecutionId at heq
  have hdata := congrArg String.data heq
  simp only [String.data_append] at hdata
  have hexec : ("exec-" : String).data ++ (now₁.data ++ '-' :: random₁.data) =
      ("exec-" : String).data ++ (now₂.data ++ '-' :: random₂.data) := by
    have hdash : ("-" : String).data = ['-'] := rfl
    simpa [hdash, List.append_assoc] using hdata
  have hmid := List.append_cancel_left hexec
  obtain ⟨h1, h2⟩ := append_dash_inj _ _ _ _ hn₁ hn₂ hmid
  rcases h with h | h
  · exact h (String.ext h1)
  · exact h (String.ext h2)

/-- Witness for claim C9's amended theorem at concrete readings. -/
theorem claim_C9_witness :
    (WorkflowRunner.construct testWorkflowA {} "100" "abc").executionId ≠
      (WorkflowRunner.construct testWorkflowA {} "100" "abd").executionId :=
  claim_C9 _ _ _ _ _ _ _ _ (by decide) (by decide) (Or.inr (by decide))

/-- Claim C9 as stated is false on the code: the execution id is a pure
function of the observed `Date.now()` and `Math.random()` readings, so two
instances constructed for the same workflow under equal readings (possible,
since neither reading is guaranteed fresh) receive the same id. -/
theorem claim_C9_counterexample :
    (WorkflowRunner.construct testWorkflowA {} "100" "abc").executionId =
      (WorkflowRunner.construct testWorkflowA {} "100" "abc").executionId := rfl

-- ============================================================================
-- Claim C8 — the validator
-- ============================================================================

theorem valErrorsFold_mono (ids : List String) (es : List WorkflowEdge)
    (init : List String) {s : String} (hs : s ∈ init) :
    s ∈ es.foldl
      (fun errs edge =>
        let errs :=
          if edge.source ∈ ids then errs
          else errs ++ ["Edge " ++ edge.id ++ " references non-existent source node: " ++ edge.source]
        if edge.target ∈ ids then errs
        else errs ++ ["Edge " ++ edge.id ++ " references non-existent target node: " ++ edge.target])
      init := by
  induction es generalizing init with
  | nil => exact hs
  | cons e rest ih =>
    rw [List.foldl_cons]
    refine ih _ ?_
    dsimp only
    split
    · split
      · exact hs
      · exact List.mem_append_left _ hs
    · split
      · exact List.mem_append_left _ hs
      · exact List.mem_append_left _ (List.mem_append_left _ hs)

theorem valErrorsFold_src (ids : List String) (es : List WorkflowEdge)
    (init : List String) {e : WorkflowEdge} (he : e ∈ es) (hd : e.source ∉ ids) :
    ("Edge " ++ e.id ++ " references non-existent source node: " ++ e.source) ∈
      es.foldl
        (fun errs edge =>
          let errs :=
            if edge.source ∈ ids then errs
            else errs ++ ["Edge " ++ edge.id ++ " references non-existent source node: " ++ edge.source]
          if edge.target ∈ ids then errs
          else errs ++ ["Edge " ++ edge.id ++ " references non-existent target node: " ++ edge.target])
        init := by
  induction es generalizing init with
  | nil => simp at he
  | cons e' rest ih =>
    rw [List.foldl_cons]
    rcases List.mem_cons.mp he with rfl | he'
    · refine valErrorsFold_mono ids rest _ ?_
      dsimp only
      rw [if_neg hd]
      split
      · exact List.mem_append_right _ (List.mem_singleton.mpr rfl)
      · exact List.mem_append_left _ (List.mem_append_right _ (List.mem_singleton.mpr rfl))
    · exact ih _ he'

theorem valErrorsFold_tgt (ids : List String) (es : List WorkflowEdge)
    (init : List String) {e : WorkflowEdge} (he : e ∈ es) (hd : e.target ∉ ids) :
    ("Edge " ++ e.id ++ " references non-existent target node: " ++ e.target) ∈
      es.foldl
        (fun errs edge =>
          let errs :=
            if edge.source ∈ ids then errs
            else errs ++ ["Edge " ++ edge.id ++ " references non-existent source node: " ++ edge.source]
          if edge.target ∈ ids then errs
          else errs ++ ["Edge " ++ edge.id ++ " references non-existent target node: " ++ edge.target])
        init := by
  induction es generalizing init with
  | nil => simp at he
  | cons e' rest ih =>
    rw [List.foldl_cons]
    rcases List.mem_cons.mp he with rfl | he'
    · refine valErrorsFold_mono ids rest _ ?_
      dsimp only
      rw [if_neg hd]
      split
      · exact List.mem_append_right _ (List.mem_singleton.mpr rfl)
      · exact List.mem_append_right _ (List.mem_singleton.mpr rfl)
    · exact ih _ he'

theorem connectedFold_mem (es : List WorkflowEdge) :
    ∀ (init : List String) (x : String),
      x ∈ es.foldl (fun s edge => s ++ [edge.source, edge.target]) init ↔
        x ∈ init ∨ ∃ e ∈ es, x = e.source ∨ x = e.target := by
  induction es with
  | nil => simp
  | cons e rest ih =>
    intro init x
    rw [List.foldl_cons, ih]
    constructor
    · rintro (h | ⟨e', he', h⟩)
      · rcases List.mem_append.mp h with h | h
        · exact Or.inl h
        · refine Or.inr ⟨e, List.mem_cons_self _ _, ?_⟩
          rcases List.mem_cons.mp h with h | h
          · exact Or.inl h
          · exact Or.inr (by simpa using h)
      · exact Or.inr ⟨e', List.mem_cons_of_mem _ he', h⟩
    · rintro (h | ⟨e', he', h⟩)
      · exact Or.inl (List.mem_append_left _ h)
      · rcases List.mem_cons.mp he' with rfl | he''
        · refine Or.inl (List.mem_append_right _ ?_)
          rcases h with h | h
          · rw [h]
            exact List.mem_cons_self _ _
          · rw [h]
            exact List.mem_cons_of_mem _ (List.mem_singleton.mpr rfl)
        · exact Or.inr ⟨e', he'', h⟩

theorem isolatedFold_mem (connected : List String) (len : Nat) (ns : List WorkflowNode)
    (init : List String) {n : WorkflowNode} (hn : n ∈ ns)
    (hcond : n.id ∉ connected ∧ len > 1) :
    ("Node " ++ n.id ++ " (" ++ n.data.label ++ ") is not connected to any other nodes") ∈
      ns.foldl
        (fun ws node =>
          if node.id ∉ connected ∧ len > 1 then
            ws ++ ["Node " ++ node.id ++ " (" ++ node.data.label ++ ") is not connected to any other nodes"]
          else ws)
        init := by
  induction ns generalizing init with
  | nil => simp at hn
  | cons n' rest ih =>
    rw [List.foldl_cons]
    rcases List.mem_cons.mp hn with rfl | hn'
    · have hstep : ("Node " ++ n.id ++ " (" ++ n.data.label ++ ") is not connected to any other nodes") ∈
          (if n.id ∉ connected ∧ len > 1 then
            init ++ ["Node " ++ n.id ++ " (" ++ n.data.label ++ ") is not connected to any other nodes"]
          else init) := by
        rw [if_pos hcond]
        exact List.mem_append_right _ (List.mem_singleton.mpr rfl)
      -- monotonicity of the remaining fold
      clear ih hn hcond
      generalize (if n.id ∉ connected ∧ len > 1 then
          init ++ ["Node " ++ n.id ++ " (" ++ n.data.label ++ ") is not connected to any other nodes"]
        else init) = acc at hstep ⊢
      induction rest generalizing acc with
      | nil => exact hstep
      | cons m rest' ihm =>
        rw [List.foldl_cons]
        refine ihm _ ?_
        split
        · exact List.mem_append_left _ hstep
        · exact hstep
    · exact ih _ hn'

theorem edgeMapFold_getD (es : List WorkflowEdge) :
    ∀ (m : List (String × Nat)) (key : String),
      mapGetD
        (es.foldl
          (fun m edge =>
            let key := edge.source ++ "->" ++ edge.target
            mapSet m key (mapGetD m key 0 + 1))
          m) key 0 =
        mapGetD m key 0 + es.countP (fun e => e.source ++ "->" ++ e.target = key) := by
  induction es with
  | nil =>
    intro m key
    simp
  | cons e rest ih =>
    intro m key
    rw [List.foldl_cons]
    dsimp only
    rw [ih]
    by_cases hk : e.source ++ "->" ++ e.target = key
    · rw [List.countP_cons_of_pos _ _ (by simpa using hk), hk, mapGetD_mapSet_self]
      omega
    · rw [List.countP_cons_of_neg _ _ (by simpa using hk),
        mapGetD_mapSet_ne m _ _ (Ne.symm hk)]

theorem dupWarnFold_mono (entries : List (String × Nat)) (init : List String)
    {s : String} (hs : s ∈ init) :
    s ∈ entries.foldl
      (fun ws kv =>
        if kv.2 > 1 then ws ++ ["Multiple edges exist between the same nodes: " ++ kv.1]
        else ws)
      init := by
  induction entries generalizing init with
  | nil => exact hs
  | cons kv rest ih =>
    rw [List.foldl_cons]
    refine ih _ ?_
    split
    · exact List.mem_append_left _ hs
    · exact hs


theorem dupWarnFold_mem (entries : List (String × Nat)) (init : List String)
    {k : String} {c : Nat} (hmem : (k, c) ∈ entries) (hc : c > 1) :
    ("Multiple edges exist between the same nodes: " ++ k) ∈
      entries.foldl
        (fun ws kv =>
          if kv.2 > 1 then ws ++ ["Multiple edges exist between the same nodes: " ++ kv.1]
          else ws)
        init := by
  induction entries generalizing init with
  | nil => simp at hmem
  | cons kv rest ih =>
    rw [List.foldl_cons]
    rcases List.mem_cons.mp hmem with rfl | hmem'
    · refine dupWarnFold_mono rest _ ?_
      rw [if_pos hc]
      exact List.mem_append_right _ (List.mem_singleton.mpr rfl)
    · exact ih _ hmem'


/-- Claim C8: `validateWorkflowDAG` is valid exactly when its error list is
empty (so warnings never affect validity); a dangling edge endpoint (source
or target) produces a hard error; an isolated node, when more than one node
exists, and duplicate edges between the same ordered source-target pair
produce warnings. -/
theorem claim_C8 :
    (∀ (nodes : List WorkflowNode) (edges : List WorkflowEdge),
      (validateWorkflowDAG nodes edges).valid = true ↔
        (validateWorkflowDAG nodes edges).errors = []) ∧
    (∀ (nodes : List WorkflowNode) (edges : List WorkflowEdge), ∀ e ∈ edges,
      e.source ∉ nodeIds nodes →
        ("Edge " ++ e.id ++ " references non-existent source node: " ++ e.source) ∈
          (validateWorkflowDAG nodes edges).errors) ∧
    (∀ (nodes : List WorkflowNode) (edges : List WorkflowEdge), ∀ e ∈ edges,
      e.target ∉ nodeIds nodes →
        ("Edge " ++ e.id ++ " references non-existent target node: " ++ e.target) ∈
          (validateWorkflowDAG nodes edges).errors) ∧
    (∀ (nodes : List WorkflowNode) (edges : List WorkflowEdge), ∀ n ∈ nodes,
      (∀ e ∈ edges, e.source ≠ n.id ∧ e.target ≠ n.id) → nodes.length > 1 →
        ("Node " ++ n.id ++ " (" ++ n.data.label ++ ") is not connected to any other nodes") ∈
          (validateWorkflowDAG nodes edges).warnings) ∧
    (∀ (nodes : List WorkflowNode) (edges : List WorkflowEdge) (s t : String),
      1 < (edges.filter (fun e => e.source = s ∧ e.target = t)).length →
        ("Multiple edges exist between the same nodes: " ++ (s ++ "->" ++ t)) ∈
          (validateWorkflowDAG nodes edges).warnings) := by
  refine ⟨?_, ?_, ?_, ?_, ?_⟩
  · intro nodes edges
    simp only [validateWorkflowDAG]
    rw [decide_eq_true_eq, List.length_eq_zero]
  · intro nodes edges e he hd
    simp only [validateWorkflowDAG]
    exact valErrorsFold_src (nodeIds nodes) edges _ he hd
  · intro nodes edges e he hd
    simp only [validateWorkflowDAG]
    exact valErrorsFold_tgt (nodeIds nodes) edges _ he hd
  · intro nodes edges n hn hiso hlen
    simp only [validateWorkflowDAG]
    refine dupWarnFold_mono _ _ ?_
    refine isolatedFold_mem _ _ nodes _ hn ⟨?_, hlen⟩
    rw [connectedFold_mem]
    rintro (h | ⟨e, he, h⟩)
    · simp at h
    · rcases h with h | h
      · exact (hiso e he).1 h.symm
      · exact (hiso e he).2 h.symm
  · intro nodes edges s t hdup
    simp only [validateWorkflowDAG]
    have hcnt : 1 < edges.countP (fun e => e.source ++ "->" ++ e.target = s ++ "->" ++ t) := by
      refine lt_of_lt_of_le hdup ?_
      rw [← List.countP_eq_length_filter]
      refine List.countP_mono_left ?_
      intro e _ hpe
      have hpe' : e.source = s ∧ e.target = t := by simpa using hpe
      simp [hpe'.1, hpe'.2]
    have hget := edgeMapFold_getD edges [] (s ++ "->" ++ t)
    rw [show mapGetD ([] : List (String × Nat)) (s ++ "->" ++ t) 0 = 0 from rfl] at hget
    cases hkey : mapGet
        (edges.foldl
          (fun m edge =>
            let key := edge.source ++ "->" ++ edge.target
            mapSet m key (mapGetD m key 0 + 1))
          []) (s ++ "->" ++ t) with
    | none =>
      rw [mapGetD, hkey] at hget
      simp at hget
      omega
    | some c =>
      have hc : 1 < c := by
        rw [mapGetD, hkey] at hget
        simp at hget
        omega
      exact dupWarnFold_mem _ _ (mapGet_mem hkey) hc

/-- Witness for claim C8 at concrete graphs: a dangling source, a dangling
target, an isolated node among two, and a duplicated `A -> B` edge. -/
theorem claim_C8_witness :
    ("Edge " ++ testEdgeXB.id ++ " references non-existent source node: " ++ testEdgeXB.source) ∈
      (validateWorkflowDAG [testNodeA, testNodeB] [testEdgeXB]).errors ∧
    ("Edge " ++ testEdgeAX.id ++ " references non-existent target node: " ++ testEdgeAX.target) ∈
      (validateWorkflowDAG [testNodeA, testNodeB] [testEdgeAX]).errors ∧
    ("Node " ++ testNodeA.id ++ " (" ++ testNodeA.data.label ++ ") is not connected to any other nodes") ∈
      (validateWorkflowDAG [testNodeA, testNodeB] []).warnings ∧
    ("Multiple edges exist between the same nodes: " ++ ("A" ++ "->" ++ "B")) ∈
      (validateWorkflowDAG [testNodeA, testNodeB] [testEdgeAB, testEdgeAB]).warnings ∧
    ((validateWorkflowDAG [testNodeA, testNodeB] [testEdgeXB]).valid = true ↔
      (validateWorkflowDAG [testNodeA, testNodeB] [testEdgeXB]).errors = []) :=
  ⟨claim_C8.2.1 [testNodeA, testNodeB] [testEdgeXB] testEdgeXB (by decide) (by decide),
   claim_C8.2.2.1 [testNodeA, testNodeB] [testEdgeAX] testEdgeAX (by decide) (by decide),
   claim_C8.2.2.2.1 [testNodeA, testNodeB] [] testNodeA (by decide) (by decide) (by decide),
   claim_C8.2.2.2.2 [testNodeA, testNodeB] [testEdgeAB, testEdgeAB] "A" "B" (by decide),
   claim_C8.1 [testNodeA, testNodeB] [testEdgeXB]⟩

-- ============================================================================
-- Lemmas about the orchestrator state machine
-- ============================================================================

theorem mapSet_mapSet_self {β : Type} (m : List (String × β)) (k : String) (v w : β) :
    mapSet (mapSet m k v) k w = mapSet m k w := by
  induction m with
  | nil => simp [mapSet]
  | cons p rest ih =>
    by_cases hp : p.1 = k
    · simp [mapSet, hp]
    · simp [mapSet, hp, ih]

theorem emitEvent_results (config : MergedRunnerConfig) (event : ExecutionEvent)
    (st : RunnerState) : (emitEvent config event st).1.results = st.results := by
  cases h : config.onEvent <;> simp [emitEvent, h]

theorem emitEvent_completedNodes (config : MergedRunnerConfig) (event : ExecutionEvent)
    (st : RunnerState) :
    (emitEvent config event st).1.completedNodes = st.completedNodes := by
  cases h : config.onEvent <;> simp [emitEvent, h]

theorem emitEvent_logs (config : MergedRunnerConfig) (event : ExecutionEvent)
    (st : RunnerState) : (emitEvent config event st).1.logs = st.logs := by
  cases h : config.onEvent <;> simp [emitEvent, h]

theorem emitEvent_clock (config : MergedRunnerConfig) (event : ExecutionEvent)
    (st : RunnerState) : (emitEvent config event st).1.clock = st.clock := by
  cases h : config.onEvent <;> simp [emitEvent, h]

theorem emitEvent_events_none {config : MergedRunnerConfig}
    (h : config.onEvent = none) (event : ExecutionEvent) (st : RunnerState) :
    (emitEvent config event st).1.events = st.events := by
  simp [emitEvent, h]

theorem emitEvent_snd_safe {config : MergedRunnerConfig}
    (hsafe : listenerNeverThrows config) (event : ExecutionEvent) (st : RunnerState) :
    (emitEvent config event st).2 = none := by
  cases h : config.onEvent with
  | none => simp [emitEvent, h]
  | some listener => simp [emitEvent, h, hsafe listener h event]

theorem emitEvent_events (config : MergedRunnerConfig) (event : ExecutionEvent)
    (st : RunnerState) :
    ∃ tail, (emitEvent config event st).1.events = st.events ++ tail ∧
      ∀ e ∈ tail, e = event := by
  cases h : config.onEvent with
  | none => exact ⟨[], by simp [emitEvent, h], by simp⟩
  | some listener => exact ⟨[event], by simp [emitEvent, h], by simp⟩

theorem emitEvent_events_some {config : MergedRunnerConfig} {listener : ExecutionEventListener}
    (h : config.onEvent = some listener) (event : ExecutionEvent) (st : RunnerState) :
    (emitEvent config event st).1.events = st.events ++ [event] := by
  simp [emitEvent, h]

theorem addLog_state (st : RunnerState) (nodeId message : String) :
    (addLog st nodeId message).results = st.results ∧
    (addLog st nodeId message).completedNodes = st.completedNodes ∧
    (addLog st nodeId message).events = st.events := by
  simp [addLog]

theorem executeNodeCatch_spec {config : MergedRunnerConfig}
    (hsafe : listenerNeverThrows config) (nodeId startedAt : String) (startTime : Nat)
    (st : RunnerState) (err : ThrownError) :
    (executeNodeCatch config nodeId startedAt startTime st err).2 = none ∧
    (∃ rr, (executeNodeCatch config nodeId startedAt startTime st err).1.results =
        mapSet st.results nodeId rr ∧ rr.nodeId = nodeId ∧ rr.status = RunStatus.error) ∧
    (executeNodeCatch config nodeId startedAt startTime st err).1.completedNodes =
      st.completedNodes ∧
    (config.onEvent = none →
      (executeNodeCatch config nodeId startedAt startTime st err).1.events = st.events) ∧
    (∀ listener, config.onEvent = some listener →
      ∃ ev, (executeNodeCatch config nodeId startedAt startTime st err).1.events =
          st.events ++ [ev] ∧ ev.nodeId = nodeId ∧
        ev.status = ExecutionEventType.failed) := by
  cases hl : config.onEvent with
  | none =>
    refine ⟨?_, ?_, ?_, ?_, ?_⟩
    · simp [executeNodeCatch, emitEvent, hl, addLog]
    · simp only [executeNodeCatch, emitEvent, hl, addLog, tick]
      exact ⟨_, rfl, rfl, rfl⟩
    · simp [executeNodeCatch, emitEvent, hl, addLog, tick]
    · intro _
      simp [executeNodeCatch, emitEvent, hl, addLog, tick]
    · intro listener hll
      simp at hll
  | some listener =>
    have hnone := hsafe listener hl
    refine ⟨?_, ?_, ?_, ?_, ?_⟩
    · simp [executeNodeCatch, emitEvent, hl, hnone, addLog]
    · simp only [executeNodeCatch, emitEvent, hl, hnone, addLog, tick]
      exact ⟨_, rfl, rfl, rfl⟩
    · simp [executeNodeCatch, emitEvent, hl, hnone, addLog, tick]
    · intro hll
      simp at hll
    · intro listener2 hll
      simp only [executeNodeCatch, emitEvent, hl, hnone, addLog, tick]
      exact ⟨_, rfl, rfl, rfl⟩


theorem executeNode_spec {w : Workflow} {reg : Registry} {config : MergedRunnerConfig}
    {nodeId : String} {node : WorkflowNode} (ctx : ExecutionContext) (st : RunnerState)
    (hsafe : listenerNeverThrows config)
    (hfind : w.nodes.find? (fun n => n.id = nodeId) = some node) :
    (executeNode w reg config nodeId ctx st).2 = none ∧
    (∃ rr, (executeNode w reg config nodeId ctx st).1.results =
        mapSet st.results nodeId rr ∧ rr.nodeId = nodeId ∧
      (rr.status = RunStatus.success ∨ rr.status = RunStatus.error)) ∧
    (config.onEvent = none →
      (executeNode w reg config nodeId ctx st).1.events = st.events) ∧
    (∀ listener, config.onEvent = some listener →
      ∃ e1 e2 e3, (executeNode w reg config nodeId ctx st).1.events =
          st.events ++ [e1, e2, e3] ∧
        e1.nodeId = nodeId ∧ e2.nodeId = nodeId ∧ e3.nodeId = nodeId ∧
        e1.status = ExecutionEventType.queued ∧
        e2.status = ExecutionEventType.running ∧
        (e3.status = ExecutionEventType.succeeded ∨
          e3.status = ExecutionEventType.failed)) := by
  simp only [executeNode, hfind]
  split
  · rename_i st1 err heq1
    have hcontra : (st1, some err).2 = none := heq1 ▸ emitEvent_snd_safe hsafe _ _
    simp at hcontra
  rename_i st1 heq1
  have h1res : st1.results = st.results := by
    have h := congrArg (fun p => p.1.results) heq1
    simp only [emitEvent_results] at h
    simpa [tick] using h.symm
  have h1evn : config.onEvent = none → st1.events = st.events := by
    intro hl
    have h := congrArg (fun p => p.1.events) heq1
    simp only [emitEvent_events_none hl] at h
    simpa [tick] using h.symm
  have h1evs : ∀ listener, config.onEvent = some listener →
      ∃ e, st1.events = st.events ++ [e] ∧ e.nodeId = nodeId ∧
        e.status = ExecutionEventType.queued := by
    intro listener hl
    have h := congrArg (fun p => p.1.events) heq1
    simp only [emitEvent_events_some hl] at h
    exact ⟨_, by simpa [tick] using h.symm, rfl, rfl⟩
  split
  · rename_i st2 err heq2
    have hcontra : (st2, some err).2 = none := heq2 ▸ emitEvent_snd_safe hsafe _ _
    simp at hcontra
  rename_i st2 heq2
  have h2res : st2.results = mapSet st1.results nodeId
      { (mapGet st1.results nodeId).getD { nodeId := nodeId, status := RunStatus.pending } with
        status := RunStatus.running, startedAt := some (nowIso st.clock) } := by
    have h := congrArg (fun p => p.1.results) heq2
    simp only [emitEvent_results] at h
    simpa [tick] using h.symm
  have h2evn : config.onEvent = none → st2.events = st1.events := by
    intro hl
    have h := congrArg (fun p => p.1.events) heq2
    simp only [emitEvent_events_none hl] at h
    simpa [tick] using h.symm
  have h2evs : ∀ listener, config.onEvent = some listener →
      ∃ e, st2.events = st1.events ++ [e] ∧ e.nodeId = nodeId ∧
        e.status = ExecutionEventType.running := by
    intro listener hl
    have h := congrArg (fun p => p.1.events) heq2
    simp only [emitEvent_events_some hl] at h
    exact ⟨_, by simpa [tick] using h.symm, rfl, rfl⟩
  have hcollapse : ∀ rr : RunResult, mapSet st2.results nodeId rr = mapSet st.results nodeId rr := by
    intro rr
    rw [h2res, h1res, mapSet_mapSet_self]
  split
  · -- no executor registered: the catch branch
    obtain ⟨hcsnd, ⟨rr, hcres, hcid, hcst⟩, _, hcevn, hcevs⟩ :=
      executeNodeCatch_spec hsafe nodeId (nowIso st.clock) st.clock st2
        { message := "No executor registered for node type: " ++ node.type }
    refine ⟨hcsnd, ⟨rr, by rw [hcres, hcollapse], hcid, Or.inr hcst⟩, ?_, ?_⟩
    · intro hl
      rw [hcevn hl, h2evn hl, h1evn hl]
    · intro listener hl
      obtain ⟨e3, he3, he3id, he3st⟩ := hcevs listener hl
      obtain ⟨e1, he1, he1id, he1st⟩ := h1evs listener hl
      obtain ⟨e2, he2, he2id, he2st⟩ := h2evs listener hl
      refine ⟨e1, e2, e3, ?_, he1id, he2id, he3id, he1st, he2st, Or.inr he3st⟩
      rw [he3, he2, he1]
      simp
  rename_i executor heqreg
  split
  · -- the executor threw (or timed out): the catch branch
    rename_i err heqex
    obtain ⟨hcsnd, ⟨rr, hcres, hcid, hcst⟩, _, hcevn, hcevs⟩ :=
      executeNodeCatch_spec hsafe nodeId (nowIso st.clock) st.clock st2 err
    refine ⟨hcsnd, ⟨rr, by rw [hcres, hcollapse], hcid, Or.inr hcst⟩, ?_, ?_⟩
    · intro hl
      rw [hcevn hl, h2evn hl, h1evn hl]
    · intro listener hl
      obtain ⟨e3, he3, he3id, he3st⟩ := hcevs listener hl
      obtain ⟨e1, he1, he1id, he1st⟩ := h1evs listener hl
      obtain ⟨e2, he2, he2id, he2st⟩ := h2evs listener hl
      refine ⟨e1, e2, e3, ?_, he1id, he2id, he3id, he1st, he2st, Or.inr he3st⟩
      rw [he3, he2, he1]
      simp
  rename_i output heqex
  -- the success path, ending in the succeeded event
  split
  · rename_i st5 err heq5
    have hcontra : (st5, some err).2 = none := heq5 ▸ emitEvent_snd_safe hsafe _ _
    simp at hcontra
  rename_i st5 heq5
  have h5res : st5.results = mapSet st2.results nodeId
      { nodeId := nodeId, status := RunStatus.success,
        startedAt := some (nowIso st.clock), completedAt := some (nowIso st2.clock),
        duration := some ((tick st2).clock - st.clock), output := some output } := by
    have h := congrArg (fun p => p.1.results) heq5
    simp only [emitEvent_results] at h
    simpa [tick] using h.symm
  have h5evn : config.onEvent = none → st5.events = st2.events := by
    intro hl
    have h := congrArg (fun p => p.1.events) heq5
    simp only [emitEvent_events_none hl] at h
    simpa [tick] using h.symm
  have h5evs : ∀ listener, config.onEvent = some listener →
      ∃ e, st5.events = st2.events ++ [e] ∧ e.nodeId = nodeId ∧
        e.status = ExecutionEventType.succeeded := by
    intro listener hl
    have h := congrArg (fun p => p.1.events) heq5
    simp only [emitEvent_events_some hl] at h
    exact ⟨_, by simpa [tick] using h.symm, rfl, rfl⟩
  refine ⟨rfl, ⟨_, by rw [h5res, hcollapse], rfl, Or.inl rfl⟩, ?_, ?_⟩
  · intro hl
    rw [h5evn hl, h2evn hl, h1evn hl]
  · intro listener hl
    obtain ⟨e3, he3, he3id, he3st⟩ := h5evs listener hl
    obtain ⟨e1, he1, he1id, he1st⟩ := h1evs listener hl
    obtain ⟨e2, he2, he2id, he2st⟩ := h2evs listener hl
    refine ⟨e1, e2, e3, ?_, he1id, he2id, he3id, he1st, he2st, Or.inl he3st⟩
    rw [he3, he2, he1]
    simp

theorem runNodesLoop_spec {w : Workflow} {reg : Registry} {config : MergedRunnerConfig}
    (hsafe : listenerNeverThrows config) :
    ∀ (ctxs : List ExecutionContext) (st : RunnerState),
    (∀ ctx ∈ ctxs, ∃ node, w.nodes.find? (fun n => n.id = ctx.nodeId) = some node) →
    ((ctxs.map (fun c => c.nodeId)).Nodup) →
    (∀ ctx ∈ ctxs, ctx.nodeId ∈ st.results.map Prod.fst) →
    (runNodesLoop w reg config ctxs st).2 = none ∧
    (runNodesLoop w reg config ctxs st).1.results.map Prod.fst =
      st.results.map Prod.fst ∧
    (∀ k, k ∉ ctxs.map (fun c => c.nodeId) →
      mapGet (runNodesLoop w reg config ctxs st).1.results k = mapGet st.results k) ∧
    (∀ ctx ∈ ctxs, ∃ rr,
      mapGet (runNodesLoop w reg config ctxs st).1.results ctx.nodeId = some rr ∧
      rr.nodeId = ctx.nodeId ∧
      (rr.status = RunStatus.success ∨ rr.status = RunStatus.error)) ∧
    (config.onEvent = none →
      (runNodesLoop w reg config ctxs st).1.events = st.events) ∧
    (∀ listener, config.onEvent = some listener →
      ∃ trace, (runNodesLoop w reg config ctxs st).1.events = st.events ++ trace ∧
        (∀ e ∈ trace, e.nodeId ∈ ctxs.map (fun c => c.nodeId)) ∧
        (∀ ctx ∈ ctxs, ∃ t3,
          (trace.filter (fun e => e.nodeId = ctx.nodeId)).map (fun e => e.status) =
            [ExecutionEventType.queued, ExecutionEventType.running, t3] ∧
          (t3 = ExecutionEventType.succeeded ∨ t3 = ExecutionEventType.failed))) := by
  intro ctxs
  induction ctxs with
  | nil =>
    intro st _ _ _
    exact ⟨rfl, rfl, fun _ _ => rfl, by simp, fun _ => rfl,
      fun _ _ => ⟨[], by simp [runNodesLoop], by simp, by simp⟩⟩
  | cons ctx rest ih =>
    intro st hfound hnodup hkeys
    obtain ⟨node, hfind⟩ := hfound ctx (List.mem_cons_self _ _)
    obtain ⟨hsnd, ⟨rr, hres, hrrid, hrrst⟩, hevn, hevs⟩ :=
      @executeNode_spec w reg config ctx.nodeId node ctx st hsafe hfind
    have hx : executeNode w reg config ctx.nodeId ctx st =
        ((executeNode w reg config ctx.nodeId ctx st).1, none) := by
      rw [← hsnd]
    have hloop : runNodesLoop w reg config (ctx :: rest) st =
        runNodesLoop w reg config rest (executeNode w reg config ctx.nodeId ctx st).1 := by
      rw [runNodesLoop, hx]
    simp only [List.map_cons, List.nodup_cons] at hnodup
    have hheadnotin : ctx.nodeId ∉ rest.map (fun c => c.nodeId) := hnodup.1
    have hkeyhead : ctx.nodeId ∈ st.results.map Prod.fst :=
      hkeys ctx (List.mem_cons_self _ _)
    have hkeys' : (executeNode w reg config ctx.nodeId ctx st).1.results.map Prod.fst =
        st.results.map Prod.fst := by
      rw [hres]
      exact mapSet_keys_of_mem _ hkeyhead
    obtain ⟨ihsnd, ihkeys, ihuntouched, ihper, ihevn, ihevs⟩ :=
      ih (executeNode w reg config ctx.nodeId ctx st).1
        (fun c hc => hfound c (List.mem_cons_of_mem _ hc)) hnodup.2
        (fun c hc => by rw [hkeys']; exact hkeys c (List.mem_cons_of_mem _ hc))
    refine ⟨by rw [hloop]; exact ihsnd, by rw [hloop, ihkeys, hkeys'], ?_, ?_, ?_, ?_⟩
    · intro k hk
      simp only [List.map_cons, List.mem_cons] at hk
      push_neg at hk
      rw [hloop, ihuntouched k hk.2, hres, mapGet_mapSet_ne _ _ hk.1]
    · intro c hc
      rw [hloop]
      rcases List.mem_cons.mp hc with rfl | hc'
      · refine ⟨rr, ?_, hrrid, hrrst⟩
        rw [ihuntouched c.nodeId hheadnotin, hres, mapGet_mapSet_self]
      · exact ihper c hc'
    · intro hl
      rw [hloop, ihevn hl, hevn hl]
    · intro listener hl
      obtain ⟨e1, e2, e3, hev, he1id, he2id, he3id, he1st, he2st, he3st⟩ := hevs listener hl
      obtain ⟨trace, htr, htrids, htrper⟩ := ihevs listener hl
      refine ⟨[e1, e2, e3] ++ trace, ?_, ?_, ?_⟩
      · rw [hloop, htr, hev]
        simp
      · intro e he
        rcases List.mem_append.mp he with he | he
        · simp only [List.mem_cons, List.not_mem_nil, or_false] at he
          simp only [List.map_cons, List.mem_cons]
          rcases he with rfl | rfl | rfl
          · exact Or.inl he1id
          · exact Or.inl he2id
          · exact Or.inl he3id
        · simp only [List.map_cons, List.mem_cons]
          exact Or.inr (htrids e he)
      · intro c hc
        rcases List.mem_cons.mp hc with rfl | hc'
        · refine ⟨e3.status, ?_, he3st⟩
          rw [List.filter_append]
          have htr0 : trace.filter (fun e => e.nodeId = c.nodeId) = [] := by
            rw [List.filter_eq_nil_iff]
            intro e he
            have := htrids e he
            simp only [decide_eq_true_eq]
            intro heq
            rw [heq] at this
            exact hheadnotin this
          rw [htr0]
          simp [List.filter, he1id, he2id, he3id, he1st, he2st]
        · obtain ⟨t3, ht3, ht3or⟩ := htrper c hc'
          refine ⟨t3, ?_, ht3or⟩
          rw [List.filter_append]
          have hcid : c.nodeId ∈ rest.map (fun x => x.nodeId) :=
            List.mem_map_of_mem _ hc'
          have hne : ctx.nodeId ≠ c.nodeId := by
            intro heq
            rw [heq] at hheadnotin
            exact hheadnotin hcid
          have h123 : ([e1, e2, e3].filter (fun e => e.nodeId = c.nodeId)) = [] := by
            rw [List.filter_eq_nil_iff]
            intro e he
            simp only [List.mem_cons, List.not_mem_nil, or_false] at he
            simp only [decide_eq_true_eq]
            rcases he with rfl | rfl | rfl
            · rw [he1id]; exact hne
            · rw [he2id]; exact hne
            · rw [he3id]; exact hne
          rw [h123, List.nil_append, ht3]

-- ============================================================================
-- Light lemmas about the planner output (membership, id distinctness)
-- ============================================================================

theorem nodup_append_singleton {α : Type} {l : List α} {x : α}
    (hl : l.Nodup) (hx : x ∉ l) : (l ++ [x]).Nodup := by
  induction l with
  | nil => simp
  | cons a rest ih =>
    simp only [List.nodup_cons] at hl
    simp only [List.mem_cons] at hx
    push_neg at hx
    simp only [List.cons_append, List.nodup_cons]
    refine ⟨?_, ih hl.2 hx.2⟩
    intro hmem
    rcases List.mem_append.mp hmem with h | h
    · exact hl.1 h
    · exact hx.1 (List.mem_singleton.mp h).symm

theorem exists_find?_of_mem {α : Type} {p : α → Bool} :
    ∀ {l : List α} {a : α}, a ∈ l → p a = true → ∃ b, l.find? p = some b := by
  intro l
  induction l with
  | nil => intro a ha _; simp at ha
  | cons x xs ih =>
    intro a ha hp
    cases hx : p x with
    | true => exact ⟨x, by simp [List.find?, hx]⟩
    | false =>
      rcases List.mem_cons.mp ha with rfl | ha'
      · rw [hp] at hx
        cases hx
      · obtain ⟨b, hb⟩ := ih ha' hp
        exact ⟨b, by simp [List.find?, hx, hb]⟩

theorem buildNodeMap_mem {nodes : List WorkflowNode} {k : String} {n : WorkflowNode}
    (h : mapGet (buildNodeMap nodes) k = some n) : n ∈ nodes ∧ n.id = k := by
  suffices hgen : ∀ (ns : List WorkflowNode) (m : List (String × WorkflowNode)),
      (∀ k' n', mapGet m k' = some n' → n' ∈ nodes ∧ n'.id = k') →
      (∀ n' ∈ ns, n' ∈ nodes) →
      ∀ k' n', mapGet (ns.foldl (fun m n => mapSet m n.id n) m) k' = some n' →
        n' ∈ nodes ∧ n'.id = k' by
    exact hgen nodes [] (fun _ _ hh => by simp [mapGet] at hh) (fun _ hh => hh) k n h
  intro ns
  induction ns with
  | nil => intro m hm _ k' n' h'; exact hm k' n' h'
  | cons x xs ih =>
    intro m hm hns k' n' h'
    refine ih (mapSet m x.id x) ?_ (fun n'' hn'' => hns n'' (List.mem_cons_of_mem _ hn'')) k' n' h'
    intro k2 n2 h2
    by_cases hk : k2 = x.id
    · subst hk
      rw [mapGet_mapSet_self] at h2
      cases h2
      exact ⟨hns x (List.mem_cons_self _ _), rfl⟩
    · rw [mapGet_mapSet_ne _ _ hk] at h2
      exact hm k2 n2 h2

theorem kahnFoldLight (resIds : List String) :
    ∀ (ns : List String) (deg : List (String × Int)) (q : List String),
    (resIds ++ q).Nodup →
    (∀ v, v ∈ resIds ∨ v ∈ q → mapGetD deg v 0 ≤ 0) →
    (resIds ++ (ns.foldl kahnStep (deg, q)).2).Nodup ∧
    (∀ v, v ∈ resIds ∨ v ∈ (ns.foldl kahnStep (deg, q)).2 →
      mapGetD (ns.foldl kahnStep (deg, q)).1 v 0 ≤ 0) := by
  intro ns
  induction ns with
  | nil => intro deg q hnd hF; exact ⟨hnd, hF⟩
  | cons nb rest ih =>
    intro deg q hnd hF
    rw [List.foldl_cons]
    by_cases hd : mapGetD deg nb 0 - 1 = 0
    · have hstep : kahnStep (deg, q) nb =
          (mapSet deg nb (mapGetD deg nb 0 - 1), q ++ [nb]) := by
        simp [kahnStep, hd]
      rw [hstep]
      have hnbfresh : nb ∉ resIds ∧ nb ∉ q := by
        constructor
        · intro hmem
          have := hF nb (Or.inl hmem)
          omega
        · intro hmem
          have := hF nb (Or.inr hmem)
          omega
      refine ih _ _ ?_ ?_
      · rw [← List.append_assoc]
        refine nodup_append_singleton hnd ?_
        intro hmem
        rcases List.mem_append.mp hmem with h | h
        · exact hnbfresh.1 h
        · exact hnbfresh.2 h
      · intro v hv
        by_cases hvnb : v = nb
        · subst hvnb
          rw [mapGetD_mapSet_self]
          omega
        · rw [mapGetD_mapSet_ne _ _ _ hvnb]
          refine hF v ?_
          rcases hv with h | h
          · exact Or.inl h
          · rcases List.mem_append.mp h with h | h
            · exact Or.inr h
            · exact absurd (List.mem_singleton.mp h) hvnb
    · have hstep : kahnStep (deg, q) nb =
          (mapSet deg nb (mapGetD deg nb 0 - 1), q) := by
        simp [kahnStep, hd]
      rw [hstep]
      refine ih _ _ hnd ?_
      intro v hv
      by_cases hvnb : v = nb
      · subst hvnb
        rw [mapGetD_mapSet_self]
        have := hF v hv
        omega
      · rw [mapGetD_mapSet_ne _ _ _ hvnb]
        exact hF v hv

theorem kahnRun_mem {adjacency : List (String × List String)}
    {nodeMap : List (String × WorkflowNode)} {nodes0 : List WorkflowNode}
    (hmap : ∀ k n, mapGet nodeMap k = some n → n ∈ nodes0) :
    ∀ (fuel : Nat) (q : List String) (deg : List (String × Int))
      (res : List WorkflowNode),
    (∀ n ∈ res, n ∈ nodes0) →
    ∀ n ∈ kahnRun adjacency nodeMap fuel q deg res, n ∈ nodes0 := by
  intro fuel
  induction fuel with
  | zero => intro q deg res hres n hn; exact hres n hn
  | succ fuel ih =>
    intro q deg res hres n hn
    match q with
    | [] => exact hres n (by simpa [kahnRun] using hn)
    | nodeId :: rest =>
      rw [kahnRun] at hn
      refine ih _ _ _ ?_ n hn
      cases hget : mapGet nodeMap nodeId with
      | none => simpa [hget] using hres
      | some node =>
        simp only [hget]
        intro n' hn'
        rcases List.mem_append.mp hn' with h | h
        · exact hres n' h
        · rw [List.mem_singleton.mp h]
          exact hmap nodeId node hget

theorem kahnRun_nodup {adjacency : List (String × List String)}
    {nodeMap : List (String × WorkflowNode)}
    (hmap : ∀ k n, mapGet nodeMap k = some n → n.id = k) :
    ∀ (fuel : Nat) (q : List String) (deg : List (String × Int))
      (res : List WorkflowNode),
    ((res.map (fun n => n.id)) ++ q).Nodup →
    (∀ v, v ∈ res.map (fun n => n.id) ∨ v ∈ q → mapGetD deg v 0 ≤ 0) →
    ((kahnRun adjacency nodeMap fuel q deg res).map (fun n => n.id)).Nodup := by
  intro fuel
  induction fuel with
  | zero =>
    intro q deg res hnd _
    exact (List.nodup_append.mp hnd).1
  | succ fuel ih =>
    intro q deg res hnd hF
    match q with
    | [] =>
      rw [kahnRun]
      exact (List.nodup_append.mp hnd).1
    | nodeId :: rest =>
      rw [kahnRun]
      cases hget : mapGet nodeMap nodeId with
      | none =>
        simp only [hget]
        have hnd' : (res.map (fun n => n.id) ++ rest).Nodup := by
          refine List.Nodup.sublist ?_ hnd
          exact List.Sublist.append_left (List.sublist_cons_self _ _) _
        have hF' : ∀ v, v ∈ res.map (fun n => n.id) ∨ v ∈ rest → mapGetD deg v 0 ≤ 0 := by
          intro v hv
          rcases hv with h | h
          · exact hF v (Or.inl h)
          · exact hF v (Or.inr (List.mem_cons_of_mem _ h))
        obtain ⟨hnd2, hF2⟩ := kahnFoldLight (res.map (fun n => n.id)) _ deg rest hnd' hF'
        exact ih _ _ _ hnd2 hF2
      | some node =>
        simp only [hget]
        have hid : node.id = nodeId := hmap nodeId node hget
        have hmapids : (res ++ [node]).map (fun n => n.id) =
            res.map (fun n => n.id) ++ [nodeId] := by
          simp [hid]
        have hnd' : ((res ++ [node]).map (fun n => n.id) ++ rest).Nodup := by
          rw [hmapids, List.append_assoc]
          exact hnd
        have hF' : ∀ v, v ∈ (res ++ [node]).map (fun n => n.id) ∨ v ∈ rest →
            mapGetD deg v 0 ≤ 0 := by
          intro v hv
          refine hF v ?_
          rcases hv with h | h
          · rw [hmapids] at h
            rcases List.mem_append.mp h with h | h
            · exact Or.inl h
            · refine Or.inr ?_
              rw [List.mem_singleton.mp h]
              exact List.mem_cons_self _ _
          · exact Or.inr (List.mem_cons_of_mem _ h)
        obtain ⟨hnd2, hF2⟩ :=
          kahnFoldLight ((res ++ [node]).map (fun n => n.id)) _ deg rest hnd' hF'
        exact ih _ _ _ hnd2 hF2

theorem mapGet_of_mem_nodup {β : Type} :
    ∀ {m : List (String × β)} {k : String} {v : β},
    (m.map Prod.fst).Nodup → (k, v) ∈ m → mapGet m k = some v := by
  intro m
  induction m with
  | nil => intro k v _ hm; simp at hm
  | cons p rest ih =>
    intro k v hnd hm
    simp only [List.map_cons, List.nodup_cons] at hnd
    rcases List.mem_cons.mp hm with rfl | hm'
    · simp [mapGet]
    · have hk : p.1 ≠ k := by
        intro heq
        exact hnd.1 (heq ▸ List.mem_map_of_mem Prod.fst hm')
      simp only [mapGet, hk, if_false]
      exact ih hnd.2 hm'

theorem topologicalSort_mem {nodes : List WorkflowNode} {edges : List WorkflowEdge}
    {res : List WorkflowNode} (h : topologicalSort nodes edges = some res) :
    ∀ n ∈ res, n ∈ nodes := by
  simp only [topologicalSort] at h
  split at h
  · cases h
    exact kahnRun_mem (fun k n hk => (buildNodeMap_mem hk).1) _ _ _ _ (by simp)
  · cases h

theorem topologicalSort_ids_nodup {nodes : List WorkflowNode} {edges : List WorkflowEdge}
    {res : List WorkflowNode} (hn : (nodeIds nodes).Nodup)
    (h : topologicalSort nodes edges = some res) :
    (res.map (fun n => n.id)).Nodup := by
  simp only [topologicalSort] at h
  split at h
  · cases h
    refine kahnRun_nodup (fun k n hk => (buildNodeMap_mem hk).2) _ _ _ _ ?_ ?_
    · simp only [List.map_nil, List.nil_append]
      refine List.Nodup.sublist ?_ hn
      exact List.Sublist.map _ (List.filter_sublist _)
    · intro v hv
      rcases hv with hv | hv
      · simp at hv
      · obtain ⟨n, hn', rfl⟩ := List.mem_map.mp hv
        have hp := List.of_mem_filter hn'
        simp only [decide_eq_true_eq] at hp
        simp [mapGetD, hp]
  · cases h

theorem buildExecutionPlan_ctx {w : Workflow} :
    ∀ ctx ∈ (buildExecutionPlan w).nodes, ctx.node ∈ w.nodes ∧ ctx.nodeId = ctx.node.id := by
  intro ctx hctx
  unfold buildExecutionPlan at hctx
  split at hctx
  · simp at hctx
  · rename_i hpair
    split at hctx
    · simp at hctx
    · rename_i sorted hsort
      simp only [ExecutionPlan.nodes] at hctx
      obtain ⟨node, hnode, rfl⟩ := List.mem_map.mp hctx
      exact ⟨topologicalSort_mem hsort node hnode, rfl⟩

theorem buildExecutionPlan_ids_nodup {w : Workflow}
    (hn : (nodeIds w.nodes).Nodup) :
    ((buildExecutionPlan w).nodes.map (fun c => c.nodeId)).Nodup := by
  unfold buildExecutionPlan
  split
  · simp
  · rename_i hpair
    split
    · simp
    · rename_i sorted hsort
      simp only [ExecutionPlan.nodes, List.map_map]
      have : ((fun c : ExecutionContext => c.nodeId) ∘
          (fun node : WorkflowNode =>
            ({ nodeId := node.id, node := node, inputs := [],
               dependencies := mapGetD (buildDependencyMap w.edges) node.id [] } :
              ExecutionContext))) = fun node : WorkflowNode => node.id := rfl
      rw [this]
      exact topologicalSort_ids_nodup hn hsort

theorem foldSetCtx_untouched (f : ExecutionContext → RunResult) :
    ∀ (ctxs : List ExecutionContext) (m : List (String × RunResult)) (k : String),
    k ∉ ctxs.map (fun c => c.nodeId) →
    mapGet (ctxs.foldl (fun m context => mapSet m context.nodeId (f context)) m) k =
      mapGet m k := by
  intro ctxs
  induction ctxs with
  | nil => intro m k _; rfl
  | cons c rest ih =>
    intro m k hk
    simp only [List.map_cons, List.mem_cons] at hk
    push_neg at hk
    rw [List.foldl_cons, ih _ _ hk.2, mapGet_mapSet_ne _ _ hk.1]

theorem foldSetCtx_keys (f : ExecutionContext → RunResult) :
    ∀ (ctxs : List ExecutionContext) (m : List (String × RunResult)),
    (∀ c ∈ ctxs, c.nodeId ∉ m.map Prod.fst) →
    (ctxs.map (fun c => c.nodeId)).Nodup →
    (ctxs.foldl (fun m context => mapSet m context.nodeId (f context)) m).map Prod.fst =
      m.map Prod.fst ++ ctxs.map (fun c => c.nodeId) := by
  intro ctxs
  induction ctxs with
  | nil => intro m _ _; simp
  | cons c rest ih =>
    intro m hfresh hnd
    simp only [List.map_cons, List.nodup_cons] at hnd
    rw [List.foldl_cons, ih _ ?_ hnd.2]
    · rw [mapSet_keys_of_not_mem _ (hfresh c (List.mem_cons_self _ _))]
      simp
    · intro c' hc'
      rw [mapSet_keys_of_not_mem _ (hfresh c (List.mem_cons_self _ _))]
      intro hmem
      rcases List.mem_append.mp hmem with h | h
      · exact hfresh c' (List.mem_cons_of_mem _ hc') h
      · have : c'.nodeId ∈ rest.map (fun c => c.nodeId) := List.mem_map_of_mem _ hc'
        rw [List.mem_singleton.mp h] at this
        exact hnd.1 this

theorem foldSetCtx_get (f : ExecutionContext → RunResult) :
    ∀ (ctxs : List ExecutionContext) (m : List (String × RunResult))
      (c : ExecutionContext),
    (ctxs.map (fun c => c.nodeId)).Nodup → c ∈ ctxs →
    mapGet (ctxs.foldl (fun m context => mapSet m context.nodeId (f context)) m)
      c.nodeId = some (f c) := by
  intro ctxs
  induction ctxs with
  | nil => intro m c _ hc; simp at hc
  | cons c0 rest ih =>
    intro m c hnd hc
    simp only [List.map_cons, List.nodup_cons] at hnd
    rw [List.foldl_cons]
    rcases List.mem_cons.mp hc with rfl | hc'
    · rw [foldSetCtx_untouched f rest _ _ hnd.1, mapGet_mapSet_self]
    · exact ih _ c hnd.2 hc'

/-- Claim C3: over a valid plan (with the data-model invariant of distinct
node ids) and a non-throwing listener, every planned node is attempted in
plan order and reaches a terminal result regardless of prior failures, and
the overall status is `error` exactly when some result is `error`, `success`
otherwise. -/
theorem claim_C3 (runner : WorkflowRunner) (reg : Registry)
    (hplan : (buildExecutionPlan runner.workflow).valid = true)
    (hsafe : listenerNeverThrows runner.config)
    (hn : (nodeIds runner.workflow.nodes).Nodup) :
    ((runner.run reg).1.results.map (fun r => r.nodeId) =
      (buildExecutionPlan runner.workflow).nodes.map (fun c => c.nodeId)) ∧
    (∀ r ∈ (runner.run reg).1.results,
      r.status = RunStatus.success ∨ r.status = RunStatus.error) ∧
    ((runner.run reg).1.status = RunStatus.error ↔
      ∃ r ∈ (runner.run reg).1.results, r.status = RunStatus.error) ∧
    ((runner.run reg).1.status = RunStatus.error ∨
      (runner.run reg).1.status = RunStatus.success) := by
  have hnodup := @buildExecutionPlan_ids_nodup runner.workflow hn
  have hfound : ∀ ctx ∈ (buildExecutionPlan runner.workflow).nodes,
      ∃ node, runner.workflow.nodes.find? (fun n => n.id = ctx.nodeId) = some node := by
    intro ctx hctx
    obtain ⟨hmem, hid⟩ := buildExecutionPlan_ctx ctx hctx
    exact exists_find?_of_mem hmem (by simp [hid])
  have hkeysinit : (initPlanResults (buildExecutionPlan runner.workflow)
      (nowIso initialRunnerState.clock) (tick initialRunnerState)).results.map Prod.fst =
      (buildExecutionPlan runner.workflow).nodes.map (fun c => c.nodeId) := by
    unfold initPlanResults
    rw [foldSetCtx_keys _ _ _ (by intro c _ h; simp [tick, initialRunnerState] at h) hnodup]
    simp [tick, initialRunnerState]
  obtain ⟨hsnd, hkeys, huntouched, hper, hevn, hevs⟩ :=
    runNodesLoop_spec hsafe (buildExecutionPlan runner.workflow).nodes
      (initPlanResults (buildExecutionPlan runner.workflow)
        (nowIso initialRunnerState.clock) (tick initialRunnerState))
      hfound hnodup (fun ctx hctx => by
        rw [hkeysinit]
        exact List.mem_map_of_mem _ hctx)
  have hx : runNodesLoop runner.workflow reg runner.config
      (buildExecutionPlan runner.workflow).nodes
      (initPlanResults (buildExecutionPlan runner.workflow)
        (nowIso initialRunnerState.clock) (tick initialRunnerState)) =
      ((runNodesLoop runner.workflow reg runner.config
        (buildExecutionPlan runner.workflow).nodes
        (initPlanResults (buildExecutionPlan runner.workflow)
          (nowIso initialRunnerState.clock) (tick initialRunnerState))).1, none) := by
    rw [← hsnd]
  have hkeysF : (runNodesLoop runner.workflow reg runner.config
      (buildExecutionPlan runner.workflow).nodes
      (initPlanResults (buildExecutionPlan runner.workflow)
        (nowIso initialRunnerState.clock) (tick initialRunnerState))).1.results.map
        Prod.fst =
      (buildExecutionPlan runner.workflow).nodes.map (fun c => c.nodeId) := by
    rw [hkeys, hkeysinit]
  have hndF : ((runNodesLoop runner.workflow reg runner.config
      (buildExecutionPlan runner.workflow).nodes
      (initPlanResults (buildExecutionPlan runner.workflow)
        (nowIso initialRunnerState.clock) (tick initialRunnerState))).1.results.map
        Prod.fst).Nodup := by
    rw [hkeysF]
    exact hnodup
  have hpt : ∀ p ∈ (runNodesLoop runner.workflow reg runner.config
      (buildExecutionPlan runner.workflow).nodes
      (initPlanResults (buildExecutionPlan runner.workflow)
        (nowIso initialRunnerState.clock) (tick initialRunnerState))).1.results,
      p.2.nodeId = p.1 ∧ (p.2.status = RunStatus.success ∨ p.2.status = RunStatus.error) := by
    intro p hp
    have hkey : p.1 ∈ (buildExecutionPlan runner.workflow).nodes.map (fun c => c.nodeId) := by
      rw [← hkeysF]
      exact List.mem_map_of_mem _ hp
    obtain ⟨ctx, hctx, hctxid⟩ := List.mem_map.mp hkey
    obtain ⟨rr, hrrget, hrrid, hrrst⟩ := hper ctx hctx
    have hgetp : mapGet (runNodesLoop runner.workflow reg runner.config
        (buildExecutionPlan runner.workflow).nodes
        (initPlanResults (buildExecutionPlan runner.workflow)
          (nowIso initialRunnerState.clock) (tick initialRunnerState))).1.results p.1 =
        some p.2 := mapGet_of_mem_nodup hndF hp
    rw [hctxid] at hrrget
    rw [hgetp] at hrrget
    cases hrrget
    exact ⟨hctxid ▸ hrrid, hrrst⟩
  simp only [WorkflowRunner.run, hplan]
  rw [if_neg (by simp)]
  rw [hx]
  simp only
  refine ⟨?_, ?_, ?_, ?_⟩
  · rw [List.map_map, ← hkeysF]
    exact List.map_congr_left (fun p hp => (hpt p hp).1)
  · intro r hr
    simp only [List.mem_map] at hr
    obtain ⟨p, hp, rfl⟩ := hr
    exact (hpt p hp).2
  · constructor
    · intro hst
      by_cases hany : (runNodesLoop runner.workflow reg runner.config
          (buildExecutionPlan runner.workflow).nodes
          (initPlanResults (buildExecutionPlan runner.workflow)
            (nowIso initialRunnerState.clock) (tick initialRunnerState))).1.results.any
          (fun p => p.2.status = RunStatus.error)
      · obtain ⟨p, hp, hpe⟩ := List.any_eq_true.mp hany
        simp only [decide_eq_true_eq] at hpe
        exact ⟨p.2, List.mem_map_of_mem _ hp, hpe⟩
      · rw [Bool.not_eq_true] at hany
        rw [hany] at hst
        simp at hst
    · intro ⟨r, hr, hre⟩
      simp only [List.mem_map] at hr
      obtain ⟨p, hp, rfl⟩ := hr
      have hany : (runNodesLoop runner.workflow reg runner.config
          (buildExecutionPlan runner.workflow).nodes
          (initPlanResults (buildExecutionPlan runner.workflow)
            (nowIso initialRunnerState.clock) (tick initialRunnerState))).1.results.any
          (fun p => p.2.status = RunStatus.error) = true :=
        List.any_eq_true.mpr ⟨p, hp, by simp [hre]⟩
      rw [hany]
      simp
  · by_cases hany : (runNodesLoop runner.workflow reg runner.config
        (buildExecutionPlan runner.workflow).nodes
        (initPlanResults (buildExecutionPlan runner.workflow)
          (nowIso initialRunnerState.clock) (tick initialRunnerState))).1.results.any
        (fun p => p.2.status = RunStatus.error)
    · rw [hany]
      exact Or.inl rfl
    · rw [Bool.not_eq_true] at hany
      rw [hany]
      exact Or.inr rfl

/-- Witness for claim C3 on the two-node workflow with a registry whose
`text` executor succeeds. -/
theorem claim_C3_witness :
    (((WorkflowRunner.construct testWorkflowAB {} "1" "r").run testRegistry).1.results.map
        (fun r => r.nodeId) =
      (buildExecutionPlan testWorkflowAB).nodes.map (fun c => c.nodeId)) ∧
    (∀ r ∈ ((WorkflowRunner.construct testWorkflowAB {} "1" "r").run testRegistry).1.results,
      r.status = RunStatus.success ∨ r.status = RunStatus.error) ∧
    (((WorkflowRunner.construct testWorkflowAB {} "1" "r").run testRegistry).1.status =
        RunStatus.error ↔
      ∃ r ∈ ((WorkflowRunner.construct testWorkflowAB {} "1" "r").run testRegistry).1.results,
        r.status = RunStatus.error) ∧
    (((WorkflowRunner.construct testWorkflowAB {} "1" "r").run testRegistry).1.status =
        RunStatus.error ∨
      ((WorkflowRunner.construct testWorkflowAB {} "1" "r").run testRegistry).1.status =
        RunStatus.success) :=
  claim_C3 (WorkflowRunner.construct testWorkflowAB {} "1" "r") testRegistry
    (by decide) (fun listener h => Option.noConfusion h) (by decide)

/-- Claim C5: when the execution plan is invalid, `run()` returns immediately
with overall status `error`, with exactly one synthetic result per planning
error string — nodeId `error-i`, status `error`, code `PLAN_ERROR`, message
the error string — no node attempted: no event is delivered and the outcome
does not depend on the executor registry. -/
theorem claim_C5 (runner : WorkflowRunner) (reg : Registry)
    (hplan : (buildExecutionPlan runner.workflow).valid = false) :
    (runner.run reg).1.status = RunStatus.error ∧
    ((runner.run reg).1.results.map
        (fun r => (r.nodeId, r.status, r.error.map (fun e => (e.message, e.code)))) =
      (buildExecutionPlan runner.workflow).errors.enum.map
        (fun p => ("error-" ++ toString p.1, RunStatus.error,
          some (p.2, some "PLAN_ERROR")))) ∧
    (runner.run reg).2.events = [] ∧
    (∀ reg' : Registry, runner.run reg = runner.run reg') := by
  refine ⟨?_, ?_, ?_, ?_⟩
  · simp only [WorkflowRunner.run, hplan]
    rw [if_pos trivial]
  · simp only [WorkflowRunner.run, hplan]
    rw [if_pos trivial]
    simp only [List.map_map]
    exact List.map_congr_left (fun p _ => rfl)
  · simp only [WorkflowRunner.run, hplan]
    rw [if_pos trivial]
    simp [tick, initialRunnerState]
  · intro reg'
    simp only [WorkflowRunner.run, hplan]
    rw [if_pos trivial, if_pos trivial]

/-- Witness for claim C5 on the self-loop workflow. -/
theorem claim_C5_witness :
    (((WorkflowRunner.construct testWorkflowLoop {} "1" "r").run testRegistry).1.status =
      RunStatus.error) ∧
    ((((WorkflowRunner.construct testWorkflowLoop {} "1" "r").run testRegistry).1.results.map
        (fun r => (r.nodeId, r.status, r.error.map (fun e => (e.message, e.code)))) =
      (buildExecutionPlan testWorkflowLoop).errors.enum.map
        (fun p => ("error-" ++ toString p.1, RunStatus.error,
          some (p.2, some "PLAN_ERROR"))))) ∧
    (((WorkflowRunner.construct testWorkflowLoop {} "1" "r").run testRegistry).2.events = []) ∧
    (∀ reg' : Registry,
      (WorkflowRunner.construct testWorkflowLoop {} "1" "r").run testRegistry =
        (WorkflowRunner.construct testWorkflowLoop {} "1" "r").run reg') :=
  claim_C5 (WorkflowRunner.construct testWorkflowLoop {} "1" "r") testRegistry (by decide)

/-- Claim C6: `run()` never throws past the run boundary — for every workflow,
configuration, registry and listener (throwing ones included) the caller
receives a complete `WorkflowExecution` record with the runner's workflow and
execution ids and a terminal overall status; and when an exception escapes
the orchestration loop itself, the returned execution has status `error` and
exactly one synthetic result with nodeId `runner` and code `RUNNER_ERROR`. -/
theorem claim_C6 :
    (∀ (runner : WorkflowRunner) (reg : Registry),
      (runner.run reg).1.workflowId = runner.workflow.metadata.id ∧
      (runner.run reg).1.executionId = runner.executionId ∧
      ((runner.run reg).1.status = RunStatus.error ∨
        (runner.run reg).1.status = RunStatus.success)) ∧
    (∀ (runner : WorkflowRunner) (reg : Registry) (st' : RunnerState)
       (err : ThrownError),
      (buildExecutionPlan runner.workflow).valid = true →
      runNodesLoop runner.workflow reg runner.config
          (buildExecutionPlan runner.workflow).nodes
          (initPlanResults (buildExecutionPlan runner.workflow)
            (nowIso initialRunnerState.clock) (tick initialRunnerState)) =
        (st', some err) →
      (runner.run reg).1.status = RunStatus.error ∧
      (runner.run reg).1.results.map
          (fun r => (r.nodeId, r.status, r.error.map (fun e => (e.message, e.code)))) =
        [("runner", RunStatus.error, some (err.message, some "RUNNER_ERROR"))]) := by
  constructor
  · intro runner reg
    simp only [WorkflowRunner.run]
    split
    · exact ⟨rfl, rfl, Or.inl rfl⟩
    · split
      · refine ⟨rfl, rfl, ?_⟩
        split
        · exact Or.inl rfl
        · exact Or.inr rfl
      · exact ⟨rfl, rfl, Or.inl rfl⟩
  · intro runner reg st' err hplan hloop
    simp only [WorkflowRunner.run, hplan]
    rw [if_neg (by simp)]
    rw [hloop]
    exact ⟨rfl, rfl⟩

/-- Witness for claim C6's loop-escape clause: a listener that throws on the
`failed` event of a node with no registered executor. -/
theorem claim_C6_witness :
    (((WorkflowRunner.construct testWorkflowAB testConfigThrow "1" "r").run
        emptyRegistry).1.status = RunStatus.error) ∧
    (((WorkflowRunner.construct testWorkflowAB testConfigThrow "1" "r").run
        emptyRegistry).1.results.map
        (fun r => (r.nodeId, r.status, r.error.map (fun e => (e.message, e.code)))) =
      [("runner", RunStatus.error, some ("listener boom", some "RUNNER_ERROR"))]) :=
  claim_C6.2 (WorkflowRunner.construct testWorkflowAB testConfigThrow "1" "r")
    emptyRegistry
    (runNodesLoop (WorkflowRunner.construct testWorkflowAB testConfigThrow "1" "r").workflow
      emptyRegistry
      (WorkflowRunner.construct testWorkflowAB testConfigThrow "1" "r").config
      (buildExecutionPlan testWorkflowAB).nodes
      (initPlanResults (buildExecutionPlan testWorkflowAB)
        (nowIso initialRunnerState.clock) (tick initialRunnerState))).1
    { message := "listener boom" } (by decide) rfl

theorem emitEvent_no_cancelled {config : MergedRunnerConfig} {event : ExecutionEvent}
    {st : RunnerState}
    (hst : ∀ e ∈ st.events, e.status ≠ ExecutionEventType.cancelled)
    (hev : event.status ≠ ExecutionEventType.cancelled) :
    ∀ e ∈ (emitEvent config event st).1.events,
      e.status ≠ ExecutionEventType.cancelled := by
  cases hl : config.onEvent with
  | none =>
    simpa [emitEvent, hl] using hst
  | some listener =>
    simp only [emitEvent, hl]
    intro e he
    rcases List.mem_append.mp he with h | h
    · exact hst e h
    · rw [List.mem_singleton.mp h]
      exact hev

theorem emit_no_cancelled_transport {config : MergedRunnerConfig}
    {ev : ExecutionEvent} {st' st2 : RunnerState} {o2 : Option ThrownError}
    (heq : emitEvent config ev st' = (st2, o2))
    (hst' : ∀ e ∈ st'.events, e.status ≠ ExecutionEventType.cancelled)
    (hev : ev.status ≠ ExecutionEventType.cancelled) :
    ∀ e ∈ st2.events, e.status ≠ ExecutionEventType.cancelled := by
  have h := @emitEvent_no_cancelled config ev st' hst' hev
  rw [heq] at h
  exact h

theorem executeNodeCatch_no_cancelled {config : MergedRunnerConfig}
    {nodeId startedAt : String} {startTime : Nat} {st : RunnerState} {err : ThrownError}
    (hst : ∀ e ∈ st.events, e.status ≠ ExecutionEventType.cancelled) :
    ∀ e ∈ (executeNodeCatch config nodeId startedAt startTime st err).1.events,
      e.status ≠ ExecutionEventType.cancelled := by
  unfold executeNodeCatch
  split
  all_goals dsimp only
  all_goals split
  case _ st2 o2 heq =>
    exact emit_no_cancelled_transport heq (by simpa [tick] using hst) (by simp)
  case _ st2 heq =>
    intro e he
    simp only [addLog] at he
    exact emit_no_cancelled_transport heq (by simpa [tick] using hst) (by simp) e he
  case _ st2 o2 heq =>
    exact emit_no_cancelled_transport heq (by simpa [tick] using hst) (by simp)
  case _ st2 heq =>
    intro e he
    simp only [addLog] at he
    exact emit_no_cancelled_transport heq (by simpa [tick] using hst) (by simp) e he

theorem executeNode_no_cancelled {w : Workflow} {reg : Registry}
    {config : MergedRunnerConfig} {nodeId : String} {ctx : ExecutionContext}
    {st : RunnerState}
    (hst : ∀ e ∈ st.events, e.status ≠ ExecutionEventType.cancelled) :
    ∀ e ∈ (executeNode w reg config nodeId ctx st).1.events,
      e.status ≠ ExecutionEventType.cancelled := by
  unfold executeNode
  split
  · simpa using hst
  rename_i node hfind
  simp only []
  split
  · rename_i st1 err1 heq1
    exact executeNodeCatch_no_cancelled
      (emit_no_cancelled_transport heq1 (by simpa [tick] using hst) (by simp))
  rename_i st1 heq1
  have hst1 := emit_no_cancelled_transport heq1 (by simpa [tick] using hst) (by simp)
  split
  · rename_i st2 err2 heq2
    exact executeNodeCatch_no_cancelled
      (emit_no_cancelled_transport heq2 (by simpa [tick] using hst1) (by simp))
  rename_i st2 heq2
  have hst2 := emit_no_cancelled_transport heq2 (by simpa [tick] using hst1) (by simp)
  split
  · exact executeNodeCatch_no_cancelled hst2
  rename_i executor heqreg
  split
  · rename_i err heqex
    exact executeNodeCatch_no_cancelled hst2
  rename_i output heqex
  split
  · rename_i st5 err5 heq5
    exact executeNodeCatch_no_cancelled
      (emit_no_cancelled_transport heq5 (by simpa [tick] using hst2) (by simp))
  rename_i st5 heq5
  exact emit_no_cancelled_transport heq5 (by simpa [tick] using hst2) (by simp)

theorem runNodesLoop_no_cancelled {w : Workflow} {reg : Registry}
    {config : MergedRunnerConfig} :
    ∀ (ctxs : List ExecutionContext) (st : RunnerState),
    (∀ e ∈ st.events, e.status ≠ ExecutionEventType.cancelled) →
    ∀ e ∈ (runNodesLoop w reg config ctxs st).1.events,
      e.status ≠ ExecutionEventType.cancelled := by
  intro ctxs
  induction ctxs with
  | nil => intro st hst; simpa [runNodesLoop] using hst
  | cons ctx rest ih =>
    intro st hst
    rw [runNodesLoop]
    split
    · rename_i st' heq
      refine ih st' ?_
      have h := @executeNode_no_cancelled w reg config ctx.nodeId ctx st hst
      rw [heq] at h
      exact h
    · rename_i st' err heq
      have h := @executeNode_no_cancelled w reg config ctx.nodeId ctx st hst
      rw [heq] at h
      exact h

theorem tick_events (st : RunnerState) : (tick st).events = st.events := rfl

/-- Claim C7: the core never emits a `cancelled` event (over every workflow,
registry and listener, including throwing ones); and under a configured
non-throwing listener and a valid plan (with distinct node ids), every
attempted node's events arrive in strict causal order — `queued`, then
`running`, then exactly one of `succeeded`/`failed`. -/
theorem claim_C7 :
    (∀ (runner : WorkflowRunner) (reg : Registry),
      ∀ e ∈ (runner.run reg).2.events, e.status ≠ ExecutionEventType.cancelled) ∧
    (∀ (runner : WorkflowRunner) (reg : Registry) (listener : ExecutionEventListener),
      runner.config.onEvent = some listener →
      (∀ ev, listener ev = none) →
      (buildExecutionPlan runner.workflow).valid = true →
      (nodeIds runner.workflow.nodes).Nodup →
      ∀ ctx ∈ (buildExecutionPlan runner.workflow).nodes,
        ∃ t, (((runner.run reg).2.events.filter
            (fun e => e.nodeId = ctx.nodeId)).map (fun e => e.status)) =
          [ExecutionEventType.queued, ExecutionEventType.running, t] ∧
        (t = ExecutionEventType.succeeded ∨ t = ExecutionEventType.failed)) := by
  constructor
  · intro runner reg
    simp only [WorkflowRunner.run]
    split
    · simp [tick, initialRunnerState]
    · split
      · rename_i st heq
        have h := @runNodesLoop_no_cancelled runner.workflow reg
          runner.config (buildExecutionPlan runner.workflow).nodes
          (initPlanResults (buildExecutionPlan runner.workflow)
            (nowIso initialRunnerState.clock) (tick initialRunnerState))
          (by simp [initPlanResults, tick, initialRunnerState])
        rw [heq] at h
        simpa [tick] using h
      · rename_i st err heq
        have h := @runNodesLoop_no_cancelled runner.workflow reg
          runner.config (buildExecutionPlan runner.workflow).nodes
          (initPlanResults (buildExecutionPlan runner.workflow)
            (nowIso initialRunnerState.clock) (tick initialRunnerState))
          (by simp [initPlanResults, tick, initialRunnerState])
        rw [heq] at h
        simpa [tick] using h
  · intro runner reg listener hl hnone hplan hn ctx hctx
    have hsafe : listenerNeverThrows runner.config := by
      intro l hll ev
      rw [hl] at hll
      injection hll with h
      rw [← h]
      exact hnone ev
    have hnodup := @buildExecutionPlan_ids_nodup runner.workflow hn
    have hfound : ∀ c ∈ (buildExecutionPlan runner.workflow).nodes,
        ∃ node, runner.workflow.nodes.find? (fun n => n.id = c.nodeId) = some node := by
      intro c hc
      obtain ⟨hmem, hid⟩ := buildExecutionPlan_ctx c hc
      exact exists_find?_of_mem hmem (by simp [hid])
    have hkeysinit : (initPlanResults (buildExecutionPlan runner.workflow)
        (nowIso initialRunnerState.clock) (tick initialRunnerState)).results.map Prod.fst =
        (buildExecutionPlan runner.workflow).nodes.map (fun c => c.nodeId) := by
      unfold initPlanResults
      rw [foldSetCtx_keys _ _ _ (by intro c _ h; simp [tick, initialRunnerState] at h) hnodup]
      simp [tick, initialRunnerState]
    obtain ⟨hsnd, _, _, _, _, hevs⟩ :=
      runNodesLoop_spec hsafe (buildExecutionPlan runner.workflow).nodes
        (initPlanResults (buildExecutionPlan runner.workflow)
          (nowIso initialRunnerState.clock) (tick initialRunnerState))
        hfound hnodup (fun c hc => by
          rw [hkeysinit]
          exact List.mem_map_of_mem _ hc)
    obtain ⟨trace, htr, _, htrper⟩ := hevs listener hl
    have hx : runNodesLoop runner.workflow reg runner.config
        (buildExecutionPlan runner.workflow).nodes
        (initPlanResults (buildExecutionPlan runner.workflow)
          (nowIso initialRunnerState.clock) (tick initialRunnerState)) =
        ((runNodesLoop runner.workflow reg runner.config
          (buildExecutionPlan runner.workflow).nodes
          (initPlanResults (buildExecutionPlan runner.workflow)
            (nowIso initialRunnerState.clock) (tick initialRunnerState))).1, none) := by
      rw [← hsnd]
    have hevF : (runNodesLoop runner.workflow reg runner.config
        (buildExecutionPlan runner.workflow).nodes
        (initPlanResults (buildExecutionPlan runner.workflow)
          (nowIso initialRunnerState.clock) (tick initialRunnerState))).1.events = trace := by
      rw [htr]
      simp [initPlanResults, tick, initialRunnerState]
    obtain ⟨t3, ht3, ht3or⟩ := htrper ctx hctx
    refine ⟨t3, ?_, ht3or⟩
    simp only [WorkflowRunner.run, hplan]
    rw [if_neg (by simp)]
    rw [hx]
    simp only
    rw [tick_events, hevF]
    exact ht3

/-- Witness for claim C7's ordered-events clause on the two-node workflow
with a benign listener. -/
theorem claim_C7_witness :
    ∃ t, ((((WorkflowRunner.construct testWorkflowAB testConfigListen "1" "r").run
        testRegistry).2.events.filter
        (fun e => e.nodeId = ("A" : String))).map (fun e => e.status)) =
      [ExecutionEventType.queued, ExecutionEventType.running, t] ∧
    (t = ExecutionEventType.succeeded ∨ t = ExecutionEventType.failed) := by
  have h := claim_C7.2 (WorkflowRunner.construct testWorkflowAB testConfigListen "1" "r")
    testRegistry testListener rfl (fun _ => rfl) (by decide) (by decide)
    { nodeId := "A", node := testNodeA, inputs := [],
      dependencies := mapGetD (buildDependencyMap testWorkflowAB.edges) "A" [] }
    (by decide)
  exact h

-- ============================================================================
-- Characterizations of the planner's adjacency and in-degree maps
-- ============================================================================

theorem adjFold_char (u : String) :
    ∀ (es : List WorkflowEdge) (m : List (String × List String)),
    mapGetD (es.foldl
      (fun m edge => mapSet m edge.source (mapGetD m edge.source [] ++ [edge.target])) m) u []
      = mapGetD m u [] ++ (es.filter (fun e => e.source = u)).map (fun e => e.target) := by
  intro es
  induction es with
  | nil => intro m; simp
  | cons e rest ih =>
    intro m
    rw [List.foldl_cons, ih]
    by_cases h : e.source = u
    · rw [h, mapGetD_mapSet_self]
      simp [List.filter_cons, h, List.append_assoc]
    · rw [mapGetD_mapSet_ne _ _ _ (Ne.symm h)]
      simp [List.filter_cons, h]

theorem adjNodesFold_nil (u : String) :
    ∀ (ns : List WorkflowNode) (m : List (String × List String)),
    (∀ v, mapGetD m v [] = ([] : List String)) →
    mapGetD (ns.foldl (fun m node => mapSet m node.id []) m) u [] = [] := by
  intro ns
  induction ns with
  | nil => intro m hm; exact hm u
  | cons n rest ih =>
    intro m hm
    rw [List.foldl_cons]
    refine ih _ ?_
    intro v
    by_cases h : v = n.id
    · subst h; rw [mapGetD_mapSet_self]
    · rw [mapGetD_mapSet_ne _ _ _ h]; exact hm v

theorem buildAdjacencyList_char (nodes : List WorkflowNode) (edges : List WorkflowEdge)
    (u : String) :
    mapGetD (buildAdjacencyList nodes edges) u [] =
      (edges.filter (fun e => e.source = u)).map (fun e => e.target) := by
  simp only [buildAdjacencyList]
  rw [adjFold_char, adjNodesFold_nil u nodes [] (fun v => rfl)]
  simp

theorem degFold_char (v : String) :
    ∀ (es : List WorkflowEdge) (m : List (String × Int)),
    mapGetD (es.foldl
      (fun m edge => mapSet m edge.target (mapGetD m edge.target 0 + 1)) m) v 0
      = mapGetD m v 0 + ((es.filter (fun e => e.target = v)).length : Int) := by
  intro es
  induction es with
  | nil => intro m; simp
  | cons e rest ih =>
    intro m
    rw [List.foldl_cons, ih]
    by_cases h : e.target = v
    · rw [h, mapGetD_mapSet_self]
      simp only [List.filter_cons, h, decide_True, if_true, List.length_cons]
      push_cast
      ring
    · rw [mapGetD_mapSet_ne _ _ _ (Ne.symm h)]
      simp [List.filter_cons, h]

theorem degNodesFold_zero (v : String) :
    ∀ (ns : List WorkflowNode) (m : List (String × Int)),
    (∀ w, mapGetD m w 0 = (0 : Int)) →
    mapGetD (ns.foldl (fun m node => mapSet m node.id (0 : Int)) m) v 0 = 0 := by
  intro ns
  induction ns with
  | nil => intro m hm; exact hm v
  | cons n rest ih =>
    intro m hm
    rw [List.foldl_cons]
    refine ih _ ?_
    intro w
    by_cases h : w = n.id
    · subst h; rw [mapGetD_mapSet_self]
    · rw [mapGetD_mapSet_ne _ _ _ h]; exact hm w

theorem buildInDegree_char (nodes : List WorkflowNode) (edges : List WorkflowEdge)
    (v : String) :
    mapGetD (buildInDegree nodes edges) v 0 = inDeg0 edges v := by
  simp only [buildInDegree]
  rw [degFold_char, degNodesFold_zero v nodes [] (fun w => rfl)]
  simp [inDeg0]

theorem foldl_mapSet_keys_mem {α β : Type} (key : α → String)
    (val : List (String × β) → α → β) :
    ∀ (l : List α) (m : List (String × β)) (k : String),
    (k ∈ m.map Prod.fst ∨ k ∈ l.map key) →
    k ∈ (l.foldl (fun m x => mapSet m (key x) (val m x)) m).map Prod.fst := by
  intro l
  induction l with
  | nil =>
    intro m k hk
    rcases hk with h | h
    · exact h
    · simp at h
  | cons x rest ih =>
    intro m k hk
    rw [List.foldl_cons]
    refine ih _ k ?_
    have hsub : ∀ k', k' ∈ m.map Prod.fst ∨ k' = key x →
        k' ∈ (mapSet m (key x) (val m x)).map Prod.fst := by
      intro k' hk'
      by_cases hmem : key x ∈ m.map Prod.fst
      · rw [mapSet_keys_of_mem _ hmem]
        rcases hk' with h | rfl
        · exact h
        · exact hmem
      · rw [mapSet_keys_of_not_mem _ hmem]
        rcases hk' with h | rfl
        · exact List.mem_append.mpr (Or.inl h)
        · exact List.mem_append.mpr (Or.inr (List.mem_singleton.mpr rfl))
    rcases hk with h | h
    · exact Or.inl (hsub k (Or.inl h))
    · simp only [List.map_cons, List.mem_cons] at h
      rcases h with rfl | h'
      · exact Or.inl (hsub _ (Or.inr rfl))
      · exact Or.inr h'

theorem buildInDegree_key (nodes : List WorkflowNode) (edges : List WorkflowEdge)
    {v : String} (hv : v ∈ nodeIds nodes) :
    mapGet (buildInDegree nodes edges) v = some (inDeg0 edges v) := by
  have hmem : v ∈ (buildInDegree nodes edges).map Prod.fst := by
    simp only [buildInDegree]
    refine foldl_mapSet_keys_mem (fun e => e.target)
      (fun (m : List (String × Int)) e => mapGetD m e.target 0 + 1) edges _ v (Or.inl ?_)
    refine foldl_mapSet_keys_mem (fun n => n.id) (fun _ _ => (0 : Int)) nodes [] v
      (Or.inr ?_)
    simpa [nodeIds] using hv
  cases hg : mapGet (buildInDegree nodes edges) v with
  | none => exact absurd hmem ((mapGet_eq_none_iff _ _).mp hg)
  | some d =>
    have hd : mapGetD (buildInDegree nodes edges) v 0 = d := by
      simp [mapGetD, hg]
    rw [buildInDegree_char] at hd
    rw [hd]

theorem buildNodeMap_key (nodes : List WorkflowNode) {v : String}
    (hv : v ∈ nodeIds nodes) :
    ∃ n, mapGet (buildNodeMap nodes) v = some n := by
  have hmem : v ∈ (buildNodeMap nodes).map Prod.fst := by
    simp only [buildNodeMap]
    refine foldl_mapSet_keys_mem (fun n => n.id) (fun _ n => n) nodes [] v (Or.inr ?_)
    simpa [nodeIds] using hv
  cases hg : mapGet (buildNodeMap nodes) v with
  | none => exact absurd hmem ((mapGet_eq_none_iff _ _).mp hg)
  | some n => exact ⟨n, rfl⟩

-- ============================================================================
-- Counting lemmas for in-degrees
-- ============================================================================

theorem count_targets (edges : List WorkflowEdge) (u v : String) :
    List.count v ((edges.filter (fun e => e.source = u)).map (fun e => e.target)) =
      (edges.filter (fun e => e.source = u ∧ e.target = v)).length := by
  induction edges with
  | nil => rfl
  | cons e rest ih =>
    by_cases hs : e.source = u
    · by_cases ht : e.target = v
      · simp [List.filter_cons, hs, ht, List.count_cons, ih]
      · simp [List.filter_cons, hs, ht, List.count_cons, Ne.symm ht, ih]
    · simp [List.filter_cons, hs, ih]

theorem length_filter_imp {α : Type} (p q : α → Bool) (h : ∀ a, p a = true → q a = true) :
    ∀ l : List α, (l.filter p).length ≤ (l.filter q).length := by
  intro l
  induction l with
  | nil => simp
  | cons a rest ih =>
    by_cases hp : p a = true
    · rw [List.filter_cons_of_pos hp, List.filter_cons_of_pos (h a hp)]
      simpa using ih
    · rw [List.filter_cons_of_neg (by simpa using hp)]
      cases hq : q a with
      | true =>
        rw [List.filter_cons_of_pos hq]
        exact le_trans ih (Nat.le_succ _)
      | false =>
        rw [List.filter_cons_of_neg (by simp [hq])]
        exact ih

theorem cntFrom_le (edges : List WorkflowEdge) (done : List String) (v : String) :
    cntFrom edges done v ≤ inDeg0 edges v := by
  unfold cntFrom inDeg0
  have h := length_filter_imp (fun e : WorkflowEdge => decide (e.target = v ∧ e.source ∈ done))
    (fun e : WorkflowEdge => decide (e.target = v)) (by intro a ha; simp at ha ⊢; exact ha.1)
    edges
  exact_mod_cast h

theorem cntFrom_nonneg (edges : List WorkflowEdge) (done : List String) (v : String) :
    0 ≤ cntFrom edges done v := by
  unfold cntFrom
  positivity

theorem cntFrom_full (edges : List WorkflowEdge) (done : List String) (v : String)
    (h : cntFrom edges done v = inDeg0 edges v) :
    ∀ e ∈ edges, e.target = v → e.source ∈ done := by
  induction edges with
  | nil => intro e he; simp at he
  | cons e rest ih =>
    intro e' he' ht'
    by_cases ht : e.target = v
    · by_cases hs : e.source ∈ done
      · have hrest : cntFrom rest done v = inDeg0 rest v := by
          unfold cntFrom inDeg0 at h ⊢
          simp only [List.filter_cons, ht, hs, decide_True, and_self, if_true,
            List.length_cons] at h
          push_cast at h ⊢
          omega
        rcases List.mem_cons.mp he' with rfl | hmem
        · exact hs
        · exact ih hrest e' hmem ht'
      · exfalso
        have hle := cntFrom_le rest done v
        unfold cntFrom inDeg0 at h hle
        simp only [List.filter_cons, ht, hs, decide_True, decide_False, and_true,
          and_false, if_false, if_true, List.length_cons] at h
        push_cast at h hle
        omega
    · have hrest : cntFrom rest done v = inDeg0 rest v := by
        unfold cntFrom inDeg0 at h ⊢
        simp only [List.filter_cons, ht, decide_False, false_and, if_false] at h
        exact h
      rcases List.mem_cons.mp he' with rfl | hmem
      · exact absurd ht' ht
      · exact ih hrest e' hmem ht'

theorem cntFrom_all (edges : List WorkflowEdge) (done : List String) (v : String)
    (h : ∀ e ∈ edges, e.target = v → e.source ∈ done) :
    cntFrom edges done v = inDeg0 edges v := by
  unfold cntFrom inDeg0
  congr 2
  refine List.filter_congr ?_
  intro e he
  by_cases ht : e.target = v
  · simp [ht, h e he ht]
  · simp [ht]

theorem cntFrom_nil (edges : List WorkflowEdge) (v : String) :
    cntFrom edges [] v = 0 := by
  unfold cntFrom
  simp

theorem cntFrom_append_single (edges : List WorkflowEdge) (done : List String)
    (u v : String) (hu : u ∉ done) :
    cntFrom edges (done ++ [u]) v =
      cntFrom edges done v +
        ((edges.filter (fun e => e.source = u ∧ e.target = v)).length : Int) := by
  induction edges with
  | nil => simp [cntFrom]
  | cons e rest ih =>
    unfold cntFrom at ih ⊢
    by_cases ht : e.target = v
    · by_cases hs : e.source ∈ done
      · have hsu : e.source ≠ u := fun hh => hu (hh ▸ hs)
        rw [List.filter_cons_of_pos (by simp [ht, hs]),
          List.filter_cons_of_pos (by simp [ht, hs]),
          List.filter_cons_of_neg (by simp [hsu])]
        simp only [List.length_cons]
        push_cast
        omega
      · by_cases hsu : e.source = u
        · rw [List.filter_cons_of_pos (by simp [ht, hsu]),
            List.filter_cons_of_neg (by simp [hs]),
            List.filter_cons_of_pos (by simp [ht, hsu])]
          simp only [List.length_cons]
          push_cast
          omega
        · rw [List.filter_cons_of_neg (by simp [hs, hsu]),
            List.filter_cons_of_neg (by simp [hs]),
            List.filter_cons_of_neg (by simp [hsu])]
          exact ih
    · rw [List.filter_cons_of_neg (by simp [ht]),
        List.filter_cons_of_neg (by simp [ht]),
        List.filter_cons_of_neg (by simp [ht])]
      exact ih

-- ============================================================================
-- The Kahn loop measure
-- ============================================================================

theorem kahnPhi_decrement (deg : List (String × Int)) (nb : String) :
    kahnPhi (mapSet deg nb (mapGetD deg nb 0 - 1)) +
      (if mapGetD deg nb 0 - 1 = 0 then 1 else 0) ≤ kahnPhi deg := by
  induction deg with
  | nil => simp [mapGetD, mapGet, mapSet, kahnPhi]
  | cons p rest ih =>
    obtain ⟨k, x⟩ := p
    by_cases hp : k = nb
    · subst hp
      have h1 : mapGetD ((k, x) :: rest) k 0 = x := by simp [mapGetD, mapGet]
      have h2 : mapSet ((k, x) :: rest) k (x - 1) = (k, x - 1) :: rest := by
        simp [mapSet]
      rw [h1, h2]
      simp only [kahnPhi, List.map_cons, List.sum_cons]
      by_cases hx : x - 1 = 0
      · rw [if_pos hx]
        omega
      · rw [if_neg hx]
        omega
    · have h1 : mapGetD ((k, x) :: rest) nb 0 = mapGetD rest nb 0 := by
        simp [mapGetD, mapGet, hp]
      have h2 : mapSet ((k, x) :: rest) nb (mapGetD rest nb 0 - 1) =
          (k, x) :: mapSet rest nb (mapGetD rest nb 0 - 1) := by
        simp [mapSet, hp]
      rw [h1, h2]
      simp only [kahnPhi, List.map_cons, List.sum_cons]
      by_cases hd : mapGetD rest nb 0 - 1 = 0
      · rw [if_pos hd]
        rw [if_pos hd] at ih
        simp only [kahnPhi] at ih
        omega
      · rw [if_neg hd]
        rw [if_neg hd] at ih
        simp only [kahnPhi] at ih
        omega

theorem kahnStep_measure (acc : List (String × Int) × List String) (nb : String) :
    kahnPhi (kahnStep acc nb).1 + (kahnStep acc nb).2.length ≤
      kahnPhi acc.1 + acc.2.length := by
  by_cases hd : mapGetD acc.1 nb 0 - 1 = 0
  · have hstep : kahnStep acc nb =
        (mapSet acc.1 nb (mapGetD acc.1 nb 0 - 1), acc.2 ++ [nb]) := by
      simp [kahnStep, hd]
    rw [hstep]
    show kahnPhi (mapSet acc.1 nb (mapGetD acc.1 nb 0 - 1)) +
      (acc.2 ++ [nb]).length ≤ kahnPhi acc.1 + acc.2.length
    simp only [List.length_append, List.length_singleton]
    have h := kahnPhi_decrement acc.1 nb
    rw [if_pos hd] at h
    omega
  · have hstep : kahnStep acc nb =
        (mapSet acc.1 nb (mapGetD acc.1 nb 0 - 1), acc.2) := by
      simp [kahnStep, hd]
    rw [hstep]
    show kahnPhi (mapSet acc.1 nb (mapGetD acc.1 nb 0 - 1)) +
      acc.2.length ≤ kahnPhi acc.1 + acc.2.length
    have h := kahnPhi_decrement acc.1 nb
    rw [if_neg hd] at h
    omega

theorem kahnFold_measure :
    ∀ (ns : List String) (acc : List (String × Int) × List String),
    kahnPhi (ns.foldl kahnStep acc).1 + (ns.foldl kahnStep acc).2.length ≤
      kahnPhi acc.1 + acc.2.length := by
  intro ns
  induction ns with
  | nil => intro acc; exact le_refl _
  | cons nb rest ih =>
    intro acc
    rw [List.foldl_cons]
    exact le_trans (ih _) (kahnStep_measure acc nb)

theorem kahnPhi_set_zero (m : List (String × Int)) (k : String) :
    kahnPhi (mapSet m k 0) ≤ kahnPhi m + 1 := by
  induction m with
  | nil => simp [mapSet, kahnPhi]
  | cons p rest ih =>
    obtain ⟨a, x⟩ := p
    by_cases hp : a = k
    · subst hp
      have h2 : mapSet ((a, x) :: rest) a (0 : Int) = (a, 0) :: rest := by simp [mapSet]
      rw [h2]
      simp only [kahnPhi, List.map_cons, List.sum_cons]
      omega
    · have h2 : mapSet ((a, x) :: rest) k (0 : Int) = (a, x) :: mapSet rest k 0 := by
        simp [mapSet, hp]
      rw [h2]
      simp only [kahnPhi, List.map_cons, List.sum_cons]
      simp only [kahnPhi] at ih
      omega

theorem kahnPhi_incr (m : List (String × Int)) (k : String) :
    kahnPhi (mapSet m k (mapGetD m k 0 + 1)) ≤ kahnPhi m + 2 := by
  induction m with
  | nil => simp [mapSet, mapGetD, mapGet, kahnPhi]
  | cons p rest ih =>
    obtain ⟨a, x⟩ := p
    by_cases hp : a = k
    · subst hp
      have h1 : mapGetD ((a, x) :: rest) a 0 = x := by simp [mapGetD, mapGet]
      have h2 : mapSet ((a, x) :: rest) a (x + 1) = (a, x + 1) :: rest := by
        simp [mapSet]
      rw [h1, h2]
      simp only [kahnPhi, List.map_cons, List.sum_cons]
      omega
    · have h1 : mapGetD ((a, x) :: rest) k 0 = mapGetD rest k 0 := by
        simp [mapGetD, mapGet, hp]
      have h2 : mapSet ((a, x) :: rest) k (mapGetD rest k 0 + 1) =
          (a, x) :: mapSet rest k (mapGetD rest k 0 + 1) := by
        simp [mapSet, hp]
      rw [h1, h2]
      simp only [kahnPhi, List.map_cons, List.sum_cons]
      simp only [kahnPhi] at ih
      omega

theorem kahnPhi_nodesFold :
    ∀ (ns : List WorkflowNode) (m : List (String × Int)),
    kahnPhi (ns.foldl (fun m node => mapSet m node.id (0 : Int)) m) ≤
      kahnPhi m + ns.length := by
  intro ns
  induction ns with
  | nil => intro m; simp
  | cons n rest ih =>
    intro m
    rw [List.foldl_cons]
    calc kahnPhi (rest.foldl (fun m node => mapSet m node.id (0 : Int)) (mapSet m n.id 0)) ≤
        kahnPhi (mapSet m n.id 0) + rest.length := ih _
      _ ≤ kahnPhi m + 1 + rest.length := by
          have := kahnPhi_set_zero m n.id
          omega
      _ = kahnPhi m + (n :: rest).length := by simp [List.length_cons]; omega

theorem kahnPhi_edgeFold :
    ∀ (es : List WorkflowEdge) (m : List (String × Int)),
    kahnPhi (es.foldl
      (fun m edge => mapSet m edge.target (mapGetD m edge.target 0 + 1)) m) ≤
      kahnPhi m + 2 * es.length := by
  intro es
  induction es with
  | nil => intro m; simp
  | cons e rest ih =>
    intro m
    rw [List.foldl_cons]
    calc kahnPhi (rest.foldl (fun m edge => mapSet m edge.target (mapGetD m edge.target 0 + 1))
          (mapSet m e.target (mapGetD m e.target 0 + 1))) ≤
        kahnPhi (mapSet m e.target (mapGetD m e.target 0 + 1)) + 2 * rest.length := ih _
      _ ≤ kahnPhi m + 2 + 2 * rest.length := by
          have := kahnPhi_incr m e.target
          omega
      _ ≤ kahnPhi m + 2 * (e :: rest).length := by simp [List.length_cons]; omega

theorem kahnPhi_buildInDegree (nodes : List WorkflowNode) (edges : List WorkflowEdge) :
    kahnPhi (buildInDegree nodes edges) ≤ nodes.length + 2 * edges.length := by
  simp only [buildInDegree]
  calc kahnPhi (edges.foldl
        (fun m edge => mapSet m edge.target (mapGetD m edge.target 0 + 1))
        (nodes.foldl (fun m node => mapSet m node.id (0 : Int)) [])) ≤
      kahnPhi (nodes.foldl (fun m node => mapSet m node.id (0 : Int)) []) +
        2 * edges.length := kahnPhi_edgeFold _ _
    _ ≤ kahnPhi ([] : List (String × Int)) + nodes.length + 2 * edges.length := by
        have := kahnPhi_nodesFold nodes []
        omega
    _ = nodes.length + 2 * edges.length := by simp [kahnPhi]

-- ============================================================================
-- The Kahn invariant: preservation through the neighbor fold
-- ============================================================================

theorem kahnFold_master (nodes : List WorkflowNode) (edges : List WorkflowEdge)
    (resIds : List String) (u : String) :
    ∀ (ns : List String) (deg : List (String × Int)) (q : List String),
    (∀ v, mapGetD deg v 0 =
      inDeg0 edges v - cntFrom edges resIds v + (List.count v ns : Int)) →
    (∀ v ∈ ns, ∃ e ∈ edges, e.source = u ∧ e.target = v) →
    (resIds ++ q).Nodup →
    (∀ v ∈ q, v ∈ nodeIds nodes ∨ v ∈ edges.map (fun e => e.target)) →
    (∀ e ∈ edges, e.target ∈ q → e.source ∈ resIds) →
    (∀ v, v ∈ resIds ∨ v ∈ q → mapGetD deg v 0 ≤ 0) →
    (∀ v ∈ nodeIds nodes, mapGetD deg v 0 = 0 → v ∈ resIds ∨ v ∈ q) →
    (∀ v, mapGetD (ns.foldl kahnStep (deg, q)).1 v 0 =
      inDeg0 edges v - cntFrom edges resIds v) ∧
    (resIds ++ (ns.foldl kahnStep (deg, q)).2).Nodup ∧
    (∀ v ∈ (ns.foldl kahnStep (deg, q)).2,
      v ∈ nodeIds nodes ∨ v ∈ edges.map (fun e => e.target)) ∧
    (∀ e ∈ edges, e.target ∈ (ns.foldl kahnStep (deg, q)).2 → e.source ∈ resIds) ∧
    (∀ v, v ∈ resIds ∨ v ∈ (ns.foldl kahnStep (deg, q)).2 →
      mapGetD (ns.foldl kahnStep (deg, q)).1 v 0 ≤ 0) ∧
    (∀ v ∈ nodeIds nodes, mapGetD (ns.foldl kahnStep (deg, q)).1 v 0 = 0 →
      v ∈ resIds ∨ v ∈ (ns.foldl kahnStep (deg, q)).2) := by
  intro ns
  induction ns with
  | nil =>
    intro deg q hA hmem hnodup hqmem hksq hF hzero
    refine ⟨?_, hnodup, hqmem, hksq, hF, hzero⟩
    intro v
    have := hA v
    simpa using this
  | cons nb rest ih =>
    intro deg q hA hmem hnodup hqmem hksq hF hzero
    rw [List.foldl_cons]
    have hA' : ∀ v, mapGetD (mapSet deg nb (mapGetD deg nb 0 - 1)) v 0 =
        inDeg0 edges v - cntFrom edges resIds v + (List.count v rest : Int) := by
      intro v
      by_cases hv : v = nb
      · subst hv
        rw [mapGetD_mapSet_self]
        have h := hA v
        rw [List.count_cons_self] at h
        push_cast at h
        omega
      · rw [mapGetD_mapSet_ne _ _ _ hv]
        have h := hA v
        rw [List.count_cons_of_ne hv] at h
        exact h
    have hmem' : ∀ v ∈ rest, ∃ e ∈ edges, e.source = u ∧ e.target = v :=
      fun v hv => hmem v (List.mem_cons_of_mem _ hv)
    by_cases hd : mapGetD deg nb 0 - 1 = 0
    · -- the decremented degree reached zero: nb is pushed onto the queue
      have hstep : kahnStep (deg, q) nb =
          (mapSet deg nb (mapGetD deg nb 0 - 1), q ++ [nb]) := by
        simp [kahnStep, hd]
      rw [hstep]
      -- decompose: the tracked degree of nb was one, so its residual in-degree
      -- and its remaining multiplicity in the neighbor list are both zero
      have hDle := cntFrom_le edges resIds nb
      have hcnt0 : (List.count nb rest : Int) = 0 ∧
          cntFrom edges resIds nb = inDeg0 edges nb := by
        have h := hA nb
        rw [List.count_cons_self] at h
        push_cast at h
        have hc : (0 : Int) ≤ (List.count nb rest : Int) := by positivity
        constructor <;> omega
      have hfresh : nb ∉ resIds ∧ nb ∉ q := by
        constructor
        · intro hcontra
          have := hF nb (Or.inl hcontra)
          omega
        · intro hcontra
          have := hF nb (Or.inr hcontra)
          omega
      have hnodup' : (resIds ++ (q ++ [nb])).Nodup := by
        rw [← List.append_assoc]
        refine nodup_append_singleton hnodup ?_
        intro hcontra
        rcases List.mem_append.mp hcontra with h | h
        · exact hfresh.1 h
        · exact hfresh.2 h
      have hqmem' : ∀ v ∈ q ++ [nb],
          v ∈ nodeIds nodes ∨ v ∈ edges.map (fun e => e.target) := by
        intro v hv
        rcases List.mem_append.mp hv with h | h
        · exact hqmem v h
        · rw [List.mem_singleton.mp h]
          obtain ⟨e, he, _, ht⟩ := hmem nb (List.mem_cons_self _ _)
          exact Or.inr (List.mem_map.mpr ⟨e, he, ht⟩)
      have hksq' : ∀ e ∈ edges, e.target ∈ q ++ [nb] → e.source ∈ resIds := by
        intro e he hv
        rcases List.mem_append.mp hv with h | h
        · exact hksq e he h
        · have ht := List.mem_singleton.mp h
          exact cntFrom_full edges resIds nb hcnt0.2 e he ht
      have hF' : ∀ v, v ∈ resIds ∨ v ∈ q ++ [nb] →
          mapGetD (mapSet deg nb (mapGetD deg nb 0 - 1)) v 0 ≤ 0 := by
        intro v hv
        by_cases hvnb : v = nb
        · subst hvnb
          rw [mapGetD_mapSet_self]
          omega
        · rw [mapGetD_mapSet_ne _ _ _ hvnb]
          refine hF v ?_
          rcases hv with h | h
          · exact Or.inl h
          · rcases List.mem_append.mp h with h | h
            · exact Or.inr h
            · exact absurd (List.mem_singleton.mp h) hvnb
      have hzero' : ∀ v ∈ nodeIds nodes,
          mapGetD (mapSet deg nb (mapGetD deg nb 0 - 1)) v 0 = 0 →
          v ∈ resIds ∨ v ∈ q ++ [nb] := by
        intro v hvids hval
        by_cases hvnb : v = nb
        · subst hvnb
          exact Or.inr (List.mem_append.mpr (Or.inr (List.mem_singleton.mpr rfl)))
        · rw [mapGetD_mapSet_ne _ _ _ hvnb] at hval
          rcases hzero v hvids hval with h | h
          · exact Or.inl h
          · exact Or.inr (List.mem_append.mpr (Or.inl h))
      exact ih _ _ hA' hmem' hnodup' hqmem' hksq' hF' hzero'
    · -- the decremented degree is nonzero: only the map changes
      have hstep : kahnStep (deg, q) nb =
          (mapSet deg nb (mapGetD deg nb 0 - 1), q) := by
        simp [kahnStep, hd]
      rw [hstep]
      have hF' : ∀ v, v ∈ resIds ∨ v ∈ q →
          mapGetD (mapSet deg nb (mapGetD deg nb 0 - 1)) v 0 ≤ 0 := by
        intro v hv
        by_cases hvnb : v = nb
        · subst hvnb
          rw [mapGetD_mapSet_self]
          have := hF v hv
          omega
        · rw [mapGetD_mapSet_ne _ _ _ hvnb]
          exact hF v hv
      have hzero' : ∀ v ∈ nodeIds nodes,
          mapGetD (mapSet deg nb (mapGetD deg nb 0 - 1)) v 0 = 0 →
          v ∈ resIds ∨ v ∈ q := by
        intro v hvids hval
        by_cases hvnb : v = nb
        · subst hvnb
          rw [mapGetD_mapSet_self] at hval
          exact absurd hval hd
        · rw [mapGetD_mapSet_ne _ _ _ hvnb] at hval
          exact hzero v hvids hval
      exact ih _ _ hA' hmem' hnodup hqmem hksq hF' hzero'

-- ============================================================================
-- The Kahn invariant: preservation through the while loop
-- ============================================================================

theorem kahnRun_master (nodes : List WorkflowNode) (edges : List WorkflowEdge)
    (Hsrc : ∀ e ∈ edges, e.source ∈ nodeIds nodes ∨
      e.source ∉ edges.map (fun e => e.target)) :
    ∀ (fuel : Nat) (q : List String) (deg : List (String × Int))
      (res : List WorkflowNode),
    KahnInv nodes edges q deg res →
    kahnPhi deg + q.length ≤ fuel →
    ∃ degF, KahnInv nodes edges [] degF
      (kahnRun (buildAdjacencyList nodes edges) (buildNodeMap nodes) fuel q deg res) := by
  intro fuel
  induction fuel with
  | zero =>
    intro q deg res inv hmeas
    have hq : q = [] := List.length_eq_zero.mp (by omega)
    subst hq
    exact ⟨deg, inv⟩
  | succ fuel ih =>
    intro q deg res inv hmeas
    match q with
    | [] =>
      rw [kahnRun]
      exact ⟨deg, inv⟩
    | nodeId :: rest =>
      rw [kahnRun]
      have hchar := buildAdjacencyList_char nodes edges nodeId
      cases hget : mapGet (buildNodeMap nodes) nodeId with
      | some node =>
        simp only [hget]
        obtain ⟨hnodemem, hid⟩ := buildNodeMap_mem hget
        have hufresh : nodeId ∉ res.map (fun n => n.id) := by
          have hnd := inv.nodup
          rw [List.nodup_append] at hnd
          exact fun hc => hnd.2.2 hc (List.mem_cons_self _ _)
        have hmapids : (res ++ [node]).map (fun n => n.id) =
            res.map (fun n => n.id) ++ [nodeId] := by
          simp [hid]
        have hA : ∀ v, mapGetD deg v 0 =
            inDeg0 edges v - cntFrom edges ((res ++ [node]).map (fun n => n.id)) v +
              (List.count v (mapGetD (buildAdjacencyList nodes edges) nodeId []) : Int) := by
          intro v
          rw [hmapids, cntFrom_append_single edges _ nodeId v hufresh, hchar, count_targets]
          have := inv.i2 v
          omega
        have hmem : ∀ v ∈ mapGetD (buildAdjacencyList nodes edges) nodeId [],
            ∃ e ∈ edges, e.source = nodeId ∧ e.target = v := by
          intro v hv
          rw [hchar] at hv
          obtain ⟨e, he, rfl⟩ := List.mem_map.mp hv
          have hsrc := List.of_mem_filter he
          simp only [decide_eq_true_eq] at hsrc
          exact ⟨e, List.mem_of_mem_filter he, hsrc, rfl⟩
        have hnodup : ((res ++ [node]).map (fun n => n.id) ++ rest).Nodup := by
          rw [hmapids, List.append_assoc]
          exact inv.nodup
        have hqmem : ∀ v ∈ rest,
            v ∈ nodeIds nodes ∨ v ∈ edges.map (fun e => e.target) :=
          fun v hv => inv.qmem v (List.mem_cons_of_mem _ hv)
        have hksq : ∀ e ∈ edges, e.target ∈ rest →
            e.source ∈ (res ++ [node]).map (fun n => n.id) := by
          intro e he ht
          rw [hmapids]
          exact List.mem_append.mpr (Or.inl (inv.ksq e he (List.mem_cons_of_mem _ ht)))
        have hF : ∀ v, v ∈ (res ++ [node]).map (fun n => n.id) ∨ v ∈ rest →
            mapGetD deg v 0 ≤ 0 := by
          intro v hv
          refine inv.degnonpos v ?_
          rcases hv with h | h
          · rw [hmapids] at h
            rcases List.mem_append.mp h with h | h
            · exact Or.inl h
            · refine Or.inr ?_
              rw [List.mem_singleton.mp h]
              exact List.mem_cons_self _ _
          · exact Or.inr (List.mem_cons_of_mem _ h)
        have hzero : ∀ v ∈ nodeIds nodes, mapGetD deg v 0 = 0 →
            v ∈ (res ++ [node]).map (fun n => n.id) ∨ v ∈ rest := by
          intro v hvid hval
          rcases inv.zeroin v hvid hval with h | h
          · refine Or.inl ?_
            rw [hmapids]
            exact List.mem_append.mpr (Or.inl h)
          · rcases List.mem_cons.mp h with rfl | h
            · refine Or.inl ?_
              rw [hmapids]
              exact List.mem_append.mpr (Or.inr (List.mem_singleton.mpr rfl))
            · exact Or.inr h
        obtain ⟨c1, c2, c3, c4, c5, c6⟩ := kahnFold_master nodes edges
          ((res ++ [node]).map (fun n => n.id)) nodeId _ deg rest
          hA hmem hnodup hqmem hksq hF hzero
        have inv' : KahnInv nodes edges
            ((mapGetD (buildAdjacencyList nodes edges) nodeId []).foldl
              kahnStep (deg, rest)).2
            ((mapGetD (buildAdjacencyList nodes edges) nodeId []).foldl
              kahnStep (deg, rest)).1
            (res ++ [node]) := by
          refine ⟨c2, ?_, c3, c4, ?_, c5, c1, c6⟩
          · intro n hn
            rcases List.mem_append.mp hn with h | h
            · exact inv.resmem n h
            · rw [List.mem_singleton.mp h]
              exact hnodemem
          · intro e he j hj hgetj
            by_cases hlt : j < res.length
            · have hgj : (res ++ [node]).get ⟨j, hj⟩ = res.get ⟨j, hlt⟩ :=
                List.get_append j hlt
              rw [List.take_append_of_le_length (le_of_lt hlt)]
              refine inv.ksres e he j hlt ?_
              rw [← hgj]
              exact hgetj
            · have hjeq : j = res.length := by
                simp only [List.length_append, List.length_singleton] at hj
                omega
              subst hjeq
              have hgj : (res ++ [node]).get ⟨res.length, hj⟩ = node := by simp
              rw [hgj] at hgetj
              have ht : e.target = nodeId := by rw [← hgetj, hid]
              have hsrcmem := inv.ksq e he (by rw [ht]; exact List.mem_cons_self _ _)
              rw [List.take_left]
              exact hsrcmem
        have hmeas' : kahnPhi ((mapGetD (buildAdjacencyList nodes edges) nodeId []).foldl
              kahnStep (deg, rest)).1 +
            ((mapGetD (buildAdjacencyList nodes edges) nodeId []).foldl
              kahnStep (deg, rest)).2.length ≤ fuel := by
          have h1 : kahnPhi ((mapGetD (buildAdjacencyList nodes edges) nodeId []).foldl
                kahnStep (deg, rest)).1 +
              ((mapGetD (buildAdjacencyList nodes edges) nodeId []).foldl
                kahnStep (deg, rest)).2.length ≤ kahnPhi deg + rest.length :=
            kahnFold_measure (mapGetD (buildAdjacencyList nodes edges) nodeId []) (deg, rest)
          simp only [List.length_cons] at hmeas
          omega
        exact ih _ _ _ inv' hmeas'
      | none =>
        simp only [hget]
        have hnotid : nodeId ∉ nodeIds nodes := by
          intro hc
          obtain ⟨n, hn⟩ := buildNodeMap_key nodes hc
          rw [hget] at hn
          cases hn
        have htarget : nodeId ∈ edges.map (fun e => e.target) := by
          rcases inv.qmem nodeId (List.mem_cons_self _ _) with h | h
          · exact absurd h hnotid
          · exact h
        have hnosrc : ∀ e ∈ edges, e.source ≠ nodeId := by
          intro e he hc
          rcases Hsrc e he with h | h
          · exact hnotid (hc ▸ h)
          · exact h (hc ▸ htarget)
        have hempty : mapGetD (buildAdjacencyList nodes edges) nodeId [] = [] := by
          rw [hchar]
          have hfe : edges.filter (fun e => e.source = nodeId) = [] := by
            rw [List.filter_eq_nil_iff]
            intro e he
            simp [hnosrc e he]
          rw [hfe]
          rfl
        rw [hempty]
        have inv' : KahnInv nodes edges rest deg res := by
          refine ⟨?_, inv.resmem, ?_, ?_, inv.ksres, ?_, inv.i2, ?_⟩
          · refine List.Nodup.sublist ?_ inv.nodup
            exact List.Sublist.append_left (List.sublist_cons_self _ _) _
          · exact fun v hv => inv.qmem v (List.mem_cons_of_mem _ hv)
          · exact fun e he ht => inv.ksq e he (List.mem_cons_of_mem _ ht)
          · intro v hv
            refine inv.degnonpos v ?_
            rcases hv with h | h
            · exact Or.inl h
            · exact Or.inr (List.mem_cons_of_mem _ h)
          · intro v hvid hval
            rcases inv.zeroin v hvid hval with h | h
            · exact Or.inl h
            · rcases List.mem_cons.mp h with rfl | h
              · exact absurd hvid hnotid
              · exact Or.inr h
        have hmeas' : kahnPhi deg + rest.length ≤ fuel := by
          simp only [List.length_cons] at hmeas
          omega
        exact ih _ _ _ inv' hmeas'

-- ============================================================================
-- The Kahn invariant: establishment and consequences
-- ============================================================================

theorem initQueue_inDeg (nodes : List WorkflowNode) (edges : List WorkflowEdge)
    {v : String}
    (hv : v ∈ (nodes.filter
      (fun node => mapGet (buildInDegree nodes edges) node.id = some 0)).map
      (fun node => node.id)) :
    v ∈ nodeIds nodes ∧ inDeg0 edges v = 0 := by
  obtain ⟨node, hnode, rfl⟩ := List.mem_map.mp hv
  have hmem := List.mem_of_mem_filter hnode
  have hcond := List.of_mem_filter hnode
  simp only [decide_eq_true_eq] at hcond
  have hid : node.id ∈ nodeIds nodes := List.mem_map_of_mem _ hmem
  have hkey := buildInDegree_key nodes edges hid
  rw [hcond] at hkey
  exact ⟨hid, (Option.some.inj hkey).symm⟩

theorem topologicalSort_initInv (nodes : List WorkflowNode) (edges : List WorkflowEdge)
    (Hn : (nodeIds nodes).Nodup) :
    KahnInv nodes edges
      ((nodes.filter
        (fun node => mapGet (buildInDegree nodes edges) node.id = some 0)).map
        (fun node => node.id))
      (buildInDegree nodes edges) [] := by
  refine ⟨?_, ?_, ?_, ?_, ?_, ?_, ?_, ?_⟩
  · simp only [List.map_nil, List.nil_append]
    refine List.Nodup.sublist ?_ Hn
    exact List.Sublist.map _ (List.filter_sublist _)
  · intro n hn
    simp at hn
  · intro v hv
    exact Or.inl (initQueue_inDeg nodes edges hv).1
  · intro e he ht
    exfalso
    have h0 := (initQueue_inDeg nodes edges ht).2
    have hpos : 0 < (edges.filter (fun e' => e'.target = e.target)).length := by
      refine List.length_pos.mpr ?_
      intro hnil
      have hmem : e ∈ edges.filter (fun e' => e'.target = e.target) :=
        List.mem_filter.mpr ⟨he, by simp⟩
      rw [hnil] at hmem
      simp at hmem
    unfold inDeg0 at h0
    omega
  · intro e he j hj
    simp at hj
  · intro v hv
    rcases hv with h | h
    · simp at h
    · have h0 := (initQueue_inDeg nodes edges h).2
      rw [buildInDegree_char]
      omega
  · intro v
    rw [buildInDegree_char]
    simp only [List.map_nil]
    rw [cntFrom_nil]
    omega
  · intro v hvid hval
    rw [buildInDegree_char] at hval
    refine Or.inr ?_
    simp only [nodeIds] at hvid
    obtain ⟨node, hnode, rfl⟩ := List.mem_map.mp hvid
    refine List.mem_map.mpr ⟨node, ?_, rfl⟩
    refine List.mem_filter.mpr ⟨hnode, ?_⟩
    rw [buildInDegree_key nodes edges (List.mem_map_of_mem _ hnode)]
    simp [hval]

theorem topologicalSort_initMeasure (nodes : List WorkflowNode)
    (edges : List WorkflowEdge) :
    kahnPhi (buildInDegree nodes edges) +
      ((nodes.filter
        (fun node => mapGet (buildInDegree nodes edges) node.id = some 0)).map
        (fun node => node.id)).length ≤ 2 * (nodes.length + edges.length) + 1 := by
  have h1 := kahnPhi_buildInDegree nodes edges
  have h2 : ((nodes.filter
      (fun node => mapGet (buildInDegree nodes edges) node.id = some 0)).map
      (fun node => node.id)).length ≤ nodes.length := by
    rw [List.length_map]
    exact List.length_filter_le _ _
  omega

theorem topologicalSort_invF (nodes : List WorkflowNode) (edges : List WorkflowEdge)
    (Hn : (nodeIds nodes).Nodup)
    (Hsrc : ∀ e ∈ edges, e.source ∈ nodeIds nodes ∨
      e.source ∉ edges.map (fun e => e.target)) :
    ∃ degF, KahnInv nodes edges [] degF
      (kahnRun (buildAdjacencyList nodes edges) (buildNodeMap nodes)
        (2 * (nodes.length + edges.length) + 1)
        ((nodes.filter
          (fun node => mapGet (buildInDegree nodes edges) node.id = some 0)).map
          (fun node => node.id))
        (buildInDegree nodes edges) []) :=
  kahnRun_master nodes edges Hsrc _ _ _ _ (topologicalSort_initInv nodes edges Hn)
    (topologicalSort_initMeasure nodes edges)

theorem topologicalSort_ksres {nodes : List WorkflowNode} {edges : List WorkflowEdge}
    (Hn : (nodeIds nodes).Nodup)
    (Hsrc : ∀ e ∈ edges, e.source ∈ nodeIds nodes ∨
      e.source ∉ edges.map (fun e => e.target))
    {res : List WorkflowNode} (h : topologicalSort nodes edges = some res) :
    ∀ e ∈ edges, ∀ (j : Nat) (hj : j < res.length),
      (res.get ⟨j, hj⟩).id = e.target → e.source ∈ (res.take j).map (fun n => n.id) := by
  obtain ⟨degF, invF⟩ := topologicalSort_invF nodes edges Hn Hsrc
  simp only [topologicalSort] at h
  split at h
  · cases h
    exact invF.ksres
  · cases h

theorem topologicalSort_length {nodes : List WorkflowNode} {edges : List WorkflowEdge}
    {res : List WorkflowNode} (h : topologicalSort nodes edges = some res) :
    res.length = nodes.length := by
  simp only [topologicalSort] at h
  split at h
  · rename_i hcond
    cases h
    exact hcond
  · cases h

theorem indexOf_lt_of_mem_take {α : Type} [DecidableEq α] :
    ∀ (l : List α) (j : Nat) (a : α), a ∈ l.take j → l.indexOf a < j := by
  intro l
  induction l with
  | nil =>
    intro j a ha
    simp at ha
  | cons x xs ih =>
    intro j a ha
    match j with
    | 0 => simp at ha
    | j + 1 =>
      rw [List.take_succ_cons] at ha
      by_cases hax : a = x
      · subst hax
        simp [List.indexOf_cons_self]
      · rcases List.mem_cons.mp ha with h | ha'
        · exact absurd h hax
        · rw [List.indexOf_cons_ne _ (Ne.symm hax)]
          have := ih j a ha'
          omega

theorem get_map_id (res : List WorkflowNode) (j : Nat)
    (h1 : j < (res.map (fun n => n.id)).length) (h2 : j < res.length) :
    (res.map (fun n => n.id)).get ⟨j, h1⟩ = (res.get ⟨j, h2⟩).id := by
  simp

theorem topologicalSort_order {nodes : List WorkflowNode} {edges : List WorkflowEdge}
    (Hn : (nodeIds nodes).Nodup)
    (Hsrc : ∀ e ∈ edges, e.source ∈ nodeIds nodes ∨
      e.source ∉ edges.map (fun e => e.target))
    {res : List WorkflowNode} (h : topologicalSort nodes edges = some res) :
    ∀ e ∈ edges, e.target ∈ res.map (fun n => n.id) →
      (res.map (fun n => n.id)).indexOf e.source <
        (res.map (fun n => n.id)).indexOf e.target := by
  intro e he htm
  have hjlt : (res.map (fun n => n.id)).indexOf e.target <
      (res.map (fun n => n.id)).length := List.indexOf_lt_length.mpr htm
  have hjlen : (res.map (fun n => n.id)).indexOf e.target < res.length := by
    rw [List.length_map] at hjlt
    exact hjlt
  have hget : (res.get ⟨(res.map (fun n => n.id)).indexOf e.target, hjlen⟩).id =
      e.target := by
    have h1 : (res.map (fun n => n.id)).get
        ⟨(res.map (fun n => n.id)).indexOf e.target, hjlt⟩ = e.target :=
      List.indexOf_get hjlt
    exact (get_map_id res _ hjlt hjlen).symm.trans h1
  have hsrcmem := topologicalSort_ksres Hn Hsrc h e he _ hjlen hget
  rw [List.map_take] at hsrcmem
  exact indexOf_lt_of_mem_take _ _ _ hsrcmem

theorem kahnInv_final_length (nodes : List WorkflowNode) (edges : List WorkflowEdge)
    (Hn : (nodeIds nodes).Nodup)
    (HsrcFull : ∀ e ∈ edges, e.source ∈ nodeIds nodes)
    (Hacyc : Acyclic edges) {degF : List (String × Int)} {R : List WorkflowNode}
    (invF : KahnInv nodes edges [] degF R) :
    R.length = nodes.length := by
  have hRsub : ∀ v ∈ R.map (fun n => n.id), v ∈ nodeIds nodes := by
    intro v hv
    obtain ⟨n, hn, rfl⟩ := List.mem_map.mp hv
    exact List.mem_map_of_mem _ (invF.resmem n hn)
  have hidsub : ∀ v ∈ nodeIds nodes, v ∈ R.map (fun n => n.id) := by
    by_contra hcon
    push_neg at hcon
    obtain ⟨v₀, hv₀ids, hv₀not⟩ := hcon
    have hSmem : ∀ v, v ∈ (nodeIds nodes).filter
        (fun v => decide (v ∉ R.map (fun n => n.id))) ↔
        (v ∈ nodeIds nodes ∧ v ∉ R.map (fun n => n.id)) := by
      intro v
      simp [List.mem_filter]
    have hpred : ∀ v ∈ (nodeIds nodes).filter
        (fun v => decide (v ∉ R.map (fun n => n.id))),
        ∃ u ∈ (nodeIds nodes).filter (fun v => decide (v ∉ R.map (fun n => n.id))),
          edgeStep edges u v := by
      intro v hv
      obtain ⟨hvids, hvnot⟩ := (hSmem v).mp hv
      by_cases hall : ∀ e ∈ edges, e.target = v → e.source ∈ R.map (fun n => n.id)
      · exfalso
        have hcnt := cntFrom_all edges _ v hall
        have hi2 := invF.i2 v
        rw [hcnt] at hi2
        have hz : mapGetD degF v 0 = 0 := by omega
        rcases invF.zeroin v hvids hz with h | h
        · exact hvnot h
        · simp at h
      · push_neg at hall
        obtain ⟨e, he, ht, hs⟩ := hall
        exact ⟨e.source, (hSmem _).mpr ⟨HsrcFull e he, hs⟩, ⟨e, he, rfl, ht⟩⟩
    haveI hfin : Finite {x // x ∈ (nodeIds nodes).filter
        (fun v => decide (v ∉ R.map (fun n => n.id)))} :=
      (List.finite_toSet _).to_subtype
    have hwf : WellFounded (fun (a b : {x // x ∈ (nodeIds nodes).filter
        (fun v => decide (v ∉ R.map (fun n => n.id)))}) =>
        Relation.TransGen (edgeStep edges) a.1 b.1) := by
      haveI : IsTrans {x // x ∈ (nodeIds nodes).filter
          (fun v => decide (v ∉ R.map (fun n => n.id)))}
          (fun a b => Relation.TransGen (edgeStep edges) a.1 b.1) :=
        ⟨fun a b c hab hbc => Relation.TransGen.trans hab hbc⟩
      haveI : IsIrrefl {x // x ∈ (nodeIds nodes).filter
          (fun v => decide (v ∉ R.map (fun n => n.id)))}
          (fun a b => Relation.TransGen (edgeStep edges) a.1 b.1) :=
        ⟨fun a ha => Hacyc a.1 ha⟩
      exact Finite.wellFounded_of_trans_of_irrefl _
    have hv₀S : v₀ ∈ (nodeIds nodes).filter
        (fun v => decide (v ∉ R.map (fun n => n.id))) :=
      (hSmem v₀).mpr ⟨hv₀ids, hv₀not⟩
    obtain ⟨m, _, hmin⟩ := hwf.has_min Set.univ ⟨⟨v₀, hv₀S⟩, Set.mem_univ _⟩
    obtain ⟨u, huS, hstep⟩ := hpred m.1 m.2
    exact hmin ⟨u, huS⟩ (Set.mem_univ _) (Relation.TransGen.single hstep)
  have hnd1 : (R.map (fun n => n.id)).Nodup := by
    have := invF.nodup
    simpa using this
  have h1 := (List.subperm_of_subset hnd1 hRsub).length_le
  have h2 := (List.subperm_of_subset Hn hidsub).length_le
  have hlen : (R.map (fun n => n.id)).length = (nodeIds nodes).length :=
    le_antisymm h1 h2
  rw [List.length_map] at hlen
  rw [hlen]
  simp [nodeIds]

theorem topologicalSort_complete (nodes : List WorkflowNode) (edges : List WorkflowEdge)
    (Hn : (nodeIds nodes).Nodup)
    (HsrcFull : ∀ e ∈ edges, e.source ∈ nodeIds nodes)
    (Hacyc : Acyclic edges) :
    ∃ res, topologicalSort nodes edges = some res := by
  have Hsrc : ∀ e ∈ edges, e.source ∈ nodeIds nodes ∨
      e.source ∉ edges.map (fun e => e.target) := fun e he => Or.inl (HsrcFull e he)
  obtain ⟨degF, invF⟩ := topologicalSort_invF nodes edges Hn Hsrc
  have hlen := kahnInv_final_length nodes edges Hn HsrcFull Hacyc invF
  refine ⟨kahnRun (buildAdjacencyList nodes edges) (buildNodeMap nodes)
    (2 * (nodes.length + edges.length) + 1)
    ((nodes.filter
      (fun node => mapGet (buildInDegree nodes edges) node.id = some 0)).map
      (fun node => node.id))
    (buildInDegree nodes edges) [], ?_⟩
  simp only [topologicalSort]
  rw [if_pos hlen]

theorem topologicalSort_ids_covered {nodes : List WorkflowNode}
    {edges : List WorkflowEdge} (Hn : (nodeIds nodes).Nodup)
    {res : List WorkflowNode} (h : topologicalSort nodes edges = some res) :
    ∀ v ∈ nodeIds nodes, v ∈ res.map (fun n => n.id) := by
  have hsub : ∀ v ∈ res.map (fun n => n.id), v ∈ nodeIds nodes := by
    intro v hv
    obtain ⟨n, hn, rfl⟩ := List.mem_map.mp hv
    exact List.mem_map_of_mem _ (topologicalSort_mem h n hn)
  have hnd := topologicalSort_ids_nodup Hn h
  have hlen := topologicalSort_length h
  have hsp : List.Subperm (res.map (fun n => n.id)) (nodeIds nodes) :=
    List.subperm_of_subset hnd hsub
  have hperm : List.Perm (res.map (fun n => n.id)) (nodeIds nodes) := by
    refine List.Subperm.perm_of_length_le hsp ?_
    simp [nodeIds, hlen]
  intro v hv
  exact hperm.mem_iff.mpr hv

-- ============================================================================
-- Cycle-detection DFS: soundness
-- ============================================================================

theorem chain_mem_transGen (edges : List WorkflowEdge) :
    ∀ (l : List String) (x y : String),
    List.Chain (fun a b => edgeStep edges b a) x l → y ∈ l →
    Relation.TransGen (edgeStep edges) y x := by
  intro l
  induction l with
  | nil =>
    intro x y _ hy
    simp at hy
  | cons s rest ih =>
    intro x y hchain hy
    rw [List.chain_cons] at hchain
    rcases List.mem_cons.mp hy with rfl | hy'
    · exact Relation.TransGen.single hchain.1
    · exact Relation.TransGen.tail (ih s y hchain.2 hy') hchain.1

theorem hasCycleUtil_sound (edges : List WorkflowEdge)
    (adjacency : List (String × List String))
    (hadj : ∀ u v, v ∈ mapGetD adjacency u [] → edgeStep edges u v) :
    ∀ (fuel : Nat) (visited stack : List String) (nodeId : String),
    List.Chain (fun a b => edgeStep edges b a) nodeId stack →
    (hasCycleUtil adjacency fuel visited stack nodeId).1 = true →
    ∃ w, Relation.TransGen (edgeStep edges) w w := by
  intro fuel
  induction fuel with
  | zero =>
    intro visited stack nodeId _ hres
    simp [hasCycleUtil] at hres
  | succ fuel ih =>
    intro visited stack nodeId hchain hres
    rw [hasCycleUtil] at hres
    by_cases hstk : nodeId ∈ stack
    · exact ⟨nodeId, chain_mem_transGen edges stack nodeId nodeId hchain hstk⟩
    · rw [if_neg hstk] at hres
      by_cases hvis : nodeId ∈ visited
      · rw [if_pos hvis] at hres
        simp at hres
      · rw [if_neg hvis] at hres
        have hfold : ∀ (ns : List String) (acc : Bool × List String),
            (∀ v ∈ ns, edgeStep edges nodeId v) →
            ((ns.foldl (fun acc neighbor => if acc.1 then acc
              else hasCycleUtil adjacency fuel acc.2 (nodeId :: stack) neighbor)
              acc).1 = true) →
            acc.1 = true ∨ ∃ w, Relation.TransGen (edgeStep edges) w w := by
          intro ns
          induction ns with
          | nil =>
            intro acc _ hr
            exact Or.inl hr
          | cons nb rest ihn =>
            intro acc hmem hr
            rw [List.foldl_cons] at hr
            obtain ⟨b, vis⟩ := acc
            cases b with
            | true => exact Or.inl rfl
            | false =>
              rcases ihn _ (fun v hv => hmem v (List.mem_cons_of_mem _ hv)) hr with
                h1 | h1
              · simp only [] at h1
                rw [if_neg (by simp)] at h1
                have hchain' : List.Chain (fun a b => edgeStep edges b a) nb
                    (nodeId :: stack) := by
                  rw [List.chain_cons]
                  exact ⟨hmem nb (List.mem_cons_self _ _), hchain⟩
                exact Or.inr (ih vis (nodeId :: stack) nb hchain' h1)
              · exact Or.inr h1
        rcases hfold (mapGetD adjacency nodeId []) (false, nodeId :: visited)
          (fun v hv => hadj nodeId v hv) hres with h | h
        · simp at h
        · exact h

theorem adjacency_edgeStep (nodes : List WorkflowNode) (edges : List WorkflowEdge) :
    ∀ u v, v ∈ mapGetD (buildAdjacencyList nodes edges) u [] → edgeStep edges u v := by
  intro u v hv
  rw [buildAdjacencyList_char] at hv
  obtain ⟨e, he, rfl⟩ := List.mem_map.mp hv
  have hsrc := List.of_mem_filter he
  simp only [decide_eq_true_eq] at hsrc
  exact ⟨e, List.mem_of_mem_filter he, hsrc, rfl⟩

theorem detectCycle_sound (nodes : List WorkflowNode) (edges : List WorkflowEdge)
    (h : detectCycle nodes edges = true) :
    ∃ w, Relation.TransGen (edgeStep edges) w w := by
  simp only [detectCycle] at h
  have hfold : ∀ (ns : List WorkflowNode) (acc : Bool × List String),
      ((ns.foldl (fun acc node => if acc.1 then acc
        else hasCycleUtil (buildAdjacencyList nodes edges)
          ((allGraphIds nodes edges).length + 1) acc.2 [] node.id) acc).1 = true) →
      acc.1 = true ∨ ∃ w, Relation.TransGen (edgeStep edges) w w := by
    intro ns
    induction ns with
    | nil =>
      intro acc hr
      exact Or.inl hr
    | cons n rest ihn =>
      intro acc hr
      rw [List.foldl_cons] at hr
      obtain ⟨b, vis⟩ := acc
      cases b with
      | true => exact Or.inl rfl
      | false =>
        rcases ihn _ hr with h1 | h1
        · simp only [] at h1
          rw [if_neg (by simp)] at h1
          refine Or.inr (hasCycleUtil_sound edges _ (adjacency_edgeStep nodes edges)
            _ vis [] n.id ?_ h1)
          exact List.Chain.nil
        · exact Or.inr h1
  rcases hfold nodes (false, []) h with h1 | h1
  · simp at h1
  · exact h1

-- ============================================================================
-- Cycle-detection DFS: completeness
-- ============================================================================

theorem filter_unstacked_dec {l stack : List String} {x : String} (hl : l.Nodup)
    (hx : x ∈ l) (hxs : x ∉ stack) :
    (l.filter (fun y => decide (y ∉ x :: stack))).length + 1 =
      (l.filter (fun y => decide (y ∉ stack))).length := by
  induction l with
  | nil => simp at hx
  | cons a rest ih =>
    rw [List.nodup_cons] at hl
    rcases List.mem_cons.mp hx with rfl | hx'
    · rw [List.filter_cons_of_neg (by simp), List.filter_cons_of_pos (by simpa using hxs)]
      have hcongr : rest.filter (fun y => decide (y ∉ x :: stack)) =
          rest.filter (fun y => decide (y ∉ stack)) := by
        refine List.filter_congr ?_
        intro y hy
        have hyx : y ≠ x := fun hh => hl.1 (hh ▸ hy)
        simp [List.mem_cons, hyx]
      rw [hcongr, List.length_cons]
    · have hax : a ≠ x := fun hh => hl.1 (hh ▸ hx')
      by_cases has : a ∈ stack
      · rw [List.filter_cons_of_neg (by simp [has]),
          List.filter_cons_of_neg (by simp [has])]
        exact ih hl.2 hx'
      · rw [List.filter_cons_of_pos (by simp [List.mem_cons, hax, has]),
          List.filter_cons_of_pos (by simpa using has)]
        simp only [List.length_cons]
        have := ih hl.2 hx'
        omega

theorem hasCycleFold_stable (adjacency : List (String × List String)) (fuel : Nat)
    (stack1 : List String) :
    ∀ (ns : List String) (vis : List String),
    (ns.foldl (fun acc neighbor => if acc.1 then acc
      else hasCycleUtil adjacency fuel acc.2 stack1 neighbor) (true, vis)) =
      (true, vis) := by
  intro ns
  induction ns with
  | nil => intro vis; rfl
  | cons nb rest ih =>
    intro vis
    rw [List.foldl_cons]
    simp only [if_pos rfl]
    exact ih vis

theorem detectFold_stable (adjacency : List (String × List String)) (fuel : Nat) :
    ∀ (ns : List WorkflowNode) (vis : List String),
    (ns.foldl (fun acc node => if acc.1 then acc
      else hasCycleUtil adjacency fuel acc.2 [] node.id) (true, vis)) = (true, vis) := by
  intro ns
  induction ns with
  | nil => intro vis; rfl
  | cons n rest ih =>
    intro vis
    rw [List.foldl_cons]
    simp only [if_pos rfl]
    exact ih vis

theorem hasCycleUtil_complete (edges : List WorkflowEdge)
    (adjacency : List (String × List String)) (allIdsD : List String)
    (hnodupAll : allIdsD.Nodup)
    (hadj : ∀ u v, edgeStep edges u v → v ∈ mapGetD adjacency u [])
    (hneigh : ∀ u v, v ∈ mapGetD adjacency u [] → v ∈ allIdsD) :
    ∀ (fuel : Nat) (visited stack : List String) (nodeId : String) (B : List String),
    nodeId ∈ allIdsD →
    (allIdsD.filter (fun y => decide (y ∉ stack))).length < fuel →
    (∀ x, x ∈ visited ↔ (x ∈ stack ∨ x ∈ B)) →
    (∀ (j : Nat) (hj : j < B.length) (v : String),
      edgeStep edges (B.get ⟨j, hj⟩) v → v ∈ B.take j) →
    (hasCycleUtil adjacency fuel visited stack nodeId).1 = false →
    ∃ Δ,
      (∀ x, x ∈ (hasCycleUtil adjacency fuel visited stack nodeId).2 ↔
        (x ∈ stack ∨ x ∈ B ++ Δ)) ∧
      (∀ (j : Nat) (hj : j < (B ++ Δ).length) (v : String),
        edgeStep edges ((B ++ Δ).get ⟨j, hj⟩) v → v ∈ (B ++ Δ).take j) ∧
      nodeId ∈ B ++ Δ := by
  intro fuel
  induction fuel with
  | zero =>
    intro visited stack nodeId B hnid hfuel hmem hrank hres
    omega
  | succ fuel ih =>
    intro visited stack nodeId B hnid hfuel hmem hrank hres
    rw [hasCycleUtil] at hres ⊢
    by_cases hstk : nodeId ∈ stack
    · rw [if_pos hstk] at hres
      simp at hres
    · rw [if_neg hstk] at hres ⊢
      by_cases hvis : nodeId ∈ visited
      · rw [if_pos hvis] at hres ⊢
        refine ⟨[], ?_, ?_, ?_⟩
        · simpa using hmem
        · simpa using hrank
        · rcases (hmem nodeId).mp hvis with h | h
          · exact absurd h hstk
          · simpa using h
      · rw [if_neg hvis] at hres ⊢
        have hfuel' : (allIdsD.filter
            (fun y => decide (y ∉ nodeId :: stack))).length < fuel := by
          have hdec := filter_unstacked_dec hnodupAll hnid hstk
          omega
        have hfold : ∀ (ns : List String) (acc : Bool × List String) (B' : List String),
            (∀ v ∈ ns, v ∈ mapGetD adjacency nodeId []) →
            (∀ x, x ∈ acc.2 ↔ (x ∈ nodeId :: stack ∨ x ∈ B')) →
            (∀ (j : Nat) (hj : j < B'.length) (v : String),
              edgeStep edges (B'.get ⟨j, hj⟩) v → v ∈ B'.take j) →
            ((ns.foldl (fun acc neighbor => if acc.1 then acc
              else hasCycleUtil adjacency fuel acc.2 (nodeId :: stack) neighbor)
              acc).1 = false) →
            acc.1 = false ∧
            ∃ Δ',
              (∀ x, x ∈ (ns.foldl (fun acc neighbor => if acc.1 then acc
                else hasCycleUtil adjacency fuel acc.2 (nodeId :: stack) neighbor)
                acc).2 ↔ (x ∈ nodeId :: stack ∨ x ∈ B' ++ Δ')) ∧
              (∀ (j : Nat) (hj : j < (B' ++ Δ').length) (v : String),
                edgeStep edges ((B' ++ Δ').get ⟨j, hj⟩) v → v ∈ (B' ++ Δ').take j) ∧
              (∀ v ∈ ns, v ∈ B' ++ Δ') := by
          intro ns
          induction ns with
          | nil =>
            intro acc B' hns hmem' hrank' hr
            refine ⟨hr, [], ?_, ?_, ?_⟩
            · simpa using hmem'
            · simpa using hrank'
            · intro v hv
              simp at hv
          | cons nb rest ihn =>
            intro acc B' hns hmem' hrank' hr
            rw [List.foldl_cons] at hr
            obtain ⟨b, vis⟩ := acc
            cases b with
            | true =>
              rw [if_pos rfl] at hr
              have hst := hasCycleFold_stable adjacency fuel (nodeId :: stack) rest vis
              rw [hst] at hr
              simp at hr
            | false =>
              refine ⟨rfl, ?_⟩
              rw [if_neg (by simp)] at hr
              rcases hsub : hasCycleUtil adjacency fuel vis (nodeId :: stack) nb with
                ⟨bsub, vissub⟩
              rw [hsub] at hr
              rw [List.foldl_cons, if_neg (by simp), hsub]
              cases bsub with
              | true =>
                have hst := hasCycleFold_stable adjacency fuel (nodeId :: stack) rest vissub
                rw [hst] at hr
                simp at hr
              | false =>
                have hnb_all : nb ∈ allIdsD :=
                  hneigh nodeId nb (hns nb (List.mem_cons_self _ _))
                have hsubres : (hasCycleUtil adjacency fuel vis
                    (nodeId :: stack) nb).1 = false := by
                  rw [hsub]
                obtain ⟨Δ₁, hmem₁, hrank₁, hnb₁⟩ :=
                  ih vis (nodeId :: stack) nb B' hnb_all hfuel' hmem' hrank' hsubres
                rw [hsub] at hmem₁
                obtain ⟨-, Δ₂, hmem₂, hrank₂, hrest₂⟩ :=
                  ihn (false, vissub) (B' ++ Δ₁)
                    (fun v hv => hns v (List.mem_cons_of_mem _ hv)) hmem₁ hrank₁ hr
                refine ⟨Δ₁ ++ Δ₂, ?_, ?_, ?_⟩
                · intro x
                  rw [← List.append_assoc]
                  exact hmem₂ x
                · have hassoc : B' ++ (Δ₁ ++ Δ₂) = (B' ++ Δ₁) ++ Δ₂ :=
                    (List.append_assoc _ _ _).symm
                  rw [hassoc]
                  exact hrank₂
                · intro v hv
                  rw [← List.append_assoc]
                  rcases List.mem_cons.mp hv with rfl | hv'
                  · exact List.mem_append.mpr (Or.inl hnb₁)
                  · exact hrest₂ v hv'
        have hmemInit : ∀ x, x ∈ (((false : Bool), nodeId :: visited) :
            Bool × List String).2 ↔ (x ∈ nodeId :: stack ∨ x ∈ B) := by
          intro x
          show x ∈ nodeId :: visited ↔ _
          simp only [List.mem_cons]
          rw [hmem x]
          tauto
        obtain ⟨-, Δi, hmemI, hrankI, hallI⟩ :=
          hfold (mapGetD adjacency nodeId []) (false, nodeId :: visited) B
            (fun v hv => hv) hmemInit hrank hres
        refine ⟨Δi ++ [nodeId], ?_, ?_, ?_⟩
        · intro x
          rw [hmemI x]
          simp only [List.mem_cons, List.mem_append, List.mem_singleton]
          tauto
        · have hassoc : B ++ (Δi ++ [nodeId]) = (B ++ Δi) ++ [nodeId] :=
            (List.append_assoc _ _ _).symm
          rw [hassoc]
          intro j hj v hstep
          by_cases hlt : j < (B ++ Δi).length
          · have hg : ((B ++ Δi) ++ [nodeId]).get ⟨j, hj⟩ = (B ++ Δi).get ⟨j, hlt⟩ :=
              List.get_append j hlt
            rw [List.take_append_of_le_length (le_of_lt hlt)]
            refine hrankI j hlt v ?_
            rw [← hg]
            exact hstep
          · have hjeq : j = (B ++ Δi).length := by
              have hj' := hj
              rw [List.length_append (B ++ Δi) [nodeId], List.length_singleton] at hj'
              omega
            subst hjeq
            have hg : ∀ (L : List String) (hL : L.length < (L ++ [nodeId]).length),
                (L ++ [nodeId]).get ⟨L.length, hL⟩ = nodeId := by
              intro L hL
              simp
            rw [hg (B ++ Δi) hj] at hstep
            rw [List.take_left]
            exact hallI v (hadj nodeId v hstep)
        · simp

theorem adjacency_edgeStep_full (nodes : List WorkflowNode) (edges : List WorkflowEdge) :
    ∀ u v, edgeStep edges u v → v ∈ mapGetD (buildAdjacencyList nodes edges) u [] := by
  intro u v hstep
  rw [buildAdjacencyList_char]
  obtain ⟨e, he, hs, ht⟩ := hstep
  exact List.mem_map.mpr ⟨e, List.mem_filter.mpr ⟨he, by simp [hs]⟩, ht⟩

theorem adjacency_targets (nodes : List WorkflowNode) (edges : List WorkflowEdge) :
    ∀ u v, v ∈ mapGetD (buildAdjacencyList nodes edges) u [] →
      v ∈ (allGraphIds nodes edges).dedup := by
  intro u v hv
  rw [List.mem_dedup]
  rw [buildAdjacencyList_char] at hv
  obtain ⟨e, he, rfl⟩ := List.mem_map.mp hv
  unfold allGraphIds
  exact List.mem_append.mpr (Or.inr (List.mem_map.mpr ⟨e, List.mem_of_mem_filter he, rfl⟩))

theorem detectCycle_complete (nodes : List WorkflowNode) (edges : List WorkflowEdge)
    (Hr : ∀ e ∈ edges, e.source ∈ nodeIds nodes)
    (w : String) (hcyc : Relation.TransGen (edgeStep edges) w w) :
    detectCycle nodes edges = true := by
  cases hdc : detectCycle nodes edges with
  | true => rfl
  | false =>
  exfalso
  have hf : detectCycle nodes edges = false := hdc
  simp only [detectCycle] at hf
  have hfuelOK : ∀ stack : List String, ((allGraphIds nodes edges).dedup.filter
      (fun y => decide (y ∉ stack))).length < (allGraphIds nodes edges).length + 1 := by
    intro stack
    have h1 : ((allGraphIds nodes edges).dedup.filter
        (fun y => decide (y ∉ stack))).length ≤
        (allGraphIds nodes edges).dedup.length := List.length_filter_le _ _
    have h2 : (allGraphIds nodes edges).dedup.length ≤
        (allGraphIds nodes edges).length := (List.dedup_sublist _).length_le
    omega
  have hfold : ∀ (ns : List WorkflowNode) (acc : Bool × List String) (B : List String),
      (∀ n ∈ ns, n ∈ nodes) →
      (∀ x, x ∈ acc.2 ↔ (x ∈ ([] : List String) ∨ x ∈ B)) →
      (∀ (j : Nat) (hj : j < B.length) (v : String),
        edgeStep edges (B.get ⟨j, hj⟩) v → v ∈ B.take j) →
      ((ns.foldl (fun acc node => if acc.1 then acc
        else hasCycleUtil (buildAdjacencyList nodes edges)
          ((allGraphIds nodes edges).length + 1) acc.2 [] node.id) acc).1 = false) →
      acc.1 = false ∧
      ∃ Δ,
        (∀ (j : Nat) (hj : j < (B ++ Δ).length) (v : String),
          edgeStep edges ((B ++ Δ).get ⟨j, hj⟩) v → v ∈ (B ++ Δ).take j) ∧
        (∀ n ∈ ns, n.id ∈ B ++ Δ) := by
    intro ns
    induction ns with
    | nil =>
      intro acc B hns hmem hrank hr
      refine ⟨hr, [], ?_, ?_⟩
      · simpa using hrank
      · intro n hn
        simp at hn
    | cons n rest ihn =>
      intro acc B hns hmem hrank hr
      rw [List.foldl_cons] at hr
      obtain ⟨b, vis⟩ := acc
      cases b with
      | true =>
        rw [if_pos rfl] at hr
        rw [detectFold_stable] at hr
        simp at hr
      | false =>
        refine ⟨rfl, ?_⟩
        rw [if_neg (by simp)] at hr
        rcases hsub : hasCycleUtil (buildAdjacencyList nodes edges)
            ((allGraphIds nodes edges).length + 1) vis [] n.id with ⟨bsub, vissub⟩
        rw [hsub] at hr
        cases bsub with
        | true =>
          rw [detectFold_stable] at hr
          simp at hr
        | false =>
          have hnid : n.id ∈ (allGraphIds nodes edges).dedup := by
            rw [List.mem_dedup]
            unfold allGraphIds
            refine List.mem_append.mpr (Or.inl (List.mem_append.mpr (Or.inl ?_)))
            exact List.mem_map_of_mem _ (hns n (List.mem_cons_self _ _))
          have hsubres : (hasCycleUtil (buildAdjacencyList nodes edges)
              ((allGraphIds nodes edges).length + 1) vis [] n.id).1 = false := by
            rw [hsub]
          obtain ⟨Δ₁, hmem₁, hrank₁, hn₁⟩ := hasCycleUtil_complete edges
            (buildAdjacencyList nodes edges) (allGraphIds nodes edges).dedup
            (List.nodup_dedup _) (adjacency_edgeStep_full nodes edges)
            (adjacency_targets nodes edges)
            ((allGraphIds nodes edges).length + 1) vis [] n.id B hnid
            (hfuelOK []) hmem hrank hsubres
          rw [hsub] at hmem₁
          obtain ⟨-, Δ₂, hrank₂, hrest₂⟩ :=
            ihn (false, vissub) (B ++ Δ₁)
              (fun n' hn' => hns n' (List.mem_cons_of_mem _ hn')) hmem₁ hrank₁ hr
          refine ⟨Δ₁ ++ Δ₂, ?_, ?_⟩
          · have hassoc : B ++ (Δ₁ ++ Δ₂) = (B ++ Δ₁) ++ Δ₂ :=
              (List.append_assoc _ _ _).symm
            rw [hassoc]
            exact hrank₂
          · intro n' hn'
            rw [← List.append_assoc]
            rcases List.mem_cons.mp hn' with rfl | hn''
            · exact List.mem_append.mpr (Or.inl hn₁)
            · exact hrest₂ n' hn''
  obtain ⟨-, BF, hrankF, hallF⟩ := hfold nodes (false, []) [] (fun n hn => hn)
    (by intro x; simp) (by intro j hj; simp at hj) hf
  simp only [List.nil_append] at hrankF hallF
  have hsrcBF : ∀ e ∈ edges, e.source ∈ BF := by
    intro e he
    have hsrc := Hr e he
    simp only [nodeIds] at hsrc
    obtain ⟨n, hn, hid⟩ := List.mem_map.mp hsrc
    have := hallF n hn
    rw [hid] at this
    exact this
  have hdesc : ∀ u v, Relation.TransGen (edgeStep edges) u v →
      u ∈ BF ∧ v ∈ BF ∧ BF.indexOf v < BF.indexOf u := by
    intro u v h
    induction h with
    | single hstep =>
      rename_i vv
      obtain ⟨e, he, hs, ht⟩ := hstep
      have hu : u ∈ BF := by
        rw [← hs]
        exact hsrcBF e he
      have hidx : BF.indexOf u < BF.length := List.indexOf_lt_length.mpr hu
      have hget : BF.get ⟨BF.indexOf u, hidx⟩ = u := List.indexOf_get hidx
      have hv : vv ∈ BF.take (BF.indexOf u) := by
        refine hrankF (BF.indexOf u) hidx vv ?_
        rw [hget]
        exact ⟨e, he, hs, ht⟩
      exact ⟨hu, List.take_subset _ _ hv, indexOf_lt_of_mem_take _ _ _ hv⟩
    | tail hT hstep ihd =>
      rename_i b c
      obtain ⟨hu, hb, hlt⟩ := ihd
      have hidx : BF.indexOf b < BF.length := List.indexOf_lt_length.mpr hb
      have hget : BF.get ⟨BF.indexOf b, hidx⟩ = b := List.indexOf_get hidx
      have hv : c ∈ BF.take (BF.indexOf b) := by
        refine hrankF (BF.indexOf b) hidx c ?_
        rw [hget]
        exact hstep
      exact ⟨hu, List.take_subset _ _ hv,
        lt_trans (indexOf_lt_of_mem_take _ _ _ hv) hlt⟩
  obtain ⟨-, -, hww⟩ := hdesc w w hcyc
  omega

-- ============================================================================
-- Claims C1, C2, C10 — planner ordering, cycle rejection, dangling edges
-- ============================================================================

theorem acyclic_of_rank (edges : List WorkflowEdge) (rk : String → Nat)
    (h : ∀ u v, edgeStep edges u v → rk u < rk v) : Acyclic edges := by
  intro s hcyc
  have hmono : ∀ u v, Relation.TransGen (edgeStep edges) u v → rk u < rk v := by
    intro u v ht
    induction ht with
    | single hstep => exact h _ _ hstep
    | tail hT hstep ihd => exact lt_trans ihd (h _ _ hstep)
  exact absurd (hmono s s hcyc) (lt_irrefl _)

theorem detectCycle_false_of_acyclic (nodes : List WorkflowNode)
    (edges : List WorkflowEdge) (Hacyc : Acyclic edges) :
    detectCycle nodes edges = false := by
  cases hdc : detectCycle nodes edges with
  | false => rfl
  | true =>
    obtain ⟨s, hs⟩ := detectCycle_sound _ _ hdc
    exact absurd hs (Hacyc s)

theorem buildExecutionPlan_of_sort {w : Workflow} {res : List WorkflowNode}
    (Hacyc : Acyclic w.edges)
    (hsort : topologicalSort w.nodes w.edges = some res) :
    buildExecutionPlan w =
      { nodes := res.map (fun node =>
          { nodeId := node.id, node := node, inputs := [],
            dependencies := mapGetD (buildDependencyMap w.edges) node.id [] }),
        valid := true, errors := [] } := by
  have hcheck : checkForCycles w.nodes w.edges = (false, none) := by
    unfold checkForCycles
    rw [detectCycle_false_of_acyclic _ _ Hacyc]
    simp
  unfold buildExecutionPlan
  rw [hcheck]
  simp only []
  rw [hsort]

/-- Claim C1: for every acyclic workflow graph (distinct node ids, edges
between real nodes), `buildExecutionPlan` returns a valid plan whose context
order places every edge's source strictly before its target; ties between
independent nodes break by original array position through the FIFO queue —
in particular the edgeless two-node workflow `[A, B]` is planned exactly as
`[A, B]`. -/
theorem claim_C1 (w : Workflow)
    (Hn : (nodeIds w.nodes).Nodup)
    (Hr : ∀ e ∈ w.edges, e.source ∈ nodeIds w.nodes ∧ e.target ∈ nodeIds w.nodes)
    (Hacyc : Acyclic w.edges) :
    ((buildExecutionPlan w).valid = true ∧
      ∀ e ∈ w.edges,
        ((buildExecutionPlan w).nodes.map (fun c => c.nodeId)).indexOf e.source <
        ((buildExecutionPlan w).nodes.map (fun c => c.nodeId)).indexOf e.target) ∧
    (buildExecutionPlan testWorkflowAB).nodes.map (fun c => c.nodeId) = ["A", "B"] := by
  obtain ⟨res, hsort⟩ := topologicalSort_complete w.nodes w.edges Hn
    (fun e he => (Hr e he).1) Hacyc
  have hplan := buildExecutionPlan_of_sort Hacyc hsort
  refine ⟨⟨?_, ?_⟩, ?_⟩
  · rw [hplan]
  · intro e he
    rw [hplan]
    simp only [List.map_map]
    have hcomp : ((fun c : ExecutionContext => c.nodeId) ∘
        (fun node : WorkflowNode =>
          ({ nodeId := node.id, node := node, inputs := [],
             dependencies := mapGetD (buildDependencyMap w.edges) node.id [] } :
            ExecutionContext))) = fun node : WorkflowNode => node.id := rfl
    rw [hcomp]
    refine topologicalSort_order Hn (fun e' he' => Or.inl (Hr e' he').1) hsort e he ?_
    exact topologicalSort_ids_covered Hn hsort e.target (Hr e he).2
  · decide

/-- Witness for claim C1 at the edgeless two-node workflow. -/
theorem claim_C1_witness :
    (nodeIds testWorkflowAB.nodes).Nodup ∧
    Acyclic testWorkflowAB.edges ∧
    (((buildExecutionPlan testWorkflowAB).valid = true ∧
      ∀ e ∈ testWorkflowAB.edges,
        ((buildExecutionPlan testWorkflowAB).nodes.map (fun c => c.nodeId)).indexOf
          e.source <
        ((buildExecutionPlan testWorkflowAB).nodes.map (fun c => c.nodeId)).indexOf
          e.target) ∧
      (buildExecutionPlan testWorkflowAB).nodes.map (fun c => c.nodeId) = ["A", "B"]) :=
  ⟨by decide,
   acyclic_of_rank _ (fun _ => 0)
     (by
       intro u v hstep
       obtain ⟨e, he, _⟩ := hstep
       exact absurd he (by simp [testWorkflowAB])),
   claim_C1 testWorkflowAB (by decide)
     (by
       intro e he
       exact absurd he (by simp [testWorkflowAB]))
     (acyclic_of_rank _ (fun _ => 0)
       (by
         intro u v hstep
         obtain ⟨e, he, _⟩ := hstep
         exact absurd he (by simp [testWorkflowAB])))⟩

/-- Claim C2: for every workflow graph containing a cycle among its nodes
(self-loops included), `detectCycle` returns `true`, the plan is invalid with
a cycle error message, and running the workflow yields overall status `error`
with an outcome that does not depend on the executor registry (no node
executor is ever consulted). -/
theorem claim_C2 (runner : WorkflowRunner) (reg : Registry)
    (Hr : ∀ e ∈ runner.workflow.edges, e.source ∈ nodeIds runner.workflow.nodes)
    (s : String)
    (hcyc : Relation.TransGen (edgeStep runner.workflow.edges) s s) :
    detectCycle runner.workflow.nodes runner.workflow.edges = true ∧
    (buildExecutionPlan runner.workflow).valid = false ∧
    (∃ t, (buildExecutionPlan runner.workflow).errors =
      ["Workflow contains a cycle: " ++ t]) ∧
    (runner.run reg).1.status = RunStatus.error ∧
    (∀ reg' : Registry, runner.run reg = runner.run reg') := by
  have hdc : detectCycle runner.workflow.nodes runner.workflow.edges = true :=
    detectCycle_complete _ _ Hr s hcyc
  have hcheck : checkForCycles runner.workflow.nodes runner.workflow.edges =
      (true, some (findCycle runner.workflow.nodes runner.workflow.edges)) := by
    unfold checkForCycles
    rw [hdc]
    simp
  have hplan : buildExecutionPlan runner.workflow =
      { nodes := [], valid := false,
        errors := ["Workflow contains a cycle: " ++
          cycleText (some (findCycle runner.workflow.nodes runner.workflow.edges))] } := by
    unfold buildExecutionPlan
    rw [hcheck]
  have hvalid : (buildExecutionPlan runner.workflow).valid = false := by rw [hplan]
  refine ⟨hdc, hvalid,
    ⟨cycleText (some (findCycle runner.workflow.nodes runner.workflow.edges)),
      by rw [hplan]⟩, ?_, ?_⟩
  · simp only [WorkflowRunner.run, hvalid]
    rw [if_pos trivial]
  · intro reg'
    simp only [WorkflowRunner.run, hvalid]
    rw [if_pos trivial, if_pos trivial]

/-- Witness for claim C2 at the self-loop workflow. -/
theorem claim_C2_witness :
    Relation.TransGen (edgeStep testWorkflowLoop.edges) "A" "A" ∧
    (detectCycle testWorkflowLoop.nodes testWorkflowLoop.edges = true ∧
     (buildExecutionPlan testWorkflowLoop).valid = false ∧
     (∃ t, (buildExecutionPlan testWorkflowLoop).errors =
       ["Workflow contains a cycle: " ++ t]) ∧
     (((WorkflowRunner.construct testWorkflowLoop {} "1" "r").run emptyRegistry).1.status =
       RunStatus.error) ∧
     (∀ reg' : Registry,
       (WorkflowRunner.construct testWorkflowLoop {} "1" "r").run emptyRegistry =
         (WorkflowRunner.construct testWorkflowLoop {} "1" "r").run reg')) :=
  ⟨Relation.TransGen.single ⟨testEdgeAA, by simp [testWorkflowLoop], rfl, rfl⟩,
   claim_C2 (WorkflowRunner.construct testWorkflowLoop {} "1" "r") emptyRegistry
     (by decide) "A"
     (Relation.TransGen.single ⟨testEdgeAA, by decide, rfl, rfl⟩)⟩

/-- Counterexample to claim C10: the workflow `A -> X -> B` (nodes `A`, `B`;
`X` is no node) is acyclic and contains an edge whose source matches no node,
yet its plan is valid — the dangling id is itself an edge target, enters the
queue with in-degree zero after `A` is processed, and unblocks `B`. -/
theorem claim_C10_counterexample :
    Acyclic testWorkflowAXB.edges ∧
    (∃ e ∈ testWorkflowAXB.edges, e.source ∉ nodeIds testWorkflowAXB.nodes) ∧
    (buildExecutionPlan testWorkflowAXB).valid = true := by
  refine ⟨?_, ?_, ?_⟩
  · refine acyclic_of_rank _
      (fun s => if s = "A" then 0 else if s = "X" then 1 else 2) ?_
    intro u v hstep
    obtain ⟨e, he, hs, ht⟩ := hstep
    simp only [testWorkflowAXB] at he
    subst hs
    subst ht
    rcases List.mem_cons.mp he with rfl | he2
    · decide
    · rcases List.mem_cons.mp he2 with rfl | he3
      · decide
      · simp at he3
  · exact ⟨testEdgeXB, by simp [testWorkflowAXB], by decide⟩
  · decide

/-- Claim C10 (amended): `buildExecutionPlan` performs no dangling-edge
validation, and the two dangling cases diverge under the proviso that the
dangling source id is not itself fed by the edge list: for an acyclic graph
with distinct node ids in which every edge source is a real node or not an
edge target, an edge whose source matches no node but whose target is a real
node makes the plan invalid with exactly the error `Failed to topologically
sort nodes (possible cycle)`; with every source real (targets may dangle) the
plan is valid and contains a context for every real node. -/
theorem claim_C10 (w : Workflow)
    (Hn : (nodeIds w.nodes).Nodup)
    (Hacyc : Acyclic w.edges) :
    ((∀ e ∈ w.edges, e.source ∈ nodeIds w.nodes ∨
        e.source ∉ w.edges.map (fun e => e.target)) →
      ∀ e₀ ∈ w.edges, e₀.source ∉ nodeIds w.nodes → e₀.target ∈ nodeIds w.nodes →
      (buildExecutionPlan w).valid = false ∧
      (buildExecutionPlan w).errors =
        ["Failed to topologically sort nodes (possible cycle)"]) ∧
    ((∀ e ∈ w.edges, e.source ∈ nodeIds w.nodes) →
      (buildExecutionPlan w).valid = true ∧
      ∀ n ∈ w.nodes, ∃ ctx ∈ (buildExecutionPlan w).nodes, ctx.nodeId = n.id) := by
  have hcheck : checkForCycles w.nodes w.edges = (false, none) := by
    unfold checkForCycles
    rw [detectCycle_false_of_acyclic _ _ Hacyc]
    simp
  constructor
  · intro Hsrc e₀ he₀ hs₀ ht₀
    have hnone : topologicalSort w.nodes w.edges = none := by
      cases hsort : topologicalSort w.nodes w.edges with
      | none => rfl
      | some res =>
        exfalso
        have hcov := topologicalSort_ids_covered Hn hsort e₀.target ht₀
        obtain ⟨n, hn, hid⟩ := List.mem_map.mp hcov
        obtain ⟨⟨j, hj⟩, hget⟩ := List.mem_iff_get.mp hn
        have hksres := topologicalSort_ksres Hn Hsrc hsort e₀ he₀ j hj
          (by rw [hget, hid])
        obtain ⟨n', hn', hid'⟩ := List.mem_map.mp hksres
        have hn'' : n' ∈ res := List.take_subset _ _ hn'
        have hmem : e₀.source ∈ nodeIds w.nodes := by
          rw [← hid']
          exact List.mem_map_of_mem _ (topologicalSort_mem hsort n' hn'')
        exact hs₀ hmem
    have hplan : buildExecutionPlan w =
        { nodes := [], valid := false,
          errors := ["Failed to topologically sort nodes (possible cycle)"] } := by
      unfold buildExecutionPlan
      rw [hcheck]
      simp only []
      rw [hnone]
    exact ⟨by rw [hplan], by rw [hplan]⟩
  · intro HsrcFull
    obtain ⟨res, hsort⟩ := topologicalSort_complete w.nodes w.edges Hn HsrcFull Hacyc
    have hplan := buildExecutionPlan_of_sort Hacyc hsort
    refine ⟨by rw [hplan], ?_⟩
    intro n hn
    have hcov := topologicalSort_ids_covered Hn hsort n.id (List.mem_map_of_mem _ hn)
    obtain ⟨n', hn', hid'⟩ := List.mem_map.mp hcov
    refine ⟨{ nodeId := n'.id, node := n', inputs := [], dependencies := mapGetD (buildDependencyMap w.edges) n'.id [] }, ?_, hid'⟩
    rw [hplan]
    exact List.mem_map.mpr ⟨n', hn', rfl⟩

/-- Witness for claim C10 at the dangling-source workflow `X -> B`. -/
theorem claim_C10_witness :
    Acyclic testWorkflowXB.edges ∧
    ((buildExecutionPlan testWorkflowXB).valid = false ∧
     (buildExecutionPlan testWorkflowXB).errors =
       ["Failed to topologically sort nodes (possible cycle)"]) := by
  have hacyc : Acyclic testWorkflowXB.edges := by
    refine acyclic_of_rank _ (fun s => if s = "X" then 0 else 1) ?_
    intro u v hstep
    obtain ⟨e, he, hs, ht⟩ := hstep
    simp only [testWorkflowXB] at he
    subst hs
    subst ht
    rcases List.mem_cons.mp he with rfl | he2
    · decide
    · simp at he2
  exact ⟨hacyc, (claim_C10 testWorkflowXB (by decide) hacyc).1 (by decide) testEdgeXB
    (by decide) (by decide) (by decide)⟩
